import Mathlib

/-!
# Web-Crawler: a verification development

A shallow embedding of the crawler's core (`crawl.go`, `normalize_url.go`), of the
report (`report.go`), the fetcher (`http_client.go`) and the heading and excerpt
extraction (`html_parser.go`), together with the part of Go's `net/url` and `strings`
packages that they call.

Conventions.
* A Go `string` is a byte sequence.  It is modelled by `String`; the parsing functions
  work on its character list, one `Char` standing for one byte (for ASCII text the two
  coincide; a byte produced by percent-decoding is the `Char` with that code).
* A Go `error` result is modelled by `Option`: `none` is "an error was returned".
* A Go `map[string]PageData` is modelled by an association list (`GoMap`) with the
  three operations the program uses: lookup, assignment and `len`.
* The concurrent crawl is a transition system over the shared data and the program
  points of the tasks; a run is a schedule, the list of the tasks that move.

The file has two parts: all definitions, then all theorems.  The theorems named `C1` to
`C17` are the claims about the program; the other theorems are their lemmas.
-/

namespace WebCrawler

/-! # Part 1: definitions -/

/-! ## The `strings` package (the functions used here) -/

namespace Strings

/-- Go `strings.Cut(s, sep)` for a one-byte separator: text before the first `sep`,
text after it, and whether `sep` was found (not found: all of `s`, empty, false). -/
def cut (sep : Char) : List Char → List Char × List Char × Bool
  | [] => ([], [], false)
  | c :: cs =>
    if c = sep then ([], cs, true)
    else
      let r := cut sep cs
      (c :: r.1, r.2.1, r.2.2)

/-- Go `strings.HasPrefix`. -/
def hasPrefix (s pre : List Char) : Bool := pre.isPrefixOf s

/-- Go `strings.HasSuffix`. -/
def hasSuffix (s suf : List Char) : Bool := suf.isSuffixOf s

/-- Go `strings.Count(s, c)` for a one-byte pattern. -/
def count (s : List Char) (c : Char) : Nat := s.count c

/-- Go `strings.Contains(s, c)` for a one-byte pattern. -/
def contains (s : List Char) (c : Char) : Bool := s.elem c

/-- Go `strings.LastIndex(s, c)` for a one-byte pattern; `none` stands for `-1`. -/
def lastIndex (c : Char) : List Char → Option Nat
  | [] => none
  | x :: xs =>
    match lastIndex c xs with
    | some i => some (i + 1)
    | none => if x = c then some 0 else none

/-- Go `strings.Index(s, sub)`; `none` stands for `-1`. -/
def index (sub : List Char) : List Char → Option Nat
  | [] => if sub.isEmpty then some 0 else none
  | x :: xs =>
    if sub.isPrefixOf (x :: xs) then some 0
    else (index sub xs).map (· + 1)

/-- Go `strings.TrimSuffix(s, suffix)`: `s` without the trailing `suffix` when `s` ends
with it, `s` unchanged otherwise. -/
def trimSuffix (s suffix : List Char) : List Char :=
  if hasSuffix s suffix then s.take (s.length - suffix.length) else s

/-- Go `strings.ToLower` on ASCII text. -/
def toLower (s : List Char) : List Char := s.map Char.toLower

end Strings

/-! ## The `net/url` package: `url.Parse`

Transcribed from the Go standard library (`net/url/url.go`): `Parse`, `parse`,
`getScheme`, `parseAuthority`, `parseHost`, `validOptionalPort`, `validUserinfo`,
`unescape`, `shouldEscape` (host mode), `setPath`, `setFragment`.  The fields `RawPath`
and `RawFragment` (encoding hints) are not read by the crawler and are left out. -/

namespace Url

/-- Go `url.Userinfo`. -/
structure Userinfo where
  username : String
  password : String
  passwordSet : Bool
  deriving DecidableEq, Repr

/-- Go `url.URL` (without the encoding hints `RawPath` and `RawFragment`). -/
structure URL where
  Scheme : String := ""
  Opaque : String := ""
  User : Option Userinfo := none
  Host : String := ""
  Path : String := ""
  ForceQuery : Bool := false
  RawQuery : String := ""
  Fragment : String := ""
  OmitHost : Bool := false
  deriving DecidableEq, Repr

/-- The escaping modes of `net/url` that `Parse` uses. -/
inductive Encoding
  | encodePath
  | encodeHost
  | encodeZone
  | encodeUserPassword
  | encodeFragment
  deriving DecidableEq, Repr

/-- Go `stringContainsCTLByte`: some byte is below space or is DEL. -/
def stringContainsCTLByte (s : List Char) : Bool :=
  s.any fun b => b.toNat < 0x20 || b.toNat == 0x7f

def isAlpha (c : Char) : Bool :=
  ('a' ≤ c && c ≤ 'z') || ('A' ≤ c && c ≤ 'Z')

def isDigit (c : Char) : Bool := '0' ≤ c && c ≤ '9'

/-- Go `ishex`. -/
def ishex (c : Char) : Bool :=
  ('0' ≤ c && c ≤ '9') || ('a' ≤ c && c ≤ 'f') || ('A' ≤ c && c ≤ 'F')

/-- Go `unhex`. -/
def unhex (c : Char) : Nat :=
  if '0' ≤ c && c ≤ '9' then c.toNat - '0'.toNat
  else if 'a' ≤ c && c ≤ 'f' then c.toNat - 'a'.toNat + 10
  else if 'A' ≤ c && c ≤ 'F' then c.toNat - 'A'.toNat + 10
  else 0

/-- Go `shouldEscape(c, encodeHost)`: the bytes that may not stand unescaped in a host. -/
def shouldEscapeHost (c : Char) : Bool :=
  if isAlpha c || isDigit c then false
  else if c ∈ ['!', '$', '&', '\'', '(', ')', '*', '+', ',', ';', '=', ':', '[', ']', '<', '>', '"']
  then false
  else if c ∈ ['-', '_', '.', '~'] then false
  else true

/-- The scanning loop of Go `getScheme`; `i` is the index of the byte looked at.
`none` is the error "missing protocol scheme". -/
def getSchemeLoop (rawURL : List Char) : Nat → List Char → Option (List Char × List Char)
  | _, [] => some ([], rawURL)
  | i, c :: cs =>
    if isAlpha c then getSchemeLoop rawURL (i + 1) cs
    else if isDigit c || c == '+' || c == '-' || c == '.' then
      if i = 0 then some ([], rawURL) else getSchemeLoop rawURL (i + 1) cs
    else if c == ':' then
      if i = 0 then none else some (rawURL.take i, cs)
    else some ([], rawURL)

/-- Go `getScheme`: the scheme and the rest after the colon, or no scheme and all of
the input. -/
def getScheme (rawURL : List Char) : Option (List Char × List Char) :=
  getSchemeLoop rawURL 0 rawURL

/-- The first loop of Go `unescape`: every `%` is followed by two hex digits, and in
host and zone mode the text holds only bytes allowed there. -/
def unescapeValid (mode : Encoding) : List Char → Bool
  | [] => true
  | c :: rest =>
    if c = '%' then
      match rest with
      | h1 :: h2 :: rest2 =>
        if !(ishex h1 && ishex h2) then false
        else if mode == .encodeHost && unhex h1 < 8 && !(h1 == '2' && h2 == '5') then false
        else if mode == .encodeZone && !(h1 == '2' && h2 == '5')
            && (unhex h1 * 16 + unhex h2 != 0x20)
            && shouldEscapeHost (Char.ofNat (unhex h1 * 16 + unhex h2)) then false
        else unescapeValid mode rest2
      | _ => false
    else if (mode == .encodeHost || mode == .encodeZone) && c.toNat < 0x80
        && shouldEscapeHost c then false
    else unescapeValid mode rest

/-- The second loop of Go `unescape` (modes other than query component): each `%XX`
becomes the byte it names. -/
def unescapeBuild : List Char → List Char
  | [] => []
  | c :: rest =>
    if c = '%' then
      match rest with
      | h1 :: h2 :: rest2 => Char.ofNat (unhex h1 * 16 + unhex h2) :: unescapeBuild rest2
      | _ => [c]
    else c :: unescapeBuild rest

/-- Go `unescape(s, mode)`. -/
def unescape (s : List Char) (mode : Encoding) : Option (List Char) :=
  if unescapeValid mode s then some (unescapeBuild s) else none

/-- Go `validOptionalPort`: empty, or a colon followed by digits only. -/
def validOptionalPort (port : List Char) : Bool :=
  match port with
  | [] => true
  | c :: ds => c == ':' && ds.all fun b => !(b < '0' || b > '9')

/-- Go `validUserinfo`. -/
def validUserinfo (s : List Char) : Bool :=
  s.all fun r =>
    isAlpha r || isDigit r ||
    r ∈ ['-', '.', '_', ':', '~', '!', '$', '&', '\'', '(', ')', '*', '+', ',', ';', '=', '%', '@']

/-- Go `parseHost`. -/
def parseHost (host : List Char) : Option (List Char) :=
  if Strings.hasPrefix host ['['] then
    match Strings.lastIndex ']' host with
    | none => none
    | some i =>
      let colonPort := host.drop (i + 1)
      if !validOptionalPort colonPort then none
      else
        match Strings.index ['%', '2', '5'] (host.take i) with
        | some zone =>
          match unescape (host.take zone) .encodeHost with
          | none => none
          | some host1 =>
            match unescape ((host.take i).drop zone) .encodeZone with
            | none => none
            | some host2 =>
              match unescape (host.drop i) .encodeHost with
              | none => none
              | some host3 => some (host1 ++ host2 ++ host3)
        | none => unescape host .encodeHost
  else
    match Strings.lastIndex ':' host with
    | some i =>
      if !validOptionalPort (host.drop i) then none else unescape host .encodeHost
    | none => unescape host .encodeHost

/-- Go `parseAuthority`: the user information and the host of `user@host`. -/
def parseAuthority (authority : List Char) : Option (Option Userinfo × List Char) :=
  match Strings.lastIndex '@' authority with
  | none =>
    match parseHost authority with
    | none => none
    | some host => some (none, host)
  | some i =>
    match parseHost (authority.drop (i + 1)) with
    | none => none
    | some host =>
      let userinfo := authority.take i
      if !validUserinfo userinfo then none
      else if !Strings.contains userinfo ':' then
        match unescape userinfo .encodeUserPassword with
        | none => none
        | some u => some (some ⟨String.mk u, "", false⟩, host)
      else
        let c := Strings.cut ':' userinfo
        match unescape c.1 .encodeUserPassword with
        | none => none
        | some username =>
          match unescape c.2.1 .encodeUserPassword with
          | none => none
          | some password => some (some ⟨String.mk username, String.mk password, true⟩, host)

/-- Go `parse(rawURL, viaRequest)` with `viaRequest = false`, as `Parse` calls it. -/
def parse (rawURL : List Char) : Option URL :=
  if stringContainsCTLByte rawURL then none
  else if rawURL = ['*'] then some { Path := "*" }
  else
    match getScheme rawURL with
    | none => none
    | some (scheme0, rest0) =>
      let scheme := Strings.toLower scheme0
      let forceQuery := Strings.hasSuffix rest0 ['?'] && Strings.count rest0 '?' == 1
      let rest1 := if forceQuery then rest0.take (rest0.length - 1) else (Strings.cut '?' rest0).1
      let rawQuery := if forceQuery then [] else (Strings.cut '?' rest0).2.1
      if !Strings.hasPrefix rest1 ['/'] && !scheme.isEmpty then
        some { Scheme := String.mk scheme, Opaque := String.mk rest1,
               ForceQuery := forceQuery, RawQuery := String.mk rawQuery }
      else if !Strings.hasPrefix rest1 ['/']
          && Strings.contains (Strings.cut '/' rest1).1 ':' then none
      else if (!scheme.isEmpty || !Strings.hasPrefix rest1 ['/', '/', '/'])
          && Strings.hasPrefix rest1 ['/', '/'] then
        let authority0 := rest1.drop 2
        let authority := (Strings.cut '/' authority0).1
        let rest2 := authority0.drop authority.length
        match parseAuthority authority with
        | none => none
        | some (user, host) =>
          match unescape rest2 .encodePath with
          | none => none
          | some path =>
            some { Scheme := String.mk scheme, User := user, Host := String.mk host,
                   Path := String.mk path, ForceQuery := forceQuery,
                   RawQuery := String.mk rawQuery }
      else
        match unescape rest1 .encodePath with
        | none => none
        | some path =>
          some { Scheme := String.mk scheme, Path := String.mk path,
                 ForceQuery := forceQuery, RawQuery := String.mk rawQuery,
                 OmitHost := !scheme.isEmpty && Strings.hasPrefix rest1 ['/'] }

/-- Go `url.Parse(rawURL)`: cut off the fragment, parse the rest, then set the
fragment. -/
def Parse (rawURL : String) : Option URL :=
  let c := Strings.cut '#' rawURL.data
  match parse c.1 with
  | none => none
  | some url =>
    if c.2.1 = [] then some url
    else
      match unescape c.2.1 .encodeFragment with
      | none => none
      | some frag => some { url with Fragment := String.mk frag }

end Url

/-! ## `normalize_url.go` -/

/-- Go `strings.TrimSuffix` on strings. -/
def trimSuffix (s suffix : String) : String :=
  String.mk (Strings.trimSuffix s.data suffix.data)

/-- The function `normalizeURL` of `normalize_url.go`: the host followed by the path without one
trailing slash; `none` when `url.Parse` fails. -/
def normalizeURL (input : String) : Option String :=
  match Url.Parse input with
  | none => none
  | some parsedURL =>
    let host := parsedURL.Host
    let path := trimSuffix parsedURL.Path "/"
    some (host ++ path)

/-! ## The registry (`crawl.go`, `html_parser.go`) -/

/-- The type `PageData` of `html_parser.go`.  Its default value is the zero value of Go,
the record with every field empty. -/
structure PageData where
  URL : String := ""
  H1 : String := ""
  FirstParagraph : String := ""
  OutgoingLinks : List String := []
  ImageURLs : List String := []
  deriving DecidableEq, Repr

/-- A Go `map[string]PageData`: its entries, at most one per key when built with
`assign` from the empty map. -/
structure GoMap where
  entries : List (String × PageData)
  deriving DecidableEq, Repr

namespace GoMap

/-- Go `make(map[string]PageData)`. -/
def empty : GoMap := ⟨[]⟩

def lookupL (key : String) : List (String × PageData) → Option PageData
  | [] => none
  | (k, v) :: rest => if k = key then some v else lookupL key rest

def assignL (key : String) (v : PageData) : List (String × PageData) → List (String × PageData)
  | [] => [(key, v)]
  | (k, w) :: rest => if k = key then (k, v) :: rest else (k, w) :: assignL key v rest

/-- Go `v, exists := m[key]`. -/
def lookup (m : GoMap) (key : String) : Option PageData := lookupL key m.entries

/-- Go `m[key] = v`: overwrite the entry of `key`, or add one. -/
def assign (m : GoMap) (key : String) (v : PageData) : GoMap := ⟨assignL key v m.entries⟩

/-- Go `len(m)`. -/
def len (m : GoMap) : Nat := m.entries.length

/-- The keys of the map. -/
def keys (m : GoMap) : List String := m.entries.map Prod.fst

end GoMap

/-- The method `config.addPageVisit` of `crawl.go`, one atomic step under `cfg.mu`: the returned
`isFirst` and the registry afterwards. -/
def addPageVisit (pages : GoMap) (normalizedURL : String) : Bool × GoMap :=
  match pages.lookup normalizedURL with
  | some _ => (false, pages)
  | none => (true, pages.assign normalizedURL {})

/-- The method `config.pagesLen` of `crawl.go`. -/
def pagesLen (pages : GoMap) : Nat := pages.len

/-- A finite sequence of `addPageVisit` calls in the order in which they take the mutex:
the result of each call, in that order, and the registry after the last one. -/
def addPageVisits (pages : GoMap) : List String → List Bool × GoMap
  | [] => ([], pages)
  | k :: ks =>
    let r := addPageVisit pages k
    let rs := addPageVisits r.2 ks
    (r.1 :: rs.1, rs.2)


/-! ## The crawl (`crawl.go`, `main.go`)

`crawlPage` runs as one goroutine per URL.  The goroutines share the registry
`cfg.pages` (guarded by `cfg.mu`), the permit channel `cfg.concurrencyControl` and the
wait group `cfg.wg`.  The model is a transition system: a state holds the shared data
and every task with its program point, and one step lets one task run from its program
point up to and including its next access to shared data (or its fetch).  Statements
between two such accesses touch only the task's own variables and are part of the step
that follows them.  The two statements `cfg.wg.Add(1)` and `go cfg.crawlPage(link)` of
one loop round are two steps, with a program point of its own between them: there the
counter of `cfg.wg` already counts a child that is not yet spawned. -/

/-- The collaborators of the crawl: the fetcher `getHTML` of `http_client.go`, a function
of the raw URL (`none`: an error was returned), and the four extraction functions of
`html_parser.go`, which rest on the HTML parsing libraries. -/
structure Env where
  getHTML : String → Option String
  getH1FromHTML : String → String
  getFirstParagraphFromHTML : String → String
  getURLsFromHTML : String → Url.URL → List String
  getImagesFromHTML : String → Url.URL → List String

/-- The function `extractPageData` of `html_parser.go`. -/
def extractPageData (env : Env) (htmlBody rawURL : String) : PageData :=
  match Url.Parse rawURL with
  | none => { URL := rawURL }
  | some baseURL =>
    { URL := rawURL
      H1 := env.getH1FromHTML htmlBody
      FirstParagraph := env.getFirstParagraphFromHTML htmlBody
      OutgoingLinks := env.getURLsFromHTML htmlBody baseURL
      ImageURLs := env.getImagesFromHTML htmlBody baseURL }

/-- The fields of `config` that stay fixed during a crawl: `cfg.baseURL.Host`, the
capacity of the channel `cfg.concurrencyControl`, and `cfg.maxPages`. -/
structure Config where
  baseURLHost : String
  capacity : Nat
  maxPages : Int

/-- The exit paths of `crawlPage`. -/
inductive Exit
  /-- The `return` of line 48: page limit reached. -/
  | limitReached
  /-- The `return` of line 53: `url.Parse` failed. -/
  | parseFailure
  /-- The `return` of line 58: the host is not the base host. -/
  | outOfScope
  /-- The `return` of line 64: `normalizeURL` failed. -/
  | normalizeFailure
  /-- The `return` of line 70: the key was already claimed. -/
  | alreadyVisited (key : String)
  /-- The `return` of line 76: `getHTML` failed. -/
  | fetchFailure (key : String)
  /-- The end of the function body, after the spawning loop. -/
  | completed (key : String)
  deriving DecidableEq, Repr

/-- The program points of a `crawlPage` task. -/
inductive PC
  /-- Spawned; the channel send of line 40 comes next. -/
  | pending
  /-- Permit held; the limit check of line 47 (and lines 51 to 65) comes next. -/
  | limitCheck
  /-- The call `cfg.addPageVisit(normalizedURL)` of line 68 comes next. -/
  | claim (key : String)
  /-- The key is claimed; `getHTML` and `extractPageData` (lines 74 to 80) come next. -/
  | fetch (key : String)
  /-- The locked assignment `cfg.pages[normalizedURL] = pageData` comes next. -/
  | finalize (key : String) (pageData : PageData)
  /-- At the head of the loop of lines 86 to 89, with these links still to go. -/
  | spawn (key : String) (links : List String)
  /-- In the loop, `cfg.wg.Add(1)` of line 87 done for `link`; the statement
  `go cfg.crawlPage(link)` of line 88 comes next, then the loop goes on with `links`. -/
  | launch (key : String) (link : String) (links : List String)
  /-- The body has returned; the deferred channel receive of line 42 comes next. -/
  | exiting (why : Exit)
  /-- The permit is back; the deferred `cfg.wg.Done()` of line 43 comes next. -/
  | signalling (why : Exit)
  /-- The task has ended. -/
  | finished (why : Exit)
  deriving DecidableEq, Repr

/-- A `crawlPage` task: its argument and program point, and counters that record what
the task has done so far (they are written, never read, by the steps). -/
structure Task where
  rawCurrentURL : String
  pc : PC := .pending
  /-- Number of executed channel sends (line 40). -/
  acquired : Nat := 0
  /-- Number of executed channel receives (line 42). -/
  released : Nat := 0
  /-- Number of executed `cfg.wg.Done()` calls (line 43). -/
  doneCalls : Nat := 0
  /-- Number of entries by which this task's steps have enlarged the registry. -/
  inserted : Nat := 0
  /-- Number of executed `go cfg.crawlPage(link)` statements (line 88). -/
  spawned : Nat := 0
  /-- Number of executed `getHTML` calls (line 74). -/
  fetched : Nat := 0
  deriving DecidableEq, Repr

/-- The shared data and the tasks: the registry `cfg.pages`, the number of values in
the channel `cfg.concurrencyControl`, the counter of `cfg.wg`, and all tasks spawned so
far in spawning order. -/
structure State where
  pages : GoMap
  permits : Nat
  wg : Int
  tasks : List Task
  deriving DecidableEq, Repr

/-- What one step of a task yields: the task afterwards, the shared data afterwards and
the tasks it has spawned. -/
structure Outcome where
  task : Task
  pages : GoMap
  permits : Nat
  wg : Int
  children : List Task
  deriving DecidableEq, Repr

/-- An outcome that changes nothing but the task itself. -/
def Outcome.own (s : State) (t : Task) : Outcome :=
  { task := t, pages := s.pages, permits := s.permits, wg := s.wg, children := [] }

/-- One step of task `t` of `crawlPage` in state `s`; `none` when the task cannot move
(blocked on the channel, or ended). -/
def crawlPageStep (env : Env) (cfg : Config) (s : State) (t : Task) : Option Outcome :=
  match t.pc with
  | .pending =>
    -- line 40: `cfg.concurrencyControl <- struct{}{}` blocks while the channel is full
    if s.permits < cfg.capacity then
      some { Outcome.own s { t with pc := .limitCheck, acquired := t.acquired + 1 } with
             permits := s.permits + 1 }
    else none
  | .limitCheck =>
    -- line 47: `cfg.maxPages > 0 && cfg.pagesLen() >= cfg.maxPages`
    if cfg.maxPages > 0 ∧ (pagesLen s.pages : Int) ≥ cfg.maxPages then
      some (Outcome.own s { t with pc := .exiting .limitReached })
    else
      -- line 51
      match Url.Parse t.rawCurrentURL with
      | none => some (Outcome.own s { t with pc := .exiting .parseFailure })
      | some currentURL =>
        -- line 57
        if cfg.baseURLHost ≠ currentURL.Host then
          some (Outcome.own s { t with pc := .exiting .outOfScope })
        else
          -- line 62
          match normalizeURL t.rawCurrentURL with
          | none => some (Outcome.own s { t with pc := .exiting .normalizeFailure })
          | some normalizedURL => some (Outcome.own s { t with pc := .claim normalizedURL })
  | .claim normalizedURL =>
    -- line 68
    let r := addPageVisit s.pages normalizedURL
    if !r.1 then
      some { Outcome.own s { t with pc := .exiting (.alreadyVisited normalizedURL)
                                    inserted := t.inserted + (r.2.len - s.pages.len) } with
             pages := r.2 }
    else
      some { Outcome.own s { t with pc := .fetch normalizedURL
                                    inserted := t.inserted + (r.2.len - s.pages.len) } with
             pages := r.2 }
  | .fetch normalizedURL =>
    -- lines 74 to 80
    match env.getHTML t.rawCurrentURL with
    | none =>
      some (Outcome.own s { t with pc := .exiting (.fetchFailure normalizedURL)
                                   fetched := t.fetched + 1 })
    | some html =>
      some (Outcome.own s
        { t with pc := .finalize normalizedURL (extractPageData env html t.rawCurrentURL)
                 fetched := t.fetched + 1 })
  | .finalize normalizedURL pageData =>
    -- lines 81 to 83
    some { Outcome.own s { t with pc := .spawn normalizedURL pageData.OutgoingLinks
                                  inserted := t.inserted +
                                    ((s.pages.assign normalizedURL pageData).len - s.pages.len) } with
           pages := s.pages.assign normalizedURL pageData }
  | .spawn normalizedURL [] =>
    some (Outcome.own s { t with pc := .exiting (.completed normalizedURL) })
  | .spawn normalizedURL (link :: links) =>
    -- line 87: `cfg.wg.Add(1)`
    some { Outcome.own s { t with pc := .launch normalizedURL link links } with
           wg := s.wg + 1 }
  | .launch normalizedURL link links =>
    -- line 88: `go cfg.crawlPage(link)`
    some { Outcome.own s { t with pc := .spawn normalizedURL links, spawned := t.spawned + 1 } with
           children := [{ rawCurrentURL := link }] }
  | .exiting why =>
    -- line 42: `<-cfg.concurrencyControl` blocks while the channel is empty
    if s.permits = 0 then none
    else
      some { Outcome.own s { t with pc := .signalling why, released := t.released + 1 } with
             permits := s.permits - 1 }
  | .signalling why =>
    -- line 43: `cfg.wg.Done()`
    some { Outcome.own s { t with pc := .finished why, doneCalls := t.doneCalls + 1 } with
           wg := s.wg - 1 }
  | .finished _ => none

/-- One step of the crawl: the task at position `i` moves. -/
def step (env : Env) (cfg : Config) (s : State) (i : Nat) : Option State :=
  match s.tasks[i]? with
  | none => none
  | some t =>
    match crawlPageStep env cfg s t with
    | none => none
    | some o =>
      some { pages := o.pages, permits := o.permits, wg := o.wg,
             tasks := s.tasks.set i o.task ++ o.children }

/-- A run under a schedule: the list of the positions of the tasks that move, in order.
`none` when the schedule asks a task to move that cannot. -/
def run (env : Env) (cfg : Config) : State → List Nat → Option State
  | s, [] => some s
  | s, i :: rest =>
    match step env cfg s i with
    | none => none
    | some s2 => run env cfg s2 rest

/-- The state in which the driver leaves the crawl to itself (`main.go`, lines 62 to 71):
an empty registry, an empty channel, `cfg.wg.Add(1)` done and the seed task spawned. -/
def initState (rawBaseURL : String) : State :=
  { pages := GoMap.empty, permits := 0, wg := 1, tasks := [{ rawCurrentURL := rawBaseURL }] }

/-- The states a crawl of `rawBaseURL` can be in. -/
def Reachable (env : Env) (cfg : Config) (rawBaseURL : String) (s : State) : Prop :=
  ∃ schedule, run env cfg (initState rawBaseURL) schedule = some s

/-- Whether a program point is the end of the task. -/
def PC.isFinished : PC → Bool
  | .finished _ => true
  | _ => false

/-- Whether the task stands between `cfg.wg.Add(1)` (line 87) and `go cfg.crawlPage(link)`
(line 88): it has registered a child that it has not yet spawned. -/
def PC.isLaunch : PC → Bool
  | .launch _ _ _ => true
  | _ => false

/-- Whether the task holds a permit at this program point (between lines 40 and 42). -/
def PC.holdsPermit : PC → Bool
  | .pending => false
  | .signalling _ => false
  | .finished _ => false
  | _ => true

/-- Whether the task has passed the limit check and has not yet called `addPageVisit`. -/
def PC.isClaim : PC → Bool
  | .claim _ => true
  | _ => false

/-- A complete run has ended every task: the driver's `cfg.wg.Wait()` returns. -/
def State.complete (s : State) : Bool := s.tasks.all fun t => t.pc.isFinished

/-- The key under which a task for `rawURL` claims its page: defined when `rawURL`
parses, its host is the base host and `normalizeURL` succeeds (lines 51 to 65). -/
def scopeKey (baseURLHost : String) (rawURL : String) : Option String :=
  match Url.Parse rawURL with
  | none => none
  | some currentURL =>
    if baseURLHost ≠ currentURL.Host then none else normalizeURL rawURL

/-- The links a task for `rawURL` spawns children for once it has claimed its key. -/
def linksOf (env : Env) (rawURL : String) : List String :=
  match env.getHTML rawURL with
  | none => []
  | some html => (extractPageData env html rawURL).OutgoingLinks

/-- The keys of the in-scope links of `rawURL`. -/
def linkKeys (env : Env) (baseURLHost : String) (rawURL : String) : List String :=
  (linksOf env rawURL).filterMap (scopeKey baseURLHost)

/-- The steps of a task, case by case: `Trans env cfg s t o` holds exactly when
`crawlPageStep env cfg s t = some o` (see `crawlPageStep_iff_trans`). -/
inductive Trans (env : Env) (cfg : Config) (s : State) (t : Task) : Outcome → Prop
  | acquire (hpc : t.pc = .pending) (hcap : s.permits < cfg.capacity) :
      Trans env cfg s t
        ⟨{ t with pc := .limitCheck, acquired := t.acquired + 1 }, s.pages, s.permits + 1, s.wg, []⟩
  | limitHit (hpc : t.pc = .limitCheck)
      (hlim : cfg.maxPages > 0 ∧ (pagesLen s.pages : Int) ≥ cfg.maxPages) :
      Trans env cfg s t ⟨{ t with pc := .exiting .limitReached }, s.pages, s.permits, s.wg, []⟩
  | parseFail (hpc : t.pc = .limitCheck)
      (hlim : ¬ (cfg.maxPages > 0 ∧ (pagesLen s.pages : Int) ≥ cfg.maxPages))
      (hparse : Url.Parse t.rawCurrentURL = none) :
      Trans env cfg s t ⟨{ t with pc := .exiting .parseFailure }, s.pages, s.permits, s.wg, []⟩
  | hostDiffers (currentURL : Url.URL) (hpc : t.pc = .limitCheck)
      (hlim : ¬ (cfg.maxPages > 0 ∧ (pagesLen s.pages : Int) ≥ cfg.maxPages))
      (hparse : Url.Parse t.rawCurrentURL = some currentURL)
      (hhost : cfg.baseURLHost ≠ currentURL.Host) :
      Trans env cfg s t ⟨{ t with pc := .exiting .outOfScope }, s.pages, s.permits, s.wg, []⟩
  | normalizeFail (currentURL : Url.URL) (hpc : t.pc = .limitCheck)
      (hlim : ¬ (cfg.maxPages > 0 ∧ (pagesLen s.pages : Int) ≥ cfg.maxPages))
      (hparse : Url.Parse t.rawCurrentURL = some currentURL)
      (hhost : cfg.baseURLHost = currentURL.Host)
      (hnorm : normalizeURL t.rawCurrentURL = none) :
      Trans env cfg s t ⟨{ t with pc := .exiting .normalizeFailure }, s.pages, s.permits, s.wg, []⟩
  | toClaim (currentURL : Url.URL) (key : String) (hpc : t.pc = .limitCheck)
      (hlim : ¬ (cfg.maxPages > 0 ∧ (pagesLen s.pages : Int) ≥ cfg.maxPages))
      (hparse : Url.Parse t.rawCurrentURL = some currentURL)
      (hhost : cfg.baseURLHost = currentURL.Host)
      (hnorm : normalizeURL t.rawCurrentURL = some key) :
      Trans env cfg s t ⟨{ t with pc := .claim key }, s.pages, s.permits, s.wg, []⟩
  | claimDup (key : String) (hpc : t.pc = .claim key) (hpresent : s.pages.lookup key ≠ none) :
      Trans env cfg s t ⟨{ t with pc := .exiting (.alreadyVisited key) }, s.pages, s.permits, s.wg, []⟩
  | claimFirst (key : String) (hpc : t.pc = .claim key) (habsent : s.pages.lookup key = none) :
      Trans env cfg s t
        ⟨{ t with pc := .fetch key, inserted := t.inserted + 1 }, s.pages.assign key {},
          s.permits, s.wg, []⟩
  | fetchFail (key : String) (hpc : t.pc = .fetch key)
      (hfetch : env.getHTML t.rawCurrentURL = none) :
      Trans env cfg s t
        ⟨{ t with pc := .exiting (.fetchFailure key), fetched := t.fetched + 1 }, s.pages, s.permits, s.wg, []⟩
  | fetchOk (key html : String) (hpc : t.pc = .fetch key)
      (hfetch : env.getHTML t.rawCurrentURL = some html) :
      Trans env cfg s t
        ⟨{ t with pc := .finalize key (extractPageData env html t.rawCurrentURL)
                  fetched := t.fetched + 1 }, s.pages, s.permits, s.wg, []⟩
  | finalize (key : String) (pageData : PageData) (hpc : t.pc = .finalize key pageData) :
      Trans env cfg s t
        ⟨{ t with pc := .spawn key pageData.OutgoingLinks
                  inserted := t.inserted + ((s.pages.assign key pageData).len - s.pages.len) },
          s.pages.assign key pageData, s.permits, s.wg, []⟩
  | spawnDone (key : String) (hpc : t.pc = .spawn key []) :
      Trans env cfg s t ⟨{ t with pc := .exiting (.completed key) }, s.pages, s.permits, s.wg, []⟩
  | spawnAdd (key link : String) (links : List String) (hpc : t.pc = .spawn key (link :: links)) :
      Trans env cfg s t
        ⟨{ t with pc := .launch key link links }, s.pages, s.permits, s.wg + 1, []⟩
  | spawnGo (key link : String) (links : List String) (hpc : t.pc = .launch key link links) :
      Trans env cfg s t
        ⟨{ t with pc := .spawn key links, spawned := t.spawned + 1 }, s.pages, s.permits,
          s.wg, [{ rawCurrentURL := link }]⟩
  | release (why : Exit) (hpc : t.pc = .exiting why) (hpos : s.permits ≠ 0) :
      Trans env cfg s t
        ⟨{ t with pc := .signalling why, released := t.released + 1 }, s.pages, s.permits - 1,
          s.wg, []⟩
  | signal (why : Exit) (hpc : t.pc = .signalling why) :
      Trans env cfg s t
        ⟨{ t with pc := .finished why, doneCalls := t.doneCalls + 1 }, s.pages, s.permits,
          s.wg - 1, []⟩

/-- The state after task `i` has moved with outcome `o`. -/
def State.after (s : State) (i : Nat) (o : Outcome) : State :=
  { pages := o.pages, permits := o.permits, wg := o.wg,
    tasks := s.tasks.set i o.task ++ o.children }

/-! ### What a program point says about the task's past -/

/-- The key an exit path had computed, if it had one. -/
def Exit.key : Exit → Option String
  | .alreadyVisited k => some k
  | .fetchFailure k => some k
  | .completed k => some k
  | _ => none

/-- The key the task has computed (lines 51 to 65 passed), if it has. -/
def PC.key : PC → Option String
  | .claim k => some k
  | .fetch k => some k
  | .finalize k _ => some k
  | .spawn k _ => some k
  | .launch k _ _ => some k
  | .exiting w => w.key
  | .signalling w => w.key
  | .finished w => w.key
  | _ => none

/-- The key for which the exit path was the first claimant, if it was one. -/
def Exit.claimed : Exit → Option String
  | .fetchFailure k => some k
  | .completed k => some k
  | _ => none

/-- The key for which the task is the first claimant (`addPageVisit` returned true). -/
def PC.claimed : PC → Option String
  | .fetch k => some k
  | .finalize k _ => some k
  | .spawn k _ => some k
  | .launch k _ _ => some k
  | .exiting w => w.claimed
  | .signalling w => w.claimed
  | .finished w => w.claimed
  | _ => none

/-- Whether the exit path is the one after a failed fetch. -/
def Exit.isFetchFailure : Exit → Bool
  | .fetchFailure _ => true
  | _ => false

/-- Whether the exit path is the end of the function body. -/
def Exit.isCompleted : Exit → Bool
  | .completed _ => true
  | _ => false

/-- Whether the task is where a placeholder record is to stay: first claimant, and the
fetch still to come or failed. -/
def PC.keepsPlaceholder : PC → Bool
  | .fetch _ => true
  | .exiting w => w.isFetchFailure
  | .signalling w => w.isFetchFailure
  | .finished w => w.isFetchFailure
  | _ => false

/-- Whether the task has got a page from the fetcher. -/
def PC.hasPage : PC → Bool
  | .finalize _ _ => true
  | .spawn _ _ => true
  | .launch _ _ _ => true
  | .exiting w => w.isCompleted
  | .signalling w => w.isCompleted
  | .finished w => w.isCompleted
  | _ => false

/-- Whether the task has reached the spawning loop. -/
def PC.inLoop : PC → Bool
  | .spawn _ _ => true
  | .launch _ _ _ => true
  | .exiting w => w.isCompleted
  | .signalling w => w.isCompleted
  | .finished w => w.isCompleted
  | _ => false

/-- The links the task will still spawn a child for. -/
def PC.linksToGo (env : Env) (rawCurrentURL : String) : PC → List String
  | .fetch _ => linksOf env rawCurrentURL
  | .finalize _ pageData => pageData.OutgoingLinks
  | .spawn _ links => links
  | .launch _ link links => link :: links
  | _ => []

/-- Whether the task has not yet called `addPageVisit`. -/
def PC.beforeClaim : PC → Bool
  | .pending => true
  | .limitCheck => true
  | .claim _ => true
  | _ => false

/-- Whether the task has left through the exit after a failed fetch. -/
def PC.fetchFailed : PC → Bool
  | .exiting w => w.isFetchFailure
  | .signalling w => w.isFetchFailure
  | .finished w => w.isFetchFailure
  | _ => false

/-- The number of channel sends (line 40) a task at this program point has made. -/
def PC.acquiredCount : PC → Nat
  | .pending => 0
  | _ => 1

/-- The number of channel receives (line 42) a task at this program point has made. -/
def PC.releasedCount : PC → Nat
  | .signalling _ => 1
  | .finished _ => 1
  | _ => 0

/-- The number of `wg.Done()` calls (line 43) a task at this program point has made. -/
def PC.doneCount : PC → Nat
  | .finished _ => 1
  | _ => 0

/-- The number of `getHTML` calls (line 74) a task at this program point has made. -/
def PC.fetchedCount (pc : PC) : Nat :=
  if pc.hasPage || pc.fetchFailed then 1 else 0

/-- What the program point of a task says about the task: the number of channel sends,
channel receives, `wg.Done()` calls and fetches it has made; no child spawned before the
loop; the key it has computed is the key of its raw URL; the fetcher's answer for its
raw URL. -/
structure TaskInv (env : Env) (baseURLHost : String) (t : Task) : Prop where
  acquired : t.acquired = t.pc.acquiredCount
  released : t.released = t.pc.releasedCount
  doneCalls : t.doneCalls = t.pc.doneCount
  fetched : t.fetched = t.pc.fetchedCount
  spawned : t.pc.inLoop = false → t.spawned = 0
  key : ∀ k, t.pc.key = some k → scopeKey baseURLHost t.rawCurrentURL = some k
  failed : t.pc.fetchFailed = true → env.getHTML t.rawCurrentURL = none
  page : t.pc.hasPage = true → env.getHTML t.rawCurrentURL ≠ none

/-- How the registry and the tasks fit together: a key claimed by a task is in the
registry; no key is claimed by two tasks; while the first claimant of a key has no page
(fetch still to come, or failed) the key maps to the empty record; and a task has
enlarged the registry by one entry if it is a first claimant and by none otherwise. -/
structure RegInv (s : State) : Prop where
  present : ∀ t ∈ s.tasks, ∀ k, t.pc.claimed = some k → s.pages.lookup k ≠ none
  unique : ∀ k, s.tasks.countP (fun t => decide (t.pc.claimed = some k)) ≤ 1
  placeholder : ∀ t ∈ s.tasks, t.pc.keepsPlaceholder = true →
    ∀ k, t.pc.claimed = some k → s.pages.lookup k = some {}
  inserted : ∀ t ∈ s.tasks, t.inserted = if t.pc.claimed.isSome then 1 else 0

/-! ### A small site for concrete runs -/

/-- A site in the shape of the test server of `crawl_test.go`, on host `h`: the home page
links to two pages, to a URL whose fetch fails and to another host; the two pages link
back home.  The fetcher answers by canonical key and the links do not depend on the
base URL. -/
def demoEnv : Env where
  getHTML := fun rawURL =>
    if normalizeURL rawURL = some "h" then some "home"
    else if normalizeURL rawURL = some "h/p1" then some "p1"
    else if normalizeURL rawURL = some "h/p2" then some "p2"
    else none
  getH1FromHTML := fun html => html
  getFirstParagraphFromHTML := fun _ => ""
  getURLsFromHTML := fun html _ =>
    if html = "home" then ["http://h/p1", "http://h/p2", "http://h/gone", "http://x/"]
    else if html = "p1" ∨ html = "p2" then ["http://h/"]
    else []
  getImagesFromHTML := fun _ _ => []

/-- A state that stands for "the schedule cannot be run". -/
def State.stuck : State := { pages := GoMap.empty, permits := 0, wg := 0, tasks := [] }

/-- The state after running a schedule from the initial state (`State.stuck` when the
schedule cannot be run). -/
def stateAfter (env : Env) (cfg : Config) (rawBaseURL : String) (schedule : List Nat) : State :=
  (run env cfg (initState rawBaseURL) schedule).getD State.stuck

/-- The schedule that lets task `i` move `n` times in a row. -/
def moves (i n : Nat) : List Nat := List.replicate n i

/-- A schedule for `demoEnv` with capacity 2 and page limit 2: the seed task runs to its
end; then the tasks for the two pages both take a permit and both pass the limit check
before either of them claims its key. -/
def overshootSchedule : List Nat :=
  moves 0 16 ++ [1, 1, 2, 2, 1, 2]

/-- A complete run of `demoEnv` without page limit, one task after the other. -/
def sequentialSchedule : List Nat :=
  moves 0 16 ++ moves 1 10 ++ moves 2 10 ++ moves 3 6 ++ moves 4 4 ++ moves 5 5 ++ moves 6 5

/-! ### Order independence -/

/-- The raw URLs that the crawl of `rawBaseURL` fetches: those for which, in some run
without page limit, under some capacity and some schedule, a `crawlPage` task has called
`getHTML` (line 74). -/
def Fetched (env : Env) (baseURLHost rawBaseURL : String) (u : String) : Prop :=
  ∃ (capacity : Nat) (schedule : List Nat) (s : State),
    run env ⟨baseURLHost, capacity, 0⟩ (initState rawBaseURL) schedule = some s ∧
    ∃ t ∈ s.tasks, t.rawCurrentURL = u ∧ 0 < t.fetched

/-- On the raw URLs that the crawl fetches, the pages answer by canonical key: two such
raw URLs with the same key lead to the same set of in-scope link keys.  Nothing is asked
of a raw URL that the crawl never fetches. -/
def KeyDetermined (env : Env) (baseURLHost rawBaseURL : String) : Prop :=
  ∀ u1 u2 k, Fetched env baseURLHost rawBaseURL u1 → Fetched env baseURLHost rawBaseURL u2 →
    scopeKey baseURLHost u1 = some k → scopeKey baseURLHost u2 = some k →
    ∀ k2, k2 ∈ linkKeys env baseURLHost u1 ↔ k2 ∈ linkKeys env baseURLHost u2

/-- A set of keys that holds the key of the seed and, with the key of a raw URL that the
crawl fetches, the keys of the in-scope links of that raw URL. -/
def Closed (env : Env) (baseURLHost rawBaseURL : String) (P : String → Prop) : Prop :=
  (∀ k, scopeKey baseURLHost rawBaseURL = some k → P k) ∧
  (∀ u k, Fetched env baseURLHost rawBaseURL u → scopeKey baseURLHost u = some k → P k →
    ∀ k2 ∈ linkKeys env baseURLHost u, P k2)

/-- Keys, task URLs and links still to go all lie in the set `P`. -/
def WithinInv (env : Env) (baseURLHost : String) (P : String → Prop) (s : State) : Prop :=
  (∀ k, s.pages.lookup k ≠ none → P k) ∧
  (∀ t ∈ s.tasks, ∀ k, scopeKey baseURLHost t.rawCurrentURL = some k → P k) ∧
  (∀ t ∈ s.tasks, ∀ l ∈ t.pc.linksToGo env t.rawCurrentURL,
    ∀ k, scopeKey baseURLHost l = some k → P k)

/-- The key `k` is in the registry or on its way into it: in the registry, or the key of
a task that has not yet called `addPageVisit`, or the key of a link for which a child is
still to be spawned. -/
def KeyCovered (env : Env) (baseURLHost : String) (s : State) (k : String) : Prop :=
  s.pages.lookup k ≠ none ∨
  (∃ t ∈ s.tasks, t.pc.beforeClaim = true ∧ scopeKey baseURLHost t.rawCurrentURL = some k) ∨
  (∃ t ∈ s.tasks, ∃ l ∈ t.pc.linksToGo env t.rawCurrentURL, scopeKey baseURLHost l = some k)

/-- The key of the seed is covered, and every key in the registry is the key of a raw
URL that the crawl fetches and whose in-scope link keys are all covered. -/
def CoverInv (env : Env) (baseURLHost rawBaseURL : String) (s : State) : Prop :=
  (∀ k, scopeKey baseURLHost rawBaseURL = some k → KeyCovered env baseURLHost s k) ∧
  (∀ k, s.pages.lookup k ≠ none → ∃ u, Fetched env baseURLHost rawBaseURL u ∧
    scopeKey baseURLHost u = some k ∧
    ∀ k2 ∈ linkKeys env baseURLHost u, KeyCovered env baseURLHost s k2)

/-- A site on host `h` where two raw URLs with the same canonical key `h/a` lead to
different pages: `http://h/a?x=1` links to `http://h/b` and `http://h/a?x=2` links to
`http://h/c`. -/
def aliasEnv : Env where
  getHTML := fun rawURL =>
    if rawURL = "http://h/" then some "root"
    else if rawURL = "http://h/a?x=1" then some "one"
    else if rawURL = "http://h/a?x=2" then some "two"
    else none
  getH1FromHTML := fun _ => ""
  getFirstParagraphFromHTML := fun _ => ""
  getURLsFromHTML := fun html _ =>
    if html = "root" then ["http://h/a?x=1", "http://h/a?x=2"]
    else if html = "one" then ["http://h/b"]
    else if html = "two" then ["http://h/c"]
    else []
  getImagesFromHTML := fun _ _ => []

/-- A complete run of `aliasEnv` in which the task for `http://h/a?x=1` claims `h/a`. -/
def aliasScheduleOne : List Nat :=
  moves 0 12 ++ moves 1 10 ++ moves 2 5 ++ moves 3 6

/-- A complete run of `aliasEnv` in which the task for `http://h/a?x=2` claims `h/a`. -/
def aliasScheduleTwo : List Nat :=
  moves 0 12 ++ moves 2 10 ++ moves 1 5 ++ moves 3 6

/-- The site of `createTestServer` in `crawl_test.go`, put on host `h`, with a fetcher
that answers by raw URL as `getHTML` of `http_client.go` does: the home page, served for
`http://h` and for `http://h/`, links to four pages, and each of them links back home.
Any other raw URL, such as `ftp://h/` or `//h/` (both have the key `h`), gets no page. -/
def testSiteEnv : Env where
  getHTML := fun rawURL =>
    if rawURL = "http://h" ∨ rawURL = "http://h/" then some "home"
    else if rawURL = "http://h/page1" then some "page1"
    else if rawURL = "http://h/page2" then some "page2"
    else if rawURL = "http://h/page3" then some "page3"
    else if rawURL = "http://h/page4" then some "page4"
    else none
  getH1FromHTML := fun html => html
  getFirstParagraphFromHTML := fun _ => ""
  getURLsFromHTML := fun html _ =>
    if html = "home" then
      ["http://h/page1", "http://h/page2", "http://h/page3", "http://h/page4"]
    else if html = "page1" ∨ html = "page2" ∨ html = "page3" ∨ html = "page4" then
      ["http://h/"]
    else []
  getImagesFromHTML := fun _ _ => []

/-- The raw URLs for which a crawl of `testSiteEnv` from `http://h` has a task. -/
def testSiteURLs : List String :=
  ["http://h", "http://h/", "http://h/page1", "http://h/page2", "http://h/page3",
    "http://h/page4"]

/-- A complete run of `testSiteEnv` with capacity 1, one task after the other. -/
def testSiteSequential : List Nat :=
  moves 0 16 ++ moves 1 10 ++ moves 2 10 ++ moves 3 10 ++ moves 4 10 ++ moves 5 5 ++
    moves 6 5 ++ moves 7 5 ++ moves 8 5

/-- A complete run of `testSiteEnv` with capacity 5 in which the tasks take turns. -/
def testSiteInterleaved : List Nat :=
  [0, 0, 0, 0, 0, 0, 0, 0, 1, 0, 1, 0, 1, 2, 0, 1, 2, 0, 1, 2, 3, 0, 1, 2, 3, 0, 1, 2, 3, 4,
    0, 1, 2, 3, 4, 5, 0, 1, 2, 3, 4, 5, 1, 2, 3, 4, 5, 6, 2, 3, 4, 5, 6, 2, 3, 4, 5, 6, 7,
    3, 4, 6, 7, 3, 4, 6, 7, 8, 4, 7, 8, 4, 7, 8, 8, 8]

/-! ### Keys and URLs for the claims about `normalizeURL` -/

/-- The first path segment of a text: what stands before the first `/`. -/
def firstSegment (k : List Char) : List Char := (Strings.cut '/' k).1

/-- A key that `normalizeURL` gives back as it is: no control byte, none of the bytes
`?`, `#`, `%`, no `:` before the first `/`, no leading `//` other than a leading `///`,
and no trailing `/`. -/
def stableKey (k : String) : Bool :=
  !Url.stringContainsCTLByte k.data && !k.data.elem '?' && !k.data.elem '#' &&
    !k.data.elem '%' && !(firstSegment k.data).elem ':' &&
    !(Strings.hasPrefix k.data ['/', '/'] && !Strings.hasPrefix k.data ['/', '/', '/']) &&
    !Strings.hasSuffix k.data ['/']

/-- Two parsed URLs that differ at most in their scheme, their query, their fragment, or
in one of them having one more trailing `/` on its path. -/
def DifferOnly (u v : Url.URL) : Prop :=
  u.Opaque = v.Opaque ∧ u.User = v.User ∧ u.Host = v.Host ∧
    (u.Path = v.Path ∨ u.Path = v.Path ++ "/" ∨ v.Path = u.Path ++ "/")

/-- As `DifferOnly`, with the extra trailing `/` on a path that does not itself end
in `/`. -/
def DifferOnlyOneSlash (u v : Url.URL) : Prop :=
  u.Opaque = v.Opaque ∧ u.User = v.User ∧ u.Host = v.Host ∧
    (u.Path = v.Path ∨
      (u.Path = v.Path ++ "/" ∧ Strings.hasSuffix v.Path.data ['/'] = false) ∨
      (v.Path = u.Path ++ "/" ∧ Strings.hasSuffix u.Path.data ['/'] = false))

/-! ## `report.go` -/

/-- Go `strings.Join(elems, sep)`. -/
def Strings.join : List String → String → String
  | [], _ => ""
  | [a], _ => a
  | a :: b :: rest, sep => a ++ sep ++ Strings.join (b :: rest) sep

/-- The header record of the report (`report.go`, line 21). -/
def reportHeader : List String :=
  ["page_url", "h1", "first_paragraph", "outgoing_link_urls", "image_urls"]

/-- The data record of one registry entry (`report.go`, lines 28 to 34). -/
def reportRow (pageURL : String) (pageData : PageData) : List String :=
  [pageURL, pageData.H1, pageData.FirstParagraph,
   Strings.join pageData.OutgoingLinks ";", Strings.join pageData.ImageURLs ";"]

/-- The loop of `writeCSVReport` (`report.go`, lines 27 to 38): one `writer.Write(row)` per
entry visited, appended to the records written so far. -/
def writeDataRows (written : List (List String)) : List (String × PageData) → List (List String)
  | [] => written
  | (pageURL, pageData) :: rest => writeDataRows (written ++ [reportRow pageURL pageData]) rest

/-- The function `writeCSVReport` of `report.go`: the records handed to the CSV writer, in
order, or `none` when `os.Create` fails.  The parameter `osCreate` says whether the file
can be created, and `visited` is the order in which `range pages` visits the entries of
the registry (Go leaves that order open; it is a permutation of the entries).  Write
errors of the file system are outside the model. -/
def writeCSVReport (osCreate : String → Bool) (visited : List (String × PageData))
    (filename : String) : Option (List (List String)) :=
  if !osCreate filename then none
  else some (writeDataRows [reportHeader] visited)

/-! ## `http_client.go` -/

/-- What `getHTML` reads of an `http.Response`: the status code, the value of
`resp.Header.Get("Content-Type")` (empty when the header is absent) and the result of
`io.ReadAll(resp.Body)` (`none`: the read failed). -/
structure Response where
  StatusCode : Int
  ContentType : String
  Body : Option String
  deriving DecidableEq, Repr

/-- The function `getHTML` of `http_client.go`.  The parameter `clientDo` stands for
`http.NewRequest` followed by `client.Do`: the response to the `GET` of `rawURL`, or
`none` when the request cannot be built or sent. -/
def getHTML (clientDo : String → Option Response) (rawURL : String) : Option String :=
  match clientDo rawURL with
  | none => none
  | some resp =>
    if resp.StatusCode ≥ 400 then none
    else if !Strings.hasPrefix resp.ContentType.data "text/html".data then none
    else resp.Body

/-- The media type named by a Content-Type value: the text before the first `;`, without
surrounding spaces, in lower case. -/
def mediaType (contentType : String) : String :=
  String.mk (Strings.toLower
    ((((Strings.cut ';' contentType.data).1.dropWhile (· == ' ')).reverse.dropWhile
      (· == ' ')).reverse))

/-- Whether a Content-Type value names the `text/html` content type. -/
def isTextHTML (contentType : String) : Bool := mediaType contentType == "text/html"

/-- The registry entry of `TestWriteCSVReportBasic`. -/
def basicReportPage : PageData :=
  { URL := "https://example.com"
    H1 := "Example Title"
    FirstParagraph := "This is a paragraph."
    OutgoingLinks := ["https://example.com/page1", "https://example.com/page2"]
    ImageURLs := ["https://example.com/img1.jpg"] }

/-- The registry entry of `TestWriteCSVReportEmptySlices`. -/
def emptySlicesReportPage : PageData :=
  { URL := "https://example.com"
    H1 := "Title"
    FirstParagraph := "Paragraph." }

/-! ## `html_parser.go`: heading and excerpt

The functions `getH1FromHTML` and `getFirstParagraphFromHTML` call `html.Parse` of
`golang.org/x/net/html` and then walk the node tree.  The parser is a parameter
(`htmlParse`); the walk is modelled on trees.  In this part a `Char` of a text stands
for a code point, as `strings.TrimSpace` reads it. -/

/-- Go `html.NodeType`. -/
inductive NodeType
  | ErrorNode
  | TextNode
  | DocumentNode
  | ElementNode
  | CommentNode
  | DoctypeNode
  | RawNode
  deriving DecidableEq, Repr

/-- Go `html.Node` as a tree: the fields `Type` and `Data`, and the children in order (the
chain `FirstChild`, `NextSibling`).  Attributes are not read by the functions modelled
here. -/
inductive Node where
  | mk (nodeType : NodeType) (Data : String) (children : List Node)
  deriving Repr

/-- The field `Type` of a node. -/
def Node.nodeType : Node → NodeType
  | .mk t _ _ => t

/-- The field `Data` of a node. -/
def Node.Data : Node → String
  | .mk _ d _ => d

/-- The children of a node, in order. -/
def Node.children : Node → List Node
  | .mk _ _ cs => cs

mutual
/-- The function `extractText` of `html_parser.go`. -/
def extractText : Node → String
  | .mk t d cs => if t = .TextNode then d else extractTextLoop cs
/-- The loop of `extractText` over the children: `result.WriteString(extractText(c))`. -/
def extractTextLoop : List Node → String
  | [] => ""
  | c :: cs => extractText c ++ extractTextLoop cs
end

mutual
/-- The function `findNode` of `html_parser.go`. -/
def findNode : Node → String → Option Node
  | .mk t d cs, tag =>
    if t = .ElementNode ∧ d = tag then some (.mk t d cs) else findNodeLoop cs tag
/-- The loop of `findNode` over the children. -/
def findNodeLoop : List Node → String → Option Node
  | [], _ => none
  | c :: cs, tag =>
    match findNode c tag with
    | some result => some result
    | none => findNodeLoop cs tag
end

mutual
/-- The closure `findH1` of `getH1FromHTML`; the captured variable `h1Text` is passed in
and its value afterwards is returned. -/
def findH1 : Node → String → String
  | .mk t d cs, h1Text =>
    if t = .ElementNode ∧ d = "h1" then extractText (.mk t d cs) else findH1Loop cs h1Text
/-- The loop of `findH1` over the children, with its check `h1Text != ""` before each
child. -/
def findH1Loop : List Node → String → String
  | [], h1Text => h1Text
  | c :: cs, h1Text => if h1Text ≠ "" then h1Text else findH1Loop cs (findH1 c h1Text)
end

/-- The function `getH1FromHTML` of `html_parser.go`. -/
def getH1FromHTML (htmlParse : String → Option Node) (htmlBody : String) : String :=
  match htmlParse htmlBody with
  | none => ""
  | some doc => findH1 doc ""

/-- Go `unicode.IsSpace`. -/
def isSpace (c : Char) : Bool :=
  (0x09 ≤ c.toNat && c.toNat ≤ 0x0D) || c.toNat == 0x20 || c.toNat == 0x85 ||
    c.toNat == 0xA0 || c.toNat == 0x1680 || (0x2000 ≤ c.toNat && c.toNat ≤ 0x200A) ||
    c.toNat == 0x2028 || c.toNat == 0x2029 || c.toNat == 0x202F || c.toNat == 0x205F ||
    c.toNat == 0x3000

/-- Go `strings.TrimSpace`: the text without leading and trailing white space. -/
def trimSpace (s : String) : String :=
  String.mk ((s.data.dropWhile isSpace).reverse.dropWhile isSpace).reverse

/-- The function `getFirstParagraphFromHTML` of `html_parser.go`. -/
def getFirstParagraphFromHTML (htmlParse : String → Option Node) (htmlBody : String) : String :=
  match htmlParse htmlBody with
  | none => ""
  | some doc =>
    let fallback :=
      match findNode doc "p" with
      | some pNode => trimSpace (extractText pNode)
      | none => ""
    match findNode doc "main" with
    | some mainNode =>
      match findNode mainNode "p" with
      | some pNode => trimSpace (extractText pNode)
      | none => fallback
    | none => fallback

/-! ### The words of the specification on trees -/

mutual
/-- The nodes of a tree in document order (depth-first, pre-order). -/
def preorder : Node → List Node
  | .mk t d cs => .mk t d cs :: preorderList cs
/-- The nodes of a list of trees in document order. -/
def preorderList : List Node → List Node
  | [] => []
  | c :: cs => preorder c ++ preorderList cs
end

/-- Whether a node is an element with the given tag. -/
def Node.isElement (tag : String) (n : Node) : Bool :=
  n.nodeType = .ElementNode && n.Data = tag

/-- The first element with the given tag met in a depth-first pre-order walk. -/
def firstElement (tag : String) (n : Node) : Option Node :=
  (preorder n).find? (Node.isElement tag)

/-- The concatenation, in document order, of the text nodes under a node. -/
def textNodesUnder (n : Node) : String :=
  String.join (((preorder n).filter fun m => m.nodeType = .TextNode).map Node.Data)

/-- The heading as the specification words it: the text nodes under the first `h1`
element, the empty string when there is none. -/
def firstHeadingSpec (doc : Node) : String :=
  match firstElement "h1" doc with
  | some h => textNodesUnder h
  | none => ""

/-- The trimmed text of the first `p` element under a node whose text is not empty after
trimming. -/
def firstNonEmptyParagraph (n : Node) : Option String :=
  (((preorder n).filter (Node.isElement "p")).find? fun p =>
      trimSpace (extractText p) != "").map fun p => trimSpace (extractText p)

/-- The excerpt as the specification words it: the first non-empty paragraph inside the
main element when there is one, otherwise the first non-empty paragraph anywhere. -/
def firstParagraphSpec (doc : Node) : String :=
  match firstElement "main" doc with
  | some mainNode =>
    match firstNonEmptyParagraph mainNode with
    | some text => text
    | none => (firstNonEmptyParagraph doc).getD ""
  | none => (firstNonEmptyParagraph doc).getD ""

/-- Whether a text is blank: empty, or white space only. -/
def isBlank (s : String) : Bool := s.data.all isSpace

/-- The `p` elements under a node, in document order. -/
def paragraphs (n : Node) : List Node := (preorder n).filter (Node.isElement "p")

/-- The `p` element at which the search of `getFirstParagraphFromHTML` stops, in the
words of the tests: the first `p` element under the first `main` element when that has
one, otherwise the first `p` element of the document. -/
def chosenParagraph (doc : Node) : Option Node :=
  match firstElement "main" doc with
  | some mainNode =>
    match firstElement "p" mainNode with
    | some pNode => some pNode
    | none => firstElement "p" doc
  | none => firstElement "p" doc

/-- An element node. -/
def element (tag : String) (children : List Node) : Node := .mk .ElementNode tag children

/-- A text node. -/
def text (data : String) : Node := .mk .TextNode data []

/-- A document node with the `html`, `head` and `body` elements that `html.Parse` always
builds, around the given content of the body. -/
def document (body : List Node) : Node :=
  .mk .DocumentNode "" [element "html" [element "head" [], element "body" body]]

/-- The tree of `<html><body><h1></h1><h1>Second Title</h1></body></html>`. -/
def emptyH1Doc : Node :=
  document [element "h1" [], element "h1" [text "Second Title"]]

/-- The tree of `TestGetH1FromHTMLNestedContent`. -/
def nestedH1Doc : Node :=
  document [element "h1" [element "span" [text "Nested"], text " Title"]]

/-- The tree of `TestGetFirstParagraphFromHTMLEmptyParagraph`:
`<html><body><p></p><p>Second paragraph.</p></body></html>`. -/
def emptyParagraphDoc : Node :=
  document [element "p" [], element "p" [text "Second paragraph."]]

/-- The tree of `TestGetFirstParagraphFromHTMLMainPriority`. -/
def mainPriorityDoc : Node :=
  document [text "\n\t\t", element "p" [text "Outside paragraph."], text "\n\t\t",
    element "main" [text "\n\t\t\t", element "p" [text "Main paragraph."], text "\n\t\t"],
    text "\n\t"]

/-- The tree of `TestGetFirstParagraphFromHTMLNoMain`. -/
def noMainDoc : Node :=
  document [element "p" [text "First paragraph."], element "p" [text "Second paragraph."]]

/-- The tree of `<html><body><p> \n\t</p><p>Second paragraph.</p></body></html>`: the
first `p` element holds white space only. -/
def blankParagraphDoc : Node :=
  document [element "p" [text " \n\t"], element "p" [text "Second paragraph."]]

/-- The tree of
`<html><body><p>\n  Hello, <b>world</b>! \t</p><main><div>no paragraph</div></main></body></html>`:
white space around the text of the first `p` element, and a `main` element without a
`p` element. -/
def paddedParagraphDoc : Node :=
  document [element "p" [text "\n  Hello, ", element "b" [text "world"], text "! \t"],
    element "main" [element "div" [text "no paragraph"]]]

/-- The tree of `<html><body><p>Outside.</p><main><p>  </p><p>Inside.</p></main></body></html>`:
the first `p` element under `main` is blank, a later one and one outside are not. -/
def blankInMainDoc : Node :=
  document [element "p" [text "Outside."],
    element "main" [element "p" [text "  "], element "p" [text "Inside."]]]

/-! ### The part of `parse` after the scheme and the query are split off -/

/-- The last part of Go `parse` (see `Url.parse`): from the check for a rootless path
on, given the lower-case scheme, the rest without the query, the raw query and
`ForceQuery`. -/
def Url.parseRest (scheme rest1 rawQuery : List Char) (forceQuery : Bool) : Option Url.URL :=
  if !Strings.hasPrefix rest1 ['/'] && !scheme.isEmpty then
    some { Scheme := String.mk scheme, Opaque := String.mk rest1,
           ForceQuery := forceQuery, RawQuery := String.mk rawQuery }
  else if !Strings.hasPrefix rest1 ['/']
      && Strings.contains (Strings.cut '/' rest1).1 ':' then none
  else if (!scheme.isEmpty || !Strings.hasPrefix rest1 ['/', '/', '/'])
      && Strings.hasPrefix rest1 ['/', '/'] then
    let authority0 := rest1.drop 2
    let authority := (Strings.cut '/' authority0).1
    let rest2 := authority0.drop authority.length
    match Url.parseAuthority authority with
    | none => none
    | some (user, host) =>
      match Url.unescape rest2 .encodePath with
      | none => none
      | some path =>
        some { Scheme := String.mk scheme, User := user, Host := String.mk host,
               Path := String.mk path, ForceQuery := forceQuery,
               RawQuery := String.mk rawQuery }
  else
    match Url.unescape rest1 .encodePath with
    | none => none
    | some path =>
      some { Scheme := String.mk scheme, Path := String.mk path,
             ForceQuery := forceQuery, RawQuery := String.mk rawQuery,
             OmitHost := !scheme.isEmpty && Strings.hasPrefix rest1 ['/'] }
/-! # Part 2: theorems -/

/-! ## Facts about the registry -/

theorem GoMap.lookupL_assignL_self (key : String) (v : PageData) (l : List (String × PageData)) :
    GoMap.lookupL key (GoMap.assignL key v l) = some v := by
  induction l with
  | nil => simp [GoMap.assignL, GoMap.lookupL]
  | cons e rest ih =>
    obtain ⟨k, w⟩ := e
    by_cases h : k = key
    · simp [GoMap.assignL, GoMap.lookupL, h]
    · simp [GoMap.assignL, GoMap.lookupL, h, ih]

theorem GoMap.lookupL_assignL_other (key k2 : String) (v : PageData) (h : k2 ≠ key)
    (l : List (String × PageData)) :
    GoMap.lookupL k2 (GoMap.assignL key v l) = GoMap.lookupL k2 l := by
  induction l with
  | nil => simp [GoMap.assignL, GoMap.lookupL, Ne.symm h]
  | cons e rest ih =>
    obtain ⟨k, w⟩ := e
    by_cases hk : k = key
    · subst hk
      simp [GoMap.assignL, GoMap.lookupL, Ne.symm h]
    · by_cases hk2 : k = k2
      · subst hk2
        simp [GoMap.assignL, GoMap.lookupL, hk]
      · simp [GoMap.assignL, GoMap.lookupL, hk, hk2, ih]

theorem GoMap.length_assignL_absent (key : String) (v : PageData) (l : List (String × PageData))
    (h : GoMap.lookupL key l = none) :
    (GoMap.assignL key v l).length = l.length + 1 := by
  induction l with
  | nil => simp [GoMap.assignL]
  | cons e rest ih =>
    obtain ⟨k, w⟩ := e
    by_cases hk : k = key
    · simp [GoMap.lookupL, hk] at h
    · simp only [GoMap.lookupL, hk, if_false] at h
      simp [GoMap.assignL, hk, ih h]

theorem GoMap.length_assignL_present (key : String) (v : PageData) (l : List (String × PageData))
    (h : GoMap.lookupL key l ≠ none) :
    (GoMap.assignL key v l).length = l.length := by
  induction l with
  | nil => simp [GoMap.lookupL] at h
  | cons e rest ih =>
    obtain ⟨k, w⟩ := e
    by_cases hk : k = key
    · simp [GoMap.assignL, hk]
    · simp only [GoMap.lookupL, hk, if_false] at h
      simp [GoMap.assignL, hk, ih h]

theorem GoMap.lookup_assign_self (m : GoMap) (key : String) (v : PageData) :
    (m.assign key v).lookup key = some v :=
  GoMap.lookupL_assignL_self key v m.entries

theorem GoMap.lookup_assign_other (m : GoMap) (key k2 : String) (v : PageData) (h : k2 ≠ key) :
    (m.assign key v).lookup k2 = m.lookup k2 :=
  GoMap.lookupL_assignL_other key k2 v h m.entries

theorem GoMap.len_assign_absent (m : GoMap) (key : String) (v : PageData)
    (h : m.lookup key = none) : (m.assign key v).len = m.len + 1 :=
  GoMap.length_assignL_absent key v m.entries h

theorem GoMap.len_assign_present (m : GoMap) (key : String) (v : PageData)
    (h : m.lookup key ≠ none) : (m.assign key v).len = m.len :=
  GoMap.length_assignL_present key v m.entries h

theorem addPageVisit_absent (pages : GoMap) (key : String) (h : pages.lookup key = none) :
    addPageVisit pages key = (true, pages.assign key {}) := by
  simp [addPageVisit, h]

theorem addPageVisit_present (pages : GoMap) (key : String) (h : pages.lookup key ≠ none) :
    addPageVisit pages key = (false, pages) := by
  unfold addPageVisit
  cases hl : pages.lookup key with
  | none => exact absurd hl h
  | some v => rfl

/-- Once a key is in the registry, `addPageVisit` keeps it there. -/
theorem addPageVisit_keeps (pages : GoMap) (key k : String) (h : pages.lookup k ≠ none) :
    (addPageVisit pages key).2.lookup k ≠ none := by
  by_cases hp : pages.lookup key = none
  · rw [addPageVisit_absent pages key hp]
    by_cases hk : k = key
    · subst hk
      simp [GoMap.lookup_assign_self]
    · simpa [GoMap.lookup_assign_other _ _ _ _ hk] using h
  · rw [addPageVisit_present pages key hp]
    exact h

theorem addPageVisits_length (calls : List String) :
    ∀ pages : GoMap, (addPageVisits pages calls).1.length = calls.length := by
  induction calls with
  | nil => intro pages; rfl
  | cons c cs ih => intro pages; simp [addPageVisits, ih]

/-- Calls for a key that is already present all return false. -/
theorem addPageVisits_present (k : String) (calls : List String) :
    ∀ (pages : GoMap), pages.lookup k ≠ none →
      ∀ j : Nat, calls[j]? = some k → ((addPageVisits pages calls).1)[j]? = some false := by
  induction calls with
  | nil => intro pages _ j hj; simp at hj
  | cons c cs ih =>
    intro pages hp j hj
    cases j with
    | zero =>
      simp at hj
      subst hj
      simp [addPageVisits, addPageVisit_present pages c hp]
    | succ j =>
      simp at hj
      simpa [addPageVisits] using ih _ (addPageVisit_keeps pages c k hp) j hj

/-- Calls for an absent key: the first of them returns true and every other one false. -/
theorem addPageVisits_absent (k : String) (calls : List String) :
    ∀ (pages : GoMap), pages.lookup k = none →
      ∀ j : Nat, calls[j]? = some k →
        ((addPageVisits pages calls).1)[j]? = some (decide (j = calls.indexOf k)) := by
  induction calls with
  | nil => intro pages _ j hj; simp at hj
  | cons c cs ih =>
    intro pages hp j hj
    cases j with
    | zero =>
      simp at hj
      subst hj
      simp [addPageVisits, addPageVisit_absent pages c hp]
    | succ j =>
      simp at hj
      by_cases hc : c = k
      · subst hc
        have hpres : (addPageVisit pages c).2.lookup c ≠ none := by
          rw [addPageVisit_absent pages c hp]
          simp [GoMap.lookup_assign_self]
        have := addPageVisits_present c cs _ hpres j hj
        simpa [addPageVisits] using this
      · have habs : (addPageVisit pages c).2.lookup k = none := by
          by_cases hpc : pages.lookup c = none
          · rw [addPageVisit_absent pages c hpc, GoMap.lookup_assign_other _ _ _ _ (Ne.symm hc)]
            exact hp
          · rw [addPageVisit_present pages c hpc]
            exact hp
        have := ih _ habs j hj
        simpa [addPageVisits, List.indexOf_cons_ne _ hc] using this

/-- The number of calls for `k` that return true, for an absent key that is called. -/
theorem addPageVisits_count (k : String) (calls : List String) :
    ∀ (pages : GoMap), pages.lookup k ≠ none →
      ((calls.zip (addPageVisits pages calls).1).countP fun p => p.1 = k && p.2) = 0 := by
  induction calls with
  | nil => intro pages _; rfl
  | cons c cs ih =>
    intro pages hp
    have h1 := ih _ (addPageVisit_keeps pages c k hp)
    simp only [addPageVisits, List.zip_cons_cons, List.countP_cons, h1]
    by_cases hc : c = k
    · subst hc
      simp [addPageVisit_present pages c hp]
    · simp [hc]

theorem addPageVisits_count_one (k : String) (calls : List String) :
    ∀ (pages : GoMap), pages.lookup k = none → k ∈ calls →
      ((calls.zip (addPageVisits pages calls).1).countP fun p => p.1 = k && p.2) = 1 := by
  induction calls with
  | nil => intro pages _ hk; simp at hk
  | cons c cs ih =>
    intro pages hp hk
    by_cases hc : c = k
    · subst hc
      have hpres : (addPageVisit pages c).2.lookup c ≠ none := by
        rw [addPageVisit_absent pages c hp]
        simp [GoMap.lookup_assign_self]
      have h0 := addPageVisits_count c cs _ hpres
      simp only [addPageVisits, List.zip_cons_cons, List.countP_cons, h0]
      simp [addPageVisit_absent pages c hp]
    · have habs : (addPageVisit pages c).2.lookup k = none := by
        by_cases hpc : pages.lookup c = none
        · rw [addPageVisit_absent pages c hpc, GoMap.lookup_assign_other _ _ _ _ (Ne.symm hc)]
          exact hp
        · rw [addPageVisit_present pages c hpc]
          exact hp
      have hk2 : k ∈ cs := by
        rcases List.mem_cons.1 hk with h | h
        · exact absurd h.symm hc
        · exact h
      have := ih _ habs hk2
      simp only [addPageVisits, List.zip_cons_cons, List.countP_cons, this]
      simp [hc]

/-! ## Claims about the registry -/

/-- C1 (exactly-once claim): for a key `k` absent from the registry and a sequence of
`addPageVisit` calls that contains `k`, every call returns a result, the call at
position `j` with key `k` returns true exactly when `j` is the position of the first
call with key `k`, and the number of calls with key `k` that return true is one. -/
theorem C1_addPageVisit_exactly_once (pages : GoMap) (k : String) (calls : List String)
    (habs : pages.lookup k = none) (hk : k ∈ calls) :
    (addPageVisits pages calls).1.length = calls.length ∧
    (∀ j : Nat, calls[j]? = some k →
      ((addPageVisits pages calls).1)[j]? = some (decide (j = calls.indexOf k))) ∧
    ((calls.zip (addPageVisits pages calls).1).countP fun p => p.1 = k && p.2) = 1 :=
  ⟨addPageVisits_length calls pages, addPageVisits_absent k calls pages habs,
    addPageVisits_count_one k calls pages habs hk⟩

/-- Witness for C1: three callers for "a" interleaved with one for "b" on the empty
registry. -/
theorem C1_addPageVisit_exactly_once_witness :
    (addPageVisits GoMap.empty ["b", "a", "a", "b", "a"]).1 = [true, true, false, false, false] ∧
    ((addPageVisits GoMap.empty ["b", "a", "a", "b", "a"]).1.length = 5 ∧
     (∀ j : Nat, ["b", "a", "a", "b", "a"][j]? = some "a" →
        ((addPageVisits GoMap.empty ["b", "a", "a", "b", "a"]).1)[j]?
          = some (decide (j = ["b", "a", "a", "b", "a"].indexOf "a"))) ∧
     ((["b", "a", "a", "b", "a"].zip (addPageVisits GoMap.empty ["b", "a", "a", "b", "a"]).1).countP
        fun p => p.1 = "a" && p.2) = 1) :=
  ⟨by decide, C1_addPageVisit_exactly_once GoMap.empty "a" ["b", "a", "a", "b", "a"]
    (by decide) (by decide)⟩

/-- C2 (claim contract): on a registry without `key`, `addPageVisit` returns true and the
registry afterwards maps `key` to the empty `PageData`, answers every other key as
before and is one entry larger; on a registry with `key` it returns false and the
registry is unchanged. -/
theorem C2_addPageVisit_contract (pages : GoMap) (key : String) :
    (pages.lookup key = none →
      (addPageVisit pages key).1 = true ∧
      (addPageVisit pages key).2.lookup key = some {} ∧
      (∀ k, k ≠ key → (addPageVisit pages key).2.lookup k = pages.lookup k) ∧
      (addPageVisit pages key).2.len = pages.len + 1) ∧
    (pages.lookup key ≠ none →
      (addPageVisit pages key).1 = false ∧ (addPageVisit pages key).2 = pages) := by
  constructor
  · intro h
    rw [addPageVisit_absent pages key h]
    exact ⟨rfl, GoMap.lookup_assign_self _ _ _,
      fun k hk => GoMap.lookup_assign_other _ _ _ _ hk, GoMap.len_assign_absent _ _ _ h⟩
  · intro h
    rw [addPageVisit_present pages key h]
    exact ⟨rfl, rfl⟩

/-- Witness for C2: claiming "b" and then "a" in a registry that holds a finished
record for "a". -/
theorem C2_addPageVisit_contract_witness :
    ((addPageVisit ⟨[("a", { H1 := "t" })]⟩ "b").1 = true ∧
      (addPageVisit ⟨[("a", { H1 := "t" })]⟩ "b").2.lookup "b" = some {} ∧
      (∀ k, k ≠ "b" → (addPageVisit ⟨[("a", { H1 := "t" })]⟩ "b").2.lookup k
          = GoMap.lookup ⟨[("a", { H1 := "t" })]⟩ k) ∧
      (addPageVisit ⟨[("a", { H1 := "t" })]⟩ "b").2.len = GoMap.len ⟨[("a", { H1 := "t" })]⟩ + 1) ∧
    ((addPageVisit ⟨[("a", { H1 := "t" })]⟩ "a").1 = false ∧
      (addPageVisit ⟨[("a", { H1 := "t" })]⟩ "a").2 = ⟨[("a", { H1 := "t" })]⟩) :=
  ⟨(C2_addPageVisit_contract ⟨[("a", { H1 := "t" })]⟩ "b").1 (by decide),
   (C2_addPageVisit_contract ⟨[("a", { H1 := "t" })]⟩ "a").2 (by decide)⟩


/-! ## The transition system: steps case by case, and induction over runs -/

theorem crawlPageStep_trans (env : Env) (cfg : Config) (s : State) (t : Task) (o : Outcome)
    (h : crawlPageStep env cfg s t = some o) : Trans env cfg s t o := by
  unfold crawlPageStep at h
  split at h
  · rename_i hpc
    split at h
    · rename_i hcap
      cases h
      exact Trans.acquire hpc hcap
    · cases h
  · rename_i hpc
    split at h
    · rename_i hlim
      cases h
      exact Trans.limitHit hpc hlim
    · rename_i hlim
      split at h
      · rename_i hparse
        cases h
        exact Trans.parseFail hpc hlim hparse
      · rename_i currentURL hparse
        split at h
        · rename_i hhost
          cases h
          exact Trans.hostDiffers currentURL hpc hlim hparse hhost
        · rename_i hhost
          have hhost2 : cfg.baseURLHost = currentURL.Host := not_not.1 hhost
          split at h
          · rename_i hnorm
            cases h
            exact Trans.normalizeFail currentURL hpc hlim hparse hhost2 hnorm
          · rename_i key hnorm
            cases h
            exact Trans.toClaim currentURL key hpc hlim hparse hhost2 hnorm
  · rename_i key hpc
    by_cases hp : s.pages.lookup key = none
    · rw [addPageVisit_absent s.pages key hp] at h
      simp only [Bool.not_true, Bool.false_eq_true, if_false, Option.some.injEq] at h
      rw [GoMap.len_assign_absent _ _ _ hp] at h
      simp only [Nat.add_sub_cancel_left] at h
      subst h
      exact Trans.claimFirst key hpc hp
    · rw [addPageVisit_present s.pages key hp] at h
      simp only [Bool.not_false, if_true, Option.some.injEq, Nat.sub_self, Nat.add_zero] at h
      subst h
      exact Trans.claimDup key hpc hp
  · rename_i key hpc
    split at h
    · rename_i hfetch
      cases h
      exact Trans.fetchFail key hpc hfetch
    · rename_i html hfetch
      cases h
      exact Trans.fetchOk key html hpc hfetch
  · rename_i key pageData hpc
    cases h
    exact Trans.finalize key pageData hpc
  · rename_i key hpc
    cases h
    exact Trans.spawnDone key hpc
  · rename_i key link links hpc
    cases h
    exact Trans.spawnAdd key link links hpc
  · rename_i key link links hpc
    cases h
    exact Trans.spawnGo key link links hpc
  · rename_i why hpc
    split at h
    · cases h
    · rename_i hpos
      cases h
      exact Trans.release why hpc hpos
  · rename_i why hpc
    cases h
    exact Trans.signal why hpc
  · cases h

/-- A step of the crawl is a step of one of its tasks. -/
theorem step_trans (env : Env) (cfg : Config) (s s2 : State) (i : Nat)
    (h : step env cfg s i = some s2) :
    ∃ t o, s.tasks[i]? = some t ∧ Trans env cfg s t o ∧ s2 = s.after i o := by
  unfold step at h
  split at h
  · cases h
  · rename_i t ht
    split at h
    · cases h
    · rename_i o ho
      cases h
      exact ⟨t, o, ht, crawlPageStep_trans env cfg s t o ho, rfl⟩

/-- Induction over runs: a property that holds before a run and is kept by every step
holds after the run. -/
theorem run_induction (env : Env) (cfg : Config) (P : State → Prop)
    (hstep : ∀ s i t o, P s → s.tasks[i]? = some t → Trans env cfg s t o → P (s.after i o))
    (schedule : List Nat) :
    ∀ s s2, P s → run env cfg s schedule = some s2 → P s2 := by
  induction schedule with
  | nil =>
    intro s s2 hs hrun
    simp only [run, Option.some.injEq] at hrun
    exact hrun ▸ hs
  | cons i rest ih =>
    intro s s2 hs hrun
    simp only [run] at hrun
    split at hrun
    · cases hrun
    · rename_i s1 h1
      obtain ⟨t, o, ht, htr, rfl⟩ := step_trans env cfg s s1 i h1
      exact ih _ _ (hstep s i t o hs ht htr) hrun

/-- Invariants of the crawl: a property of the initial state that every step keeps holds
in every reachable state. -/
theorem reachable_induction (env : Env) (cfg : Config) (rawBaseURL : String) (P : State → Prop)
    (hinit : P (initState rawBaseURL))
    (hstep : ∀ s i t o, P s → s.tasks[i]? = some t → Trans env cfg s t o → P (s.after i o))
    (s : State) (hs : Reachable env cfg rawBaseURL s) : P s := by
  obtain ⟨schedule, hrun⟩ := hs
  exact run_induction env cfg P hstep schedule _ _ hinit hrun

/-! ## Lists of tasks -/

theorem mem_of_getElem? {α : Type} (l : List α) (i : Nat) (a : α) (h : l[i]? = some a) :
    a ∈ l := by
  exact List.getElem?_mem h

theorem mem_after (s : State) (i : Nat) (o : Outcome) (t2 : Task)
    (h : t2 ∈ (s.after i o).tasks) : t2 ∈ s.tasks ∨ t2 = o.task ∨ t2 ∈ o.children := by
  simp only [State.after, List.mem_append] at h
  rcases h with h | h
  · rcases List.mem_or_eq_of_mem_set h with h | h
    · exact Or.inl h
    · exact Or.inr (Or.inl h)
  · exact Or.inr (Or.inr h)

/-- Replacing the element at a position changes a count by the old and the new element. -/
theorem countP_set_add {α : Type} (p : α → Bool) (l : List α) :
    ∀ (i : Nat) (a b : α), l[i]? = some a →
      (l.set i b).countP p + (if p a then 1 else 0) = l.countP p + (if p b then 1 else 0) := by
  induction l with
  | nil => intro i a b h; simp at h
  | cons x xs ih =>
    intro i a b h
    cases i with
    | zero =>
      simp at h
      subst h
      simp only [List.set_cons_zero, List.countP_cons]
      omega
    | succ i =>
      simp at h
      have := ih i a b h
      simp only [List.set_cons_succ, List.countP_cons]
      omega

theorem countP_after (p : Task → Bool) (s : State) (i : Nat) (t : Task) (o : Outcome)
    (h : s.tasks[i]? = some t) :
    (s.after i o).tasks.countP p + (if p t then 1 else 0)
      = s.tasks.countP p + (if p o.task then 1 else 0) + o.children.countP p := by
  have := countP_set_add p s.tasks i t o.task h
  simp only [State.after, List.countP_append]
  omega

/-- Every task other than the one that moves is still there after the step. -/
theorem mem_set_of_mem {α : Type} (l : List α) :
    ∀ (i : Nat) (a b x : α), l[i]? = some a → x ∈ l → x ∈ l.set i b ∨ x = a := by
  induction l with
  | nil => intro i a b x h; simp at h
  | cons y ys ih =>
    intro i a b x h hx
    cases i with
    | zero =>
      simp at h
      subst h
      rcases List.mem_cons.1 hx with hx | hx
      · exact Or.inr hx
      · exact Or.inl (by simp [hx])
    | succ i =>
      simp at h
      rcases List.mem_cons.1 hx with hx | hx
      · exact Or.inl (by simp [hx])
      · rcases ih i a b x h hx with h2 | h2
        · exact Or.inl (by simp [h2])
        · exact Or.inr h2

theorem mem_after_of_mem (s : State) (i : Nat) (t : Task) (o : Outcome) (x : Task)
    (h : s.tasks[i]? = some t) (hx : x ∈ s.tasks) : x ∈ (s.after i o).tasks ∨ x = t := by
  rcases mem_set_of_mem s.tasks i t o.task x h hx with h2 | h2
  · exact Or.inl (by simp [State.after, h2])
  · exact Or.inr h2

theorem task_mem_after (s : State) (i : Nat) (t : Task) (o : Outcome)
    (h : s.tasks[i]? = some t) : o.task ∈ (s.after i o).tasks := by
  obtain ⟨hi, -⟩ := List.getElem?_eq_some.1 h
  simp only [State.after, List.mem_append]
  exact Or.inl (List.mem_set _ _ hi _)

theorem child_mem_after (s : State) (i : Nat) (o : Outcome) (c : Task) (hc : c ∈ o.children) :
    c ∈ (s.after i o).tasks := by
  simp only [State.after, List.mem_append]
  exact Or.inr hc

/-- Two different members with a property make its count at least two. -/
theorem two_le_countP {α : Type} (p : α → Bool) (l : List α) (a b : α) (ha : a ∈ l) (hb : b ∈ l)
    (hab : a ≠ b) (hpa : p a = true) (hpb : p b = true) : 2 ≤ l.countP p := by
  induction l with
  | nil => simp at ha
  | cons x xs ih =>
    simp only [List.countP_cons]
    rcases List.mem_cons.1 ha with ha1 | ha1 <;> rcases List.mem_cons.1 hb with hb1 | hb1
    · exact absurd (ha1.trans hb1.symm) hab
    · have : 0 < xs.countP p := List.countP_pos_iff.2 ⟨b, hb1, hpb⟩
      rw [← ha1]
      simp only [hpa, if_true]
      omega
    · have : 0 < xs.countP p := List.countP_pos_iff.2 ⟨a, ha1, hpa⟩
      rw [← hb1]
      simp only [hpb, if_true]
      omega
    · have := ih ha1 hb1
      omega

/-! ## What each task's program point records -/

theorem taskInv_fresh (env : Env) (baseURLHost rawURL : String) :
    TaskInv env baseURLHost { rawCurrentURL := rawURL } := by
  constructor <;> simp [PC.acquiredCount, PC.releasedCount, PC.doneCount, PC.fetchedCount,
    PC.hasPage, PC.fetchFailed, PC.inLoop, PC.key]

theorem scopeKey_of_checks (baseURLHost rawURL key : String) (u : Url.URL)
    (hparse : Url.Parse rawURL = some u) (hhost : baseURLHost = u.Host)
    (hnorm : normalizeURL rawURL = some key) : scopeKey baseURLHost rawURL = some key := by
  simp [scopeKey, hparse, hhost, hnorm]

theorem trans_children (env : Env) (cfg : Config) (s : State) (t : Task) (o : Outcome)
    (h : Trans env cfg s t o) : ∀ c ∈ o.children, ∃ link, c = { rawCurrentURL := link } := by
  cases h <;> simp

theorem taskInv_step (env : Env) (cfg : Config) (s : State) (t : Task) (o : Outcome)
    (ht : TaskInv env cfg.baseURLHost t) (h : Trans env cfg s t o) :
    TaskInv env cfg.baseURLHost o.task := by
  obtain ⟨h1, h2, h3, h4, h5, h6, h7, h8⟩ := ht
  cases h <;> rename_i hpc <;>
    simp only [hpc, PC.acquiredCount, PC.releasedCount, PC.doneCount, PC.fetchedCount,
      PC.hasPage, PC.fetchFailed, PC.inLoop, PC.key] at h1 h2 h3 h4 h5 h6 h7 h8 <;>
    constructor <;>
    simp_all [PC.acquiredCount, PC.releasedCount, PC.doneCount, PC.fetchedCount,
      PC.hasPage, PC.fetchFailed, PC.inLoop, PC.key, Exit.key, Exit.isFetchFailure,
      Exit.isCompleted, scopeKey]

/-- In every reachable state every task is as its program point says. -/
theorem reachable_taskInv (env : Env) (cfg : Config) (rawBaseURL : String) (s : State)
    (hs : Reachable env cfg rawBaseURL s) : ∀ t ∈ s.tasks, TaskInv env cfg.baseURLHost t := by
  refine reachable_induction env cfg rawBaseURL (fun s => ∀ t ∈ s.tasks, TaskInv env cfg.baseURLHost t)
    ?_ ?_ s hs
  · intro t ht
    simp only [initState, List.mem_singleton] at ht
    subst ht
    exact taskInv_fresh env _ _
  · intro s i t o ih hget htr t2 ht2
    rcases mem_after s i o t2 ht2 with h | h | h
    · exact ih t2 h
    · subst h
      exact taskInv_step env cfg s t o (ih t (mem_of_getElem? _ _ _ hget)) htr
    · obtain ⟨link, rfl⟩ := trans_children env cfg s t o htr t2 h
      exact taskInv_fresh env _ _

/-! ## Permits and the wait group -/

/-- The number of values in the channel is the number of tasks between their channel
send and their channel receive, and it never exceeds the capacity. -/
theorem reachable_permits (env : Env) (cfg : Config) (rawBaseURL : String) (s : State)
    (hs : Reachable env cfg rawBaseURL s) :
    s.permits = s.tasks.countP (fun t => t.pc.holdsPermit) ∧ s.permits ≤ cfg.capacity := by
  refine reachable_induction env cfg rawBaseURL
    (fun s => s.permits = s.tasks.countP (fun t => t.pc.holdsPermit) ∧ s.permits ≤ cfg.capacity)
    ?_ ?_ s hs
  · simp [initState, PC.holdsPermit]
  · intro s i t o ih hget htr
    have hc := countP_after (fun t => t.pc.holdsPermit) s i t o hget
    obtain ⟨ih1, ih2⟩ := ih
    cases htr <;> simp_all [State.after, PC.holdsPermit] <;> omega

/-- The counter of the wait group is the number of tasks that have not ended plus the
number of tasks that stand between `cfg.wg.Add(1)` and `go cfg.crawlPage(link)`. -/
theorem reachable_wg (env : Env) (cfg : Config) (rawBaseURL : String) (s : State)
    (hs : Reachable env cfg rawBaseURL s) :
    s.wg = ((s.tasks.countP fun t => !t.pc.isFinished : Nat) : Int)
      + ((s.tasks.countP fun t => t.pc.isLaunch : Nat) : Int) := by
  refine reachable_induction env cfg rawBaseURL
    (fun s => s.wg = ((s.tasks.countP fun t => !t.pc.isFinished : Nat) : Int)
      + ((s.tasks.countP fun t => t.pc.isLaunch : Nat) : Int)) ?_ ?_ s hs
  · simp [initState, PC.isFinished, PC.isLaunch]
  · intro s i t o ih hget htr
    have hc := countP_after (fun t => !t.pc.isFinished) s i t o hget
    have hl := countP_after (fun t => t.pc.isLaunch) s i t o hget
    cases htr <;> simp_all [State.after, PC.isFinished, PC.isLaunch]
    all_goals omega

/-! ## The registry and its claimants -/

theorem countP_after_of (p : Task → Bool) (s : State) (i : Nat) (t : Task) (o : Outcome)
    (h : s.tasks[i]? = some t) (a b : Nat) (ha : (if p t then 1 else 0) = a)
    (hb : (if p o.task then 1 else 0) = b) :
    (s.after i o).tasks.countP p + a = s.tasks.countP p + b + o.children.countP p := by
  have := countP_after p s i t o h
  omega

theorem regInv_init (rawBaseURL : String) : RegInv (initState rawBaseURL) := by
  constructor <;> simp [initState, PC.claimed, PC.keepsPlaceholder]

/-- A step that leaves the registry alone, and the moving task's claim as it is, keeps
the registry invariant. -/
theorem regInv_quiet (s : State) (i : Nat) (t : Task) (o : Outcome) (hinv : RegInv s)
    (hget : s.tasks[i]? = some t) (hpages : o.pages = s.pages)
    (hclaimed : o.task.pc.claimed = t.pc.claimed) (hins : o.task.inserted = t.inserted)
    (hkeep : o.task.pc.keepsPlaceholder = true → t.pc.keepsPlaceholder = true)
    (hchildren : ∀ c ∈ o.children, ∃ link, c = { rawCurrentURL := link }) :
    RegInv (s.after i o) := by
  have htmem := mem_of_getElem? _ _ _ hget
  constructor
  · intro t2 ht2 k hk
    show o.pages.lookup k ≠ none
    rw [hpages]
    rcases mem_after s i o t2 ht2 with h | h | h
    · exact hinv.present t2 h k hk
    · subst h
      exact hinv.present t htmem k (hclaimed ▸ hk)
    · obtain ⟨link, rfl⟩ := hchildren t2 h
      simp [PC.claimed] at hk
  · intro k
    have hc := countP_after (fun t => decide (t.pc.claimed = some k)) s i t o hget
    have hu := hinv.unique k
    have hch : o.children.countP (fun t => decide (t.pc.claimed = some k)) = 0 := by
      rw [List.countP_eq_zero]
      intro c hc
      obtain ⟨link, rfl⟩ := hchildren c hc
      simp [PC.claimed]
    simp only [hclaimed] at hc
    omega
  · intro t2 ht2 hk2 k hk
    show o.pages.lookup k = some {}
    rw [hpages]
    rcases mem_after s i o t2 ht2 with h | h | h
    · exact hinv.placeholder t2 h hk2 k hk
    · subst h
      exact hinv.placeholder t htmem (hkeep hk2) k (hclaimed ▸ hk)
    · obtain ⟨link, rfl⟩ := hchildren t2 h
      simp [PC.claimed] at hk
  · intro t2 ht2
    rcases mem_after s i o t2 ht2 with h | h | h
    · exact hinv.inserted t2 h
    · subst h
      rw [hins, hclaimed]
      exact hinv.inserted t htmem
    · obtain ⟨link, rfl⟩ := hchildren t2 h
      simp [PC.claimed]

theorem regInv_claimFirst (s : State) (i : Nat) (t : Task) (key : String) (hinv : RegInv s)
    (hget : s.tasks[i]? = some t) (hpc : t.pc = .claim key)
    (habsent : s.pages.lookup key = none) :
    RegInv (s.after i ⟨{ t with pc := .fetch key, inserted := t.inserted + 1 },
      s.pages.assign key {}, s.permits, s.wg, []⟩) := by
  have htmem := mem_of_getElem? _ _ _ hget
  have hother : ∀ t2 ∈ s.tasks, ∀ k, t2.pc.claimed = some k → k ≠ key := by
    intro t2 h2 k hk hkk
    exact hinv.present t2 h2 k hk (hkk ▸ habsent)
  constructor
  · intro t2 ht2 k hk
    show (s.pages.assign key {}).lookup k ≠ none
    rcases mem_after s i _ t2 ht2 with h | h | h
    · rw [GoMap.lookup_assign_other _ _ _ _ (hother t2 h k hk)]
      exact hinv.present t2 h k hk
    · subst h
      simp only [PC.claimed, Option.some.injEq] at hk
      subst hk
      simp [GoMap.lookup_assign_self]
    · simp at h
  · intro k
    have hu := hinv.unique k
    by_cases hk : k = key
    · subst hk
      have hc := countP_after_of (fun t => decide (t.pc.claimed = some k)) s i t
        ⟨{ t with pc := .fetch k, inserted := t.inserted + 1 },
          s.pages.assign k {}, s.permits, s.wg, []⟩ hget 0 1
        (by simp [hpc, PC.claimed]) (by simp [PC.claimed])
      have hz : s.tasks.countP (fun t => decide (t.pc.claimed = some k)) = 0 := by
        rw [List.countP_eq_zero]
        intro t2 h2
        simp only [decide_eq_true_eq]
        intro hcl
        exact hother t2 h2 k hcl rfl
      simp only [List.countP_nil] at hc
      omega
    · have hkk : ¬ key = k := fun h => hk h.symm
      have hc := countP_after_of (fun t => decide (t.pc.claimed = some k)) s i t
        ⟨{ t with pc := .fetch key, inserted := t.inserted + 1 },
          s.pages.assign key {}, s.permits, s.wg, []⟩ hget 0 0
        (by simp [hpc, PC.claimed]) (by simp [PC.claimed, hkk])
      simp only [List.countP_nil] at hc
      omega
  · intro t2 ht2 hk2 k hk
    show (s.pages.assign key {}).lookup k = some {}
    rcases mem_after s i _ t2 ht2 with h | h | h
    · rw [GoMap.lookup_assign_other _ _ _ _ (hother t2 h k hk)]
      exact hinv.placeholder t2 h hk2 k hk
    · subst h
      simp only [PC.claimed, Option.some.injEq] at hk
      subst hk
      simp [GoMap.lookup_assign_self]
    · simp at h
  · intro t2 ht2
    rcases mem_after s i _ t2 ht2 with h | h | h
    · exact hinv.inserted t2 h
    · subst h
      have := hinv.inserted t htmem
      simp [hpc, PC.claimed] at this
      simp [PC.claimed, this]
    · simp at h

theorem regInv_finalize (s : State) (i : Nat) (t : Task) (key : String) (pageData : PageData)
    (hinv : RegInv s) (hget : s.tasks[i]? = some t) (hpc : t.pc = .finalize key pageData) :
    RegInv (s.after i ⟨{ t with pc := .spawn key pageData.OutgoingLinks
                                inserted := t.inserted + ((s.pages.assign key pageData).len - s.pages.len) },
      s.pages.assign key pageData, s.permits, s.wg, []⟩) := by
  have htmem := mem_of_getElem? _ _ _ hget
  have hpres : s.pages.lookup key ≠ none := hinv.present t htmem key (by simp [hpc, PC.claimed])
  have hkeepk : ∀ k, (s.pages.assign key pageData).lookup k ≠ none ↔ s.pages.lookup k ≠ none := by
    intro k
    by_cases hk : k = key
    · subst hk
      simp [GoMap.lookup_assign_self, hpres]
    · rw [GoMap.lookup_assign_other _ _ _ _ hk]
  constructor
  · intro t2 ht2 k hk
    show (s.pages.assign key pageData).lookup k ≠ none
    rw [hkeepk]
    rcases mem_after s i _ t2 ht2 with h | h | h
    · exact hinv.present t2 h k hk
    · subst h
      simp only [PC.claimed, Option.some.injEq] at hk
      subst hk
      exact hpres
    · simp at h
  · intro k
    have hc := countP_after_of (fun t => decide (t.pc.claimed = some k)) s i t
      ⟨{ t with pc := .spawn key pageData.OutgoingLinks
                inserted := t.inserted + ((s.pages.assign key pageData).len - s.pages.len) },
        s.pages.assign key pageData, s.permits, s.wg, []⟩ hget
        (if key = k then 1 else 0) (if key = k then 1 else 0)
        (by simp [hpc, PC.claimed]) (by simp [PC.claimed])
    have hu := hinv.unique k
    simp only [List.countP_nil] at hc
    omega
  · intro t2 ht2 hk2 k hk
    show (s.pages.assign key pageData).lookup k = some {}
    rcases mem_after s i _ t2 ht2 with h | h | h
    · have hne : k ≠ key := by
        intro hkk
        subst hkk
        have hdiff : t2 ≠ t := by
          intro h2
          subst h2
          simp [hpc, PC.keepsPlaceholder] at hk2
        have := two_le_countP (fun t => decide (t.pc.claimed = some k)) s.tasks t2 t h htmem hdiff
          (by simp [hk]) (by simp [hpc, PC.claimed])
        have hu := hinv.unique k
        omega
      rw [GoMap.lookup_assign_other _ _ _ _ hne]
      exact hinv.placeholder t2 h hk2 k hk
    · subst h
      simp [PC.keepsPlaceholder] at hk2
    · simp at h
  · intro t2 ht2
    rcases mem_after s i _ t2 ht2 with h | h | h
    · exact hinv.inserted t2 h
    · subst h
      have := hinv.inserted t htmem
      simp [hpc, PC.claimed] at this
      simp [PC.claimed, this, GoMap.len_assign_present _ _ _ hpres]
    · simp at h

theorem regInv_step (env : Env) (cfg : Config) (s : State) (i : Nat) (t : Task) (o : Outcome)
    (hinv : RegInv s) (hget : s.tasks[i]? = some t) (htr : Trans env cfg s t o) :
    RegInv (s.after i o) := by
  have hch := trans_children env cfg s t o htr
  cases htr with
  | claimFirst key hpc habsent => exact regInv_claimFirst s i t key hinv hget hpc habsent
  | finalize key pageData hpc => exact regInv_finalize s i t key pageData hinv hget hpc
  | _ =>
    apply regInv_quiet s i t _ hinv hget <;>
      simp_all [PC.claimed, PC.keepsPlaceholder, Exit.claimed, Exit.isFetchFailure]

/-- The registry invariant holds in every reachable state. -/
theorem reachable_regInv (env : Env) (cfg : Config) (rawBaseURL : String) (s : State)
    (hs : Reachable env cfg rawBaseURL s) : RegInv s :=
  reachable_induction env cfg rawBaseURL RegInv (regInv_init rawBaseURL)
    (fun s i t o ih hget htr => regInv_step env cfg s i t o ih hget htr) s hs


/-! ## Runs and reachability -/

theorem trans_crawlPageStep (env : Env) (cfg : Config) (s : State) (t : Task) (o : Outcome)
    (h : Trans env cfg s t o) : crawlPageStep env cfg s t = some o := by
  cases h with
  | claimFirst key hpc habsent =>
    simp [crawlPageStep, hpc, addPageVisit_absent _ _ habsent, GoMap.len_assign_absent _ _ _ habsent,
      Outcome.own]
  | claimDup key hpc hpresent =>
    simp [crawlPageStep, hpc, addPageVisit_present _ _ hpresent, Outcome.own]
  | _ => simp_all [crawlPageStep, Outcome.own]

/-- The relation `Trans` is the graph of `crawlPageStep`. -/
theorem crawlPageStep_iff_trans (env : Env) (cfg : Config) (s : State) (t : Task) (o : Outcome) :
    crawlPageStep env cfg s t = some o ↔ Trans env cfg s t o :=
  ⟨crawlPageStep_trans env cfg s t o, trans_crawlPageStep env cfg s t o⟩

theorem step_of_trans (env : Env) (cfg : Config) (s : State) (i : Nat) (t : Task) (o : Outcome)
    (hget : s.tasks[i]? = some t) (htr : Trans env cfg s t o) :
    step env cfg s i = some (s.after i o) := by
  simp [step, hget, trans_crawlPageStep env cfg s t o htr, State.after]

theorem run_append (env : Env) (cfg : Config) (a b : List Nat) :
    ∀ s, run env cfg s (a ++ b) = (run env cfg s a).bind fun s2 => run env cfg s2 b := by
  induction a with
  | nil => intro s; rfl
  | cons i rest ih =>
    intro s
    simp only [List.cons_append, run]
    cases step env cfg s i with
    | none => rfl
    | some s1 => exact ih s1

theorem reachable_init (env : Env) (cfg : Config) (rawBaseURL : String) :
    Reachable env cfg rawBaseURL (initState rawBaseURL) := ⟨[], rfl⟩

theorem reachable_step (env : Env) (cfg : Config) (rawBaseURL : String) (s s2 : State) (i : Nat)
    (hs : Reachable env cfg rawBaseURL s) (h : step env cfg s i = some s2) :
    Reachable env cfg rawBaseURL s2 := by
  obtain ⟨schedule, hrun⟩ := hs
  refine ⟨schedule ++ [i], ?_⟩
  rw [run_append, hrun]
  simp [run, h]

theorem reachable_run (env : Env) (cfg : Config) (rawBaseURL : String) (schedule : List Nat) :
    ∀ (s s2 : State), Reachable env cfg rawBaseURL s → run env cfg s schedule = some s2 →
      Reachable env cfg rawBaseURL s2 := by
  intro s s2 hs hrun
  obtain ⟨sched0, h0⟩ := hs
  refine ⟨sched0 ++ schedule, ?_⟩
  rw [run_append, h0]
  exact hrun

/-- Induction over the reachable states, with the state before each step known to be
reachable. -/
theorem reachable_induction_strong (env : Env) (cfg : Config) (rawBaseURL : String)
    (P : State → Prop) (hinit : P (initState rawBaseURL))
    (hstep : ∀ s i t o, Reachable env cfg rawBaseURL s → P s → s.tasks[i]? = some t →
      Trans env cfg s t o → P (s.after i o))
    (s : State) (hs : Reachable env cfg rawBaseURL s) : P s := by
  have := reachable_induction env cfg rawBaseURL (fun s => Reachable env cfg rawBaseURL s ∧ P s)
    ⟨reachable_init env cfg rawBaseURL, hinit⟩
    (fun s i t o ih hget htr =>
      ⟨reachable_step env cfg rawBaseURL s _ i ih.1 (step_of_trans env cfg s i t o hget htr),
        hstep s i t o ih.1 ih.2 hget htr⟩) s hs
  exact this.2

/-! ## The page limit -/

theorem isClaim_le_holdsPermit (l : List Task) :
    l.countP (fun t => t.pc.isClaim) ≤ l.countP (fun t => t.pc.holdsPermit) := by
  apply List.countP_mono_left
  intro t _ h
  cases hpc : t.pc <;> simp_all [PC.isClaim, PC.holdsPermit]

theorem isClaim_quiet (s : State) (i : Nat) (t : Task) (o : Outcome)
    (hget : s.tasks[i]? = some t) (h1 : t.pc.isClaim = false) (h2 : o.task.pc.isClaim = false)
    (hch : ∀ c ∈ o.children, c.pc.isClaim = false) :
    (s.after i o).tasks.countP (fun t => t.pc.isClaim)
      = s.tasks.countP (fun t => t.pc.isClaim) := by
  have hc := countP_after_of (fun t => t.pc.isClaim) s i t o hget 0 0
    (by simp [h1]) (by simp [h2])
  have hz : o.children.countP (fun t => t.pc.isClaim) = 0 := by
    rw [List.countP_eq_zero]
    intro c hc
    simp [hch c hc]
  omega

/-- With a page limit `N > 0`: the registry size, plus the number of tasks that have
passed the limit check and not yet called `addPageVisit`, stays below `N` plus the
capacity. -/
theorem reachable_limit (env : Env) (cfg : Config) (rawBaseURL : String) (N : Nat)
    (hN : 0 < N) (hmax : cfg.maxPages = (N : Int)) (s : State)
    (hs : Reachable env cfg rawBaseURL s) :
    s.pages.len + s.tasks.countP (fun t => t.pc.isClaim) + 1 ≤ N + cfg.capacity := by
  refine reachable_induction_strong env cfg rawBaseURL
    (fun s => s.pages.len + s.tasks.countP (fun t => t.pc.isClaim) + 1 ≤ N + cfg.capacity)
    ?_ ?_ s hs
  · simp [initState, GoMap.empty, GoMap.len, PC.isClaim]
    omega
  · intro s i t o hreach ih hget htr
    have hreg := reachable_regInv env cfg rawBaseURL s hreach
    have htmem := mem_of_getElem? _ _ _ hget
    cases htr with
    | toClaim currentURL key hpc hlim hparse hhost hnorm =>
      have hreach2 := reachable_step env cfg rawBaseURL s _ i hreach
        (step_of_trans env cfg s i t _ hget (Trans.toClaim currentURL key hpc hlim hparse hhost hnorm))
      have hperm := reachable_permits env cfg rawBaseURL _ hreach2
      have hle := isClaim_le_holdsPermit
        (s.after i ⟨{ t with pc := .claim key }, s.pages, s.permits, s.wg, []⟩).tasks
      have hlen : s.pages.len < N := by
        rw [hmax] at hlim
        simp only [pagesLen] at hlim
        omega
      show s.pages.len + _ + 1 ≤ _
      have hp : (s.after i ⟨{ t with pc := .claim key }, s.pages, s.permits, s.wg, []⟩).permits
          = s.permits := rfl
      omega
    | claimFirst key hpc habsent =>
      have hc := countP_after_of (fun t => t.pc.isClaim) s i t
        ⟨{ t with pc := .fetch key, inserted := t.inserted + 1 },
          s.pages.assign key {}, s.permits, s.wg, []⟩ hget 1 0
        (by simp [hpc, PC.isClaim]) (by simp [PC.isClaim])
      show (s.pages.assign key {}).len + _ + 1 ≤ _
      rw [GoMap.len_assign_absent _ _ _ habsent]
      simp only [List.countP_nil] at hc
      omega
    | finalize key pageData hpc =>
      have hc := countP_after_of (fun t => t.pc.isClaim) s i t
        ⟨{ t with pc := .spawn key pageData.OutgoingLinks
                  inserted := t.inserted + ((s.pages.assign key pageData).len - s.pages.len) },
          s.pages.assign key pageData, s.permits, s.wg, []⟩ hget 0 0
        (by simp [hpc, PC.isClaim]) (by simp [PC.isClaim])
      have hpres : s.pages.lookup key ≠ none :=
        hreg.present t htmem key (by simp [hpc, PC.claimed])
      have hlen := GoMap.len_assign_present s.pages key pageData hpres
      show (s.pages.assign key pageData).len + _ + 1 ≤ _
      simp only [List.countP_nil] at hc
      omega
    | claimDup key hpc hpresent =>
      have hc := countP_after_of (fun t => t.pc.isClaim) s i t
        ⟨{ t with pc := .exiting (.alreadyVisited key) }, s.pages, s.permits, s.wg, []⟩ hget 1 0
        (by simp [hpc, PC.isClaim]) (by simp [PC.isClaim])
      show s.pages.len + _ + 1 ≤ _
      simp only [List.countP_nil] at hc
      omega
    | _ =>
      show s.pages.len + _ + 1 ≤ _
      rw [isClaim_quiet s i t _ hget (by simp [PC.isClaim, *]) (by simp [PC.isClaim])
        (by simp [PC.isClaim])]
      exact ih


/-! ## Facts about program points and keys -/

theorem PC.key_of_claimed (pc : PC) (k : String) (h : pc.claimed = some k) : pc.key = some k := by
  cases pc <;> simp_all [PC.claimed, PC.key] <;>
    (rename_i w; cases w <;> simp_all [Exit.claimed, Exit.key])

theorem PC.of_key_none (pc : PC) (h : pc.key = none) :
    pc.claimed = none ∧ pc.hasPage = false ∧ pc.fetchFailed = false ∧ pc.inLoop = false := by
  cases pc <;> simp_all [PC.claimed, PC.key, PC.hasPage, PC.fetchFailed, PC.inLoop] <;>
    (rename_i w; cases w <;>
      simp_all [Exit.claimed, Exit.key, Exit.isCompleted, Exit.isFetchFailure])

theorem scopeKey_some (baseURLHost rawURL key : String)
    (h : scopeKey baseURLHost rawURL = some key) :
    ∃ u, Url.Parse rawURL = some u ∧ u.Host = baseURLHost ∧ normalizeURL rawURL = some key := by
  unfold scopeKey at h
  split at h
  · cases h
  · rename_i u hu
    split at h
    · cases h
    · rename_i hhost
      exact ⟨u, hu, (not_not.1 hhost).symm, h⟩

theorem scopeKey_none_of_outside (baseURLHost rawURL : String)
    (h : Url.Parse rawURL = none ∨ ∃ u, Url.Parse rawURL = some u ∧ u.Host ≠ baseURLHost) :
    scopeKey baseURLHost rawURL = none := by
  rcases h with h | ⟨u, hu, hhost⟩
  · simp [scopeKey, h]
  · simp [scopeKey, hu, Ne.symm hhost]

theorem GoMap.mem_keys_iff (m : GoMap) (k : String) : k ∈ m.keys ↔ m.lookup k ≠ none := by
  obtain ⟨l⟩ := m
  simp only [GoMap.keys, GoMap.lookup]
  induction l with
  | nil => simp [GoMap.lookupL]
  | cons e rest ih =>
    obtain ⟨k2, v⟩ := e
    by_cases hk : k2 = k
    · simp [GoMap.lookupL, hk]
    · have hk3 : ¬ k = k2 := fun h => hk h.symm
      simp only [List.map_cons, List.mem_cons, hk3, false_or, GoMap.lookupL, hk, if_false]
      exact ih

/-- Every key in the registry is the key of some in-scope raw URL. -/
theorem reachable_keys_in_scope (env : Env) (cfg : Config) (rawBaseURL : String) (s : State)
    (hs : Reachable env cfg rawBaseURL s) :
    ∀ k, s.pages.lookup k ≠ none → ∃ rawURL, scopeKey cfg.baseURLHost rawURL = some k := by
  refine reachable_induction_strong env cfg rawBaseURL
    (fun s => ∀ k, s.pages.lookup k ≠ none → ∃ rawURL, scopeKey cfg.baseURLHost rawURL = some k)
    ?_ ?_ s hs
  · intro k hk
    simp [initState, GoMap.empty, GoMap.lookup, GoMap.lookupL] at hk
  · intro s i t o hreach ih hget htr k hk
    have hti := reachable_taskInv env cfg rawBaseURL s hreach t (mem_of_getElem? _ _ _ hget)
    cases htr with
    | claimFirst key hpc habsent =>
      by_cases hkk : k = key
      · exact ⟨t.rawCurrentURL, hti.key k (by simp [hpc, PC.key, hkk])⟩
      · have hk2 : (s.pages.assign key {}).lookup k ≠ none := hk
        rw [GoMap.lookup_assign_other _ _ _ _ hkk] at hk2
        exact ih k hk2
    | finalize key pageData hpc =>
      by_cases hkk : k = key
      · exact ⟨t.rawCurrentURL, hti.key k (by simp [hpc, PC.key, hkk])⟩
      · have hk2 : (s.pages.assign key pageData).lookup k ≠ none := hk
        rw [GoMap.lookup_assign_other _ _ _ _ hkk] at hk2
        exact ih k hk2
    | _ => exact ih k hk

/-- When the counter of the wait group is zero no task can move. -/
theorem no_step_of_all_finished (env : Env) (cfg : Config) (s : State)
    (h : s.complete = true) (i : Nat) : step env cfg s i = none := by
  unfold step
  split
  · rfl
  · rename_i t ht
    have hf : t.pc.isFinished = true := by
      simp only [State.complete, List.all_eq_true] at h
      exact h t (mem_of_getElem? _ _ _ ht)
    have : crawlPageStep env cfg s t = none := by
      cases hpc : t.pc <;> simp_all [PC.isFinished, crawlPageStep]
    simp [this]

theorem complete_of_count_zero (s : State)
    (h : s.tasks.countP (fun t => !t.pc.isFinished) = 0) : s.complete = true := by
  simp only [State.complete, List.all_eq_true]
  intro t ht
  have := (List.countP_eq_zero.1 h) t ht
  simpa using this

/-! ## Claims about the crawl -/

/-- C4 (soft page limit): with a page limit `N > 0`, in every reachable state of the
crawl at most `cfg.capacity` tasks hold a permit and the registry has at most
`N + cfg.capacity` entries. -/
theorem C4_soft_page_limit (env : Env) (cfg : Config) (rawBaseURL : String) (N : Nat)
    (hN : 0 < N) (hmax : cfg.maxPages = (N : Int)) (s : State)
    (hs : Reachable env cfg rawBaseURL s) :
    s.tasks.countP (fun t => t.pc.holdsPermit) ≤ cfg.capacity ∧
    pagesLen s.pages ≤ N + cfg.capacity := by
  have h1 := reachable_permits env cfg rawBaseURL s hs
  have h2 := reachable_limit env cfg rawBaseURL N hN hmax s hs
  simp only [pagesLen]
  omega

/-- Witness for C4: on the demo site with limit 2 and capacity 2, two tasks pass the
limit check before either claims, and the registry ends with 3 entries. -/
theorem C4_soft_page_limit_witness :
    pagesLen (stateAfter demoEnv ⟨"h", 2, 2⟩ "http://h/" overshootSchedule).pages = 3 ∧
    ((stateAfter demoEnv ⟨"h", 2, 2⟩ "http://h/" overshootSchedule).tasks.countP
        (fun t => t.pc.holdsPermit) ≤ 2 ∧
      pagesLen (stateAfter demoEnv ⟨"h", 2, 2⟩ "http://h/" overshootSchedule).pages ≤ 2 + 2) :=
  ⟨by decide, C4_soft_page_limit demoEnv ⟨"h", 2, 2⟩ "http://h/" 2 (by decide) rfl _
    ⟨overshootSchedule, by decide⟩⟩

/-- C5, as stated, fails in the state between `cfg.wg.Add(1)` (line 87) and
`go cfg.crawlPage(link)` (line 88): on the demo site, when the seed task has registered
its first child and has not yet spawned it, the counter of the wait group is 2 while one
task has been spawned and has not finished. -/
theorem C5_completion_tracking_counterexample :
    (run demoEnv ⟨"h", 1, 0⟩ (initState "http://h/") (moves 0 6)).map
        (fun s => (s.wg, s.tasks.length, s.tasks.countP (fun t => !t.pc.isFinished),
          s.tasks.map (fun t => t.pc)))
      = some (2, 1, 1,
          [.launch "h" "http://h/p1" ["http://h/p2", "http://h/gone", "http://x/"]]) := by
  decide

/-- C5 (completion tracking, amended): in every reachable state the counter of the wait
group is the number of tasks that have been spawned and have not ended plus the number
of children that are registered and not yet spawned (one for each task that stands
between `cfg.wg.Add(1)` and `go cfg.crawlPage(link)`, and such a task has itself not
ended); every task has called `wg.Done()` once if it has ended and not at all otherwise;
the counter is zero exactly when every task has ended, and no run from there changes
the registry. -/
theorem C5_completion_tracking (env : Env) (cfg : Config) (rawBaseURL : String) (s : State)
    (hs : Reachable env cfg rawBaseURL s) :
    s.wg = ((s.tasks.countP fun t => !t.pc.isFinished : Nat) : Int)
      + ((s.tasks.countP fun t => t.pc.isLaunch : Nat) : Int) ∧
    (s.tasks.countP fun t => t.pc.isLaunch) ≤ (s.tasks.countP fun t => !t.pc.isFinished) ∧
    (∀ t ∈ s.tasks, t.doneCalls = if t.pc.isFinished then 1 else 0) ∧
    (s.wg = 0 ↔ s.complete = true) ∧
    (s.wg = 0 →
      ∀ schedule s2, run env cfg s schedule = some s2 → s2.pages = s.pages) := by
  have hwg := reachable_wg env cfg rawBaseURL s hs
  have hle : (s.tasks.countP fun t => t.pc.isLaunch)
      ≤ (s.tasks.countP fun t => !t.pc.isFinished) := by
    apply List.countP_mono_left
    intro t _ h
    cases hpc : t.pc <;> simp_all [PC.isLaunch, PC.isFinished]
  have hzero : s.wg = 0 → s.complete = true := by
    intro h0
    apply complete_of_count_zero
    omega
  refine ⟨hwg, hle, ?_, ⟨hzero, ?_⟩, ?_⟩
  · intro t ht
    have := (reachable_taskInv env cfg rawBaseURL s hs t ht).doneCalls
    rw [this]
    cases t.pc <;> simp [PC.doneCount, PC.isFinished]
  · intro hc
    have h1 : (s.tasks.countP fun t => !t.pc.isFinished) = 0 := by
      rw [List.countP_eq_zero]
      intro t ht
      simp only [State.complete, List.all_eq_true] at hc
      simp [hc t ht]
    omega
  · intro h0 schedule s2 hrun
    cases schedule with
    | nil =>
      simp only [run, Option.some.injEq] at hrun
      rw [hrun]
    | cons i rest =>
      simp [run, no_step_of_all_finished env cfg s (hzero h0) i] at hrun

/-- Witness for C5: the demo site in the state in which the seed task has registered its
first child and not yet spawned it (counter 2, one task), and after the complete
sequential run (counter 0, seven tasks, all ended). -/
theorem C5_completion_tracking_witness :
    ((stateAfter demoEnv ⟨"h", 1, 0⟩ "http://h/" (moves 0 6)).wg = 2 ∧
      (stateAfter demoEnv ⟨"h", 1, 0⟩ "http://h/" (moves 0 6)).tasks.length = 1 ∧
      (stateAfter demoEnv ⟨"h", 1, 0⟩ "http://h/" sequentialSchedule).wg = 0 ∧
      (stateAfter demoEnv ⟨"h", 1, 0⟩ "http://h/" sequentialSchedule).tasks.length = 7) ∧
    ((stateAfter demoEnv ⟨"h", 1, 0⟩ "http://h/" (moves 0 6)).wg
        = (((stateAfter demoEnv ⟨"h", 1, 0⟩ "http://h/" (moves 0 6)).tasks.countP
              fun t => !t.pc.isFinished : Nat) : Int)
          + (((stateAfter demoEnv ⟨"h", 1, 0⟩ "http://h/" (moves 0 6)).tasks.countP
              fun t => t.pc.isLaunch : Nat) : Int) ∧
      ((stateAfter demoEnv ⟨"h", 1, 0⟩ "http://h/" (moves 0 6)).tasks.countP
          fun t => t.pc.isLaunch)
        ≤ ((stateAfter demoEnv ⟨"h", 1, 0⟩ "http://h/" (moves 0 6)).tasks.countP
          fun t => !t.pc.isFinished) ∧
      (∀ t ∈ (stateAfter demoEnv ⟨"h", 1, 0⟩ "http://h/" (moves 0 6)).tasks,
        t.doneCalls = if t.pc.isFinished then 1 else 0) ∧
      ((stateAfter demoEnv ⟨"h", 1, 0⟩ "http://h/" (moves 0 6)).wg = 0 ↔
        (stateAfter demoEnv ⟨"h", 1, 0⟩ "http://h/" (moves 0 6)).complete = true) ∧
      ((stateAfter demoEnv ⟨"h", 1, 0⟩ "http://h/" (moves 0 6)).wg = 0 →
        ∀ schedule s2,
          run demoEnv ⟨"h", 1, 0⟩ (stateAfter demoEnv ⟨"h", 1, 0⟩ "http://h/" (moves 0 6))
            schedule = some s2 →
          s2.pages = (stateAfter demoEnv ⟨"h", 1, 0⟩ "http://h/" (moves 0 6)).pages)) ∧
    ((stateAfter demoEnv ⟨"h", 1, 0⟩ "http://h/" sequentialSchedule).wg
        = (((stateAfter demoEnv ⟨"h", 1, 0⟩ "http://h/" sequentialSchedule).tasks.countP
              fun t => !t.pc.isFinished : Nat) : Int)
          + (((stateAfter demoEnv ⟨"h", 1, 0⟩ "http://h/" sequentialSchedule).tasks.countP
              fun t => t.pc.isLaunch : Nat) : Int) ∧
      ((stateAfter demoEnv ⟨"h", 1, 0⟩ "http://h/" sequentialSchedule).tasks.countP
          fun t => t.pc.isLaunch)
        ≤ ((stateAfter demoEnv ⟨"h", 1, 0⟩ "http://h/" sequentialSchedule).tasks.countP
          fun t => !t.pc.isFinished) ∧
      (∀ t ∈ (stateAfter demoEnv ⟨"h", 1, 0⟩ "http://h/" sequentialSchedule).tasks,
        t.doneCalls = if t.pc.isFinished then 1 else 0) ∧
      ((stateAfter demoEnv ⟨"h", 1, 0⟩ "http://h/" sequentialSchedule).wg = 0 ↔
        (stateAfter demoEnv ⟨"h", 1, 0⟩ "http://h/" sequentialSchedule).complete = true) ∧
      ((stateAfter demoEnv ⟨"h", 1, 0⟩ "http://h/" sequentialSchedule).wg = 0 →
        ∀ schedule s2,
          run demoEnv ⟨"h", 1, 0⟩ (stateAfter demoEnv ⟨"h", 1, 0⟩ "http://h/" sequentialSchedule)
            schedule = some s2 →
          s2.pages = (stateAfter demoEnv ⟨"h", 1, 0⟩ "http://h/" sequentialSchedule).pages)) :=
  ⟨by decide,
    C5_completion_tracking demoEnv ⟨"h", 1, 0⟩ "http://h/" _ ⟨moves 0 6, by decide⟩,
    C5_completion_tracking demoEnv ⟨"h", 1, 0⟩ "http://h/" _ ⟨sequentialSchedule, by decide⟩⟩

/-- C6 (permit balance): in every reachable state, a task that has not started has made
no channel send and no channel receive, a task between line 40 and line 42 has made one
send and no receive, and a task past line 42 (whatever its exit path) has made exactly
one send and exactly one receive; the number of values in the channel is the number of
tasks between their send and their receive. -/
theorem C6_permit_balance (env : Env) (cfg : Config) (rawBaseURL : String) (s : State)
    (hs : Reachable env cfg rawBaseURL s) :
    (∀ t ∈ s.tasks,
      (t.pc = .pending → t.acquired = 0 ∧ t.released = 0) ∧
      (t.pc.holdsPermit = true → t.acquired = 1 ∧ t.released = 0) ∧
      (∀ why, t.pc = .signalling why ∨ t.pc = .finished why →
        t.acquired = 1 ∧ t.released = 1)) ∧
    s.permits = s.tasks.countP (fun t => t.pc.holdsPermit) := by
  refine ⟨?_, (reachable_permits env cfg rawBaseURL s hs).1⟩
  intro t ht
  have hti := reachable_taskInv env cfg rawBaseURL s hs t ht
  have h1 := hti.acquired
  have h2 := hti.released
  refine ⟨?_, ?_, ?_⟩
  · intro hpc
    simp [hpc, PC.acquiredCount, PC.releasedCount] at h1 h2
    exact ⟨h1, h2⟩
  · intro hpc
    cases hp : t.pc <;> simp_all [PC.acquiredCount, PC.releasedCount, PC.holdsPermit]
  · intro why hpc
    rcases hpc with hpc | hpc <;> simp [hpc, PC.acquiredCount, PC.releasedCount] at h1 h2 <;>
      exact ⟨h1, h2⟩

/-- Witness for C6: after the complete sequential run of the demo site, whose seven
tasks leave through five different exit paths. -/
theorem C6_permit_balance_witness :
    (stateAfter demoEnv ⟨"h", 1, 0⟩ "http://h/" sequentialSchedule).tasks.map (fun t => t.pc)
      = [.finished (.completed "h"), .finished (.completed "h/p1"),
         .finished (.completed "h/p2"), .finished (.fetchFailure "h/gone"),
         .finished .outOfScope, .finished (.alreadyVisited "h"),
         .finished (.alreadyVisited "h")] ∧
    ((∀ t ∈ (stateAfter demoEnv ⟨"h", 1, 0⟩ "http://h/" sequentialSchedule).tasks,
      (t.pc = .pending → t.acquired = 0 ∧ t.released = 0) ∧
      (t.pc.holdsPermit = true → t.acquired = 1 ∧ t.released = 0) ∧
      (∀ why, t.pc = .signalling why ∨ t.pc = .finished why →
        t.acquired = 1 ∧ t.released = 1)) ∧
    (stateAfter demoEnv ⟨"h", 1, 0⟩ "http://h/" sequentialSchedule).permits
      = (stateAfter demoEnv ⟨"h", 1, 0⟩ "http://h/" sequentialSchedule).tasks.countP
          (fun t => t.pc.holdsPermit)) :=
  ⟨by decide, C6_permit_balance demoEnv ⟨"h", 1, 0⟩ "http://h/" _
    ⟨sequentialSchedule, by decide⟩⟩

/-- C7 (scope enforcement): in every reachable state of a crawl started from the empty
registry, every key in the registry is `normalizeURL` of a raw URL that parses and
whose host equals `cfg.baseURL.Host`; and a task whose raw URL fails to parse, or parses
with another host, has inserted nothing into the registry, fetched nothing and spawned
no child. -/
theorem C7_scope_enforcement (env : Env) (cfg : Config) (rawBaseURL : String) (s : State)
    (hs : Reachable env cfg rawBaseURL s) :
    (∀ k ∈ s.pages.keys, ∃ rawURL u,
      Url.Parse rawURL = some u ∧ u.Host = cfg.baseURLHost ∧ normalizeURL rawURL = some k) ∧
    (∀ t ∈ s.tasks,
      (Url.Parse t.rawCurrentURL = none ∨
        ∃ u, Url.Parse t.rawCurrentURL = some u ∧ u.Host ≠ cfg.baseURLHost) →
      t.inserted = 0 ∧ t.fetched = 0 ∧ t.spawned = 0) := by
  constructor
  · intro k hk
    obtain ⟨rawURL, hraw⟩ := reachable_keys_in_scope env cfg rawBaseURL s hs k
      ((GoMap.mem_keys_iff _ _).1 hk)
    obtain ⟨u, h1, h2, h3⟩ := scopeKey_some _ _ _ hraw
    exact ⟨rawURL, u, h1, h2, h3⟩
  · intro t ht hout
    have hnone := scopeKey_none_of_outside cfg.baseURLHost t.rawCurrentURL hout
    have hti := reachable_taskInv env cfg rawBaseURL s hs t ht
    have hreg := reachable_regInv env cfg rawBaseURL s hs
    have hkey : t.pc.key = none := by
      cases hk : t.pc.key with
      | none => rfl
      | some k =>
        have := hti.key k hk
        rw [hnone] at this
        cases this
    obtain ⟨hc, hp, hf, hl⟩ := PC.of_key_none t.pc hkey
    refine ⟨?_, ?_, hti.spawned hl⟩
    · have := hreg.inserted t ht
      simpa [hc] using this
    · have := hti.fetched
      simpa [PC.fetchedCount, hp, hf] using this

/-- Witness for C7: after the complete sequential run of the demo site the task for
the other host has done nothing. -/
theorem C7_scope_enforcement_witness :
    (stateAfter demoEnv ⟨"h", 1, 0⟩ "http://h/" sequentialSchedule).pages.keys
      = ["h", "h/p1", "h/p2", "h/gone"] ∧
    ((∀ k ∈ (stateAfter demoEnv ⟨"h", 1, 0⟩ "http://h/" sequentialSchedule).pages.keys,
      ∃ rawURL u, Url.Parse rawURL = some u ∧ u.Host = "h" ∧ normalizeURL rawURL = some k) ∧
    (∀ t ∈ (stateAfter demoEnv ⟨"h", 1, 0⟩ "http://h/" sequentialSchedule).tasks,
      (Url.Parse t.rawCurrentURL = none ∨
        ∃ u, Url.Parse t.rawCurrentURL = some u ∧ u.Host ≠ "h") →
      t.inserted = 0 ∧ t.fetched = 0 ∧ t.spawned = 0)) :=
  ⟨by decide, C7_scope_enforcement demoEnv ⟨"h", 1, 0⟩ "http://h/" _
    ⟨sequentialSchedule, by decide⟩⟩


theorem getElem?_after_self (s : State) (i : Nat) (t : Task) (o : Outcome)
    (hget : s.tasks[i]? = some t) : (s.after i o).tasks[i]? = some o.task := by
  obtain ⟨hi, -⟩ := List.getElem?_eq_some.1 hget
  simp only [State.after]
  rw [List.getElem?_append_left (by simpa using hi)]
  simp [List.getElem?_set_self, hi]

theorem length_after (s : State) (i : Nat) (o : Outcome) :
    (s.after i o).tasks.length = s.tasks.length + o.children.length := by
  simp [State.after]

theorem run_three (env : Env) (cfg : Config) (s s1 s2 s3 : State) (i : Nat)
    (h1 : step env cfg s i = some s1) (h2 : step env cfg s1 i = some s2)
    (h3 : step env cfg s2 i = some s3) : run env cfg s [i, i, i] = some s3 := by
  simp [run, h1, h2, h3]

/-- C8 (fetch failure keeps the placeholder): in every reachable state, (1) a task that
is the first claimant of `key` and whose fetch fails reaches its end in three steps of
its own, which leave the registry and the number of tasks as they are; and (2) a task
that has ended as the first claimant of `key`, with the fetcher failing for its raw URL,
has left through the fetch-failure exit, `key` is in the registry and maps to the empty
`PageData`, the task has enlarged the registry by exactly one entry and has spawned no
child. -/
theorem C8_fetch_failure_keeps_placeholder (env : Env) (cfg : Config) (rawBaseURL : String)
    (s : State) (hs : Reachable env cfg rawBaseURL s) :
    (∀ (i : Nat) (t : Task) (key : String), s.tasks[i]? = some t → t.pc = .fetch key →
      env.getHTML t.rawCurrentURL = none →
      ∃ s2 t2, run env cfg s [i, i, i] = some s2 ∧ s2.tasks[i]? = some t2 ∧
        t2.pc = .finished (.fetchFailure key) ∧ s2.pages = s.pages ∧
        s2.tasks.length = s.tasks.length) ∧
    (∀ t ∈ s.tasks, ∀ (why : Exit) (key : String), t.pc = .finished why →
      why.claimed = some key → env.getHTML t.rawCurrentURL = none →
      why = .fetchFailure key ∧ key ∈ s.pages.keys ∧ s.pages.lookup key = some {} ∧
        t.inserted = 1 ∧ t.spawned = 0) := by
  constructor
  · intro i t key hget hpc hfail
    have hperm := (reachable_permits env cfg rawBaseURL s hs).1
    have hpos : s.permits ≠ 0 := by
      have : 0 < s.tasks.countP (fun t => t.pc.holdsPermit) :=
        List.countP_pos_iff.2 ⟨t, mem_of_getElem? _ _ _ hget, by simp [hpc, PC.holdsPermit]⟩
      omega
    have tr1 := @Trans.fetchFail env cfg s t key hpc hfail
    have st1 := step_of_trans env cfg s i t _ hget tr1
    have g1 := getElem?_after_self s i t
      ⟨{ t with pc := .exiting (.fetchFailure key), fetched := t.fetched + 1 },
        s.pages, s.permits, s.wg, []⟩ hget
    have tr2 := @Trans.release env cfg
      (s.after i ⟨{ t with pc := .exiting (.fetchFailure key), fetched := t.fetched + 1 },
        s.pages, s.permits, s.wg, []⟩)
      { t with pc := .exiting (.fetchFailure key), fetched := t.fetched + 1 }
      (.fetchFailure key) rfl hpos
    have st2 := step_of_trans env cfg _ i _ _ g1 tr2
    have g2 := getElem?_after_self _ i _
      ⟨{ t with pc := .signalling (.fetchFailure key), fetched := t.fetched + 1,
                released := t.released + 1 }, s.pages, s.permits - 1, s.wg, []⟩ g1
    have tr3 := @Trans.signal env cfg
      ((s.after i ⟨{ t with pc := .exiting (.fetchFailure key), fetched := t.fetched + 1 },
        s.pages, s.permits, s.wg, []⟩).after i
          ⟨{ t with pc := .signalling (.fetchFailure key), fetched := t.fetched + 1,
                    released := t.released + 1 }, s.pages, s.permits - 1, s.wg, []⟩)
      { t with pc := .signalling (.fetchFailure key), fetched := t.fetched + 1,
               released := t.released + 1 }
      (.fetchFailure key) rfl
    have st3 := step_of_trans env cfg _ i _ _ g2 tr3
    have g3 := getElem?_after_self _ i _
      ⟨{ t with pc := .finished (.fetchFailure key), fetched := t.fetched + 1,
                released := t.released + 1, doneCalls := t.doneCalls + 1 },
        s.pages, s.permits - 1, s.wg - 1, []⟩ g2
    refine ⟨_, _, run_three env cfg _ _ _ _ i st1 st2 st3, g3, rfl, rfl, ?_⟩
    simp [length_after]
  · intro t ht why key hpc hfirst hfail
    have hti := reachable_taskInv env cfg rawBaseURL s hs t ht
    have hreg := reachable_regInv env cfg rawBaseURL s hs
    cases why with
    | fetchFailure k =>
      simp only [Exit.claimed, Option.some.injEq] at hfirst
      subst hfirst
      have hpl := hreg.placeholder t ht (by simp [hpc, PC.keepsPlaceholder, Exit.isFetchFailure]) k
        (by simp [hpc, PC.claimed, Exit.claimed])
      refine ⟨rfl, (GoMap.mem_keys_iff _ _).2 (by simp [hpl]), hpl, ?_, ?_⟩
      · have := hreg.inserted t ht
        simpa [hpc, PC.claimed, Exit.claimed] using this
      · exact hti.spawned (by simp [hpc, PC.inLoop, Exit.isCompleted])
    | completed k =>
      exact absurd hfail (hti.page (by simp [hpc, PC.hasPage, Exit.isCompleted]))
    | _ => simp [Exit.claimed] at hfirst

/-- Witness for C8: on the demo site the task for `http://h/gone` (task 3) is the first
claimant of `h/gone` and its fetch fails. -/
theorem C8_fetch_failure_keeps_placeholder_witness :
    ((stateAfter demoEnv ⟨"h", 1, 0⟩ "http://h/" (moves 0 16 ++ moves 3 3)).tasks[3]?
        = some { rawCurrentURL := "http://h/gone", pc := .fetch "h/gone", acquired := 1,
                 inserted := 1 } ∧
      demoEnv.getHTML "http://h/gone" = none ∧
      ∃ s2 t2, run demoEnv ⟨"h", 1, 0⟩
          (stateAfter demoEnv ⟨"h", 1, 0⟩ "http://h/" (moves 0 16 ++ moves 3 3)) [3, 3, 3] = some s2 ∧
        s2.tasks[3]? = some t2 ∧ t2.pc = .finished (.fetchFailure "h/gone") ∧
        s2.pages = (stateAfter demoEnv ⟨"h", 1, 0⟩ "http://h/" (moves 0 16 ++ moves 3 3)).pages ∧
        s2.tasks.length
          = (stateAfter demoEnv ⟨"h", 1, 0⟩ "http://h/" (moves 0 16 ++ moves 3 3)).tasks.length) ∧
    ({ rawCurrentURL := "http://h/gone", pc := .finished (.fetchFailure "h/gone"), acquired := 1,
       released := 1, doneCalls := 1, inserted := 1, fetched := 1 }
        ∈ (stateAfter demoEnv ⟨"h", 1, 0⟩ "http://h/" sequentialSchedule).tasks ∧
      "h/gone" ∈ (stateAfter demoEnv ⟨"h", 1, 0⟩ "http://h/" sequentialSchedule).pages.keys ∧
      (stateAfter demoEnv ⟨"h", 1, 0⟩ "http://h/" sequentialSchedule).pages.lookup "h/gone"
        = some {}) :=
  ⟨⟨by decide, by decide,
    (C8_fetch_failure_keeps_placeholder demoEnv ⟨"h", 1, 0⟩ "http://h/" _
      ⟨moves 0 16 ++ moves 3 3, by decide⟩).1 3
      { rawCurrentURL := "http://h/gone", pc := .fetch "h/gone", acquired := 1, inserted := 1 }
      "h/gone" (by decide) rfl (by decide)⟩,
   by decide,
   ((C8_fetch_failure_keeps_placeholder demoEnv ⟨"h", 1, 0⟩ "http://h/" _
      ⟨sequentialSchedule, by decide⟩).2
      { rawCurrentURL := "http://h/gone", pc := .finished (.fetchFailure "h/gone"), acquired := 1,
        released := 1, doneCalls := 1, inserted := 1, fetched := 1 }
      (by decide) (.fetchFailure "h/gone") "h/gone" rfl rfl (by decide)).2.1,
   ((C8_fetch_failure_keeps_placeholder demoEnv ⟨"h", 1, 0⟩ "http://h/" _
      ⟨sequentialSchedule, by decide⟩).2
      { rawCurrentURL := "http://h/gone", pc := .finished (.fetchFailure "h/gone"), acquired := 1,
        released := 1, doneCalls := 1, inserted := 1, fetched := 1 }
      (by decide) (.fetchFailure "h/gone") "h/gone" rfl rfl (by decide)).2.2.1⟩


/-! ## Order independence of the final key set -/

theorem mem_linkKeys (env : Env) (baseURLHost rawURL k : String) :
    k ∈ linkKeys env baseURLHost rawURL ↔
      ∃ l ∈ linksOf env rawURL, scopeKey baseURLHost l = some k := by
  simp [linkKeys, List.mem_filterMap]

theorem trans_pages_mono (env : Env) (cfg : Config) (s : State) (t : Task) (o : Outcome)
    (htr : Trans env cfg s t o) (k : String) (hk : s.pages.lookup k ≠ none) :
    o.pages.lookup k ≠ none := by
  cases htr with
  | claimFirst key hpc habsent =>
    show (s.pages.assign key {}).lookup k ≠ none
    by_cases hkk : k = key
    · subst hkk
      simp [GoMap.lookup_assign_self]
    · rw [GoMap.lookup_assign_other _ _ _ _ hkk]
      exact hk
  | finalize key pageData hpc =>
    show (s.pages.assign key pageData).lookup k ≠ none
    by_cases hkk : k = key
    · subst hkk
      simp [GoMap.lookup_assign_self]
    · rw [GoMap.lookup_assign_other _ _ _ _ hkk]
      exact hk
  | _ => exact hk

/-- A key that enters the registry in a step is the key of the task that moves. -/
theorem trans_pages_new (env : Env) (cfg : Config) (s : State) (t : Task) (o : Outcome)
    (htr : Trans env cfg s t o) (hti : TaskInv env cfg.baseURLHost t) (k : String)
    (hk : o.pages.lookup k ≠ none) :
    s.pages.lookup k ≠ none ∨ scopeKey cfg.baseURLHost t.rawCurrentURL = some k := by
  cases htr with
  | claimFirst key hpc habsent =>
    by_cases hkk : k = key
    · exact Or.inr (hti.key k (by simp [hpc, PC.key, hkk]))
    · have hk2 : (s.pages.assign key {}).lookup k ≠ none := hk
      rw [GoMap.lookup_assign_other _ _ _ _ hkk] at hk2
      exact Or.inl hk2
  | finalize key pageData hpc =>
    by_cases hkk : k = key
    · exact Or.inr (hti.key k (by simp [hpc, PC.key, hkk]))
    · have hk2 : (s.pages.assign key pageData).lookup k ≠ none := hk
      rw [GoMap.lookup_assign_other _ _ _ _ hkk] at hk2
      exact Or.inl hk2
  | _ => exact Or.inl hk

/-- The links still to go after a step were links still to go before it, or are the
links of the page of the task that has just claimed its key. -/
theorem trans_linksToGo (env : Env) (cfg : Config) (s : State) (t : Task) (o : Outcome)
    (htr : Trans env cfg s t o) (l : String)
    (hl : l ∈ o.task.pc.linksToGo env o.task.rawCurrentURL) :
    l ∈ t.pc.linksToGo env t.rawCurrentURL ∨
      ((∃ key, t.pc = .claim key ∧ s.pages.lookup key = none) ∧
        l ∈ linksOf env t.rawCurrentURL) := by
  cases htr with
  | claimFirst key hpc habsent =>
    exact Or.inr ⟨⟨key, hpc, habsent⟩, by simpa [PC.linksToGo] using hl⟩
  | fetchOk key html hpc hfetch =>
    left
    simp only [PC.linksToGo] at hl
    simp [hpc, PC.linksToGo, linksOf, hfetch, hl]
  | finalize key pageData hpc =>
    left
    simp only [PC.linksToGo] at hl
    simp [hpc, PC.linksToGo, hl]
  | spawnAdd key link links hpc =>
    left
    simp only [PC.linksToGo] at hl
    simpa [hpc, PC.linksToGo] using hl
  | spawnGo key link links hpc =>
    left
    simp only [PC.linksToGo] at hl
    simp [hpc, PC.linksToGo, hl]
  | _ => simp [PC.linksToGo] at hl

theorem trans_rawCurrentURL (env : Env) (cfg : Config) (s : State) (t : Task) (o : Outcome)
    (htr : Trans env cfg s t o) : o.task.rawCurrentURL = t.rawCurrentURL := by
  cases htr <;> rfl

/-- The child spawned in a step is for a link that was still to go. -/
theorem trans_child_link (env : Env) (cfg : Config) (s : State) (t : Task) (o : Outcome)
    (htr : Trans env cfg s t o) (c : Task) (hc : c ∈ o.children) :
    c.pc = .pending ∧ c.rawCurrentURL ∈ t.pc.linksToGo env t.rawCurrentURL := by
  cases htr with
  | spawnGo key link links hpc =>
    simp only [List.mem_singleton] at hc
    subst hc
    simp [hpc, PC.linksToGo]
  | _ => simp at hc

/-- A task that has claimed its key fetches its raw URL: one step of its own leads to a
state in which it has called `getHTML`. -/
theorem fetched_of_fetch (env : Env) (cfg : Config) (rawBaseURL : String)
    (hmax : cfg.maxPages = 0) (s : State) (hs : Reachable env cfg rawBaseURL s) (i : Nat)
    (t : Task) (key : String) (hget : s.tasks[i]? = some t) (hpc : t.pc = .fetch key) :
    Fetched env cfg.baseURLHost rawBaseURL t.rawCurrentURL := by
  have hfin : ∃ s2, Reachable env cfg rawBaseURL s2 ∧
      ∃ t2 ∈ s2.tasks, t2.rawCurrentURL = t.rawCurrentURL ∧ 0 < t2.fetched := by
    cases hf : env.getHTML t.rawCurrentURL with
    | none =>
      have tr := @Trans.fetchFail env cfg s t key hpc hf
      exact ⟨_, reachable_step env cfg rawBaseURL s _ i hs (step_of_trans env cfg s i t _ hget tr),
        _, task_mem_after s i t _ hget, rfl, Nat.succ_pos _⟩
    | some html =>
      have tr := @Trans.fetchOk env cfg s t key html hpc hf
      exact ⟨_, reachable_step env cfg rawBaseURL s _ i hs (step_of_trans env cfg s i t _ hget tr),
        _, task_mem_after s i t _ hget, rfl, Nat.succ_pos _⟩
  obtain ⟨s2, ⟨schedule, hrun⟩, t2, ht2, hraw, hpos⟩ := hfin
  obtain ⟨host, capacity, maxPages⟩ := cfg
  simp only at hmax
  subst hmax
  exact ⟨capacity, schedule, s2, hrun, t2, ht2, hraw, hpos⟩

/-- A task that is about to claim a key that is not yet in the registry will fetch its
raw URL. -/
theorem fetched_of_claim (env : Env) (cfg : Config) (rawBaseURL : String)
    (hmax : cfg.maxPages = 0) (s : State) (hs : Reachable env cfg rawBaseURL s) (i : Nat)
    (t : Task) (key : String) (hget : s.tasks[i]? = some t) (hpc : t.pc = .claim key)
    (habsent : s.pages.lookup key = none) :
    Fetched env cfg.baseURLHost rawBaseURL t.rawCurrentURL := by
  have tr1 := @Trans.claimFirst env cfg s t key hpc habsent
  have hs1 := reachable_step env cfg rawBaseURL s _ i hs (step_of_trans env cfg s i t _ hget tr1)
  have g1 := getElem?_after_self s i t
    ⟨{ t with pc := .fetch key, inserted := t.inserted + 1 }, s.pages.assign key {},
      s.permits, s.wg, []⟩ hget
  exact fetched_of_fetch env cfg rawBaseURL hmax _ hs1 i
    { t with pc := .fetch key, inserted := t.inserted + 1 } key g1 rfl

theorem withinInv_init (env : Env) (baseURLHost rawBaseURL : String) (P : String → Prop)
    (hP : Closed env baseURLHost rawBaseURL P) :
    WithinInv env baseURLHost P (initState rawBaseURL) := by
  refine ⟨?_, ?_, ?_⟩
  · intro k hk
    simp [initState, GoMap.empty, GoMap.lookup, GoMap.lookupL] at hk
  · intro t ht k hk
    simp only [initState, List.mem_singleton] at ht
    subst ht
    exact hP.1 k hk
  · intro t ht l hl
    simp only [initState, List.mem_singleton] at ht
    subst ht
    simp [PC.linksToGo] at hl

theorem withinInv_step (env : Env) (cfg : Config) (rawBaseURL : String) (P : String → Prop)
    (hP : Closed env cfg.baseURLHost rawBaseURL P) (s : State) (i : Nat) (t : Task) (o : Outcome)
    (hcr : ∀ key, t.pc = .claim key → s.pages.lookup key = none →
      Fetched env cfg.baseURLHost rawBaseURL t.rawCurrentURL)
    (hti : TaskInv env cfg.baseURLHost t) (hinv : WithinInv env cfg.baseURLHost P s)
    (hget : s.tasks[i]? = some t) (htr : Trans env cfg s t o) :
    WithinInv env cfg.baseURLHost P (s.after i o) := by
  obtain ⟨h1, h2, h3⟩ := hinv
  have htmem := mem_of_getElem? _ _ _ hget
  refine ⟨?_, ?_, ?_⟩
  · intro k hk
    rcases trans_pages_new env cfg s t o htr hti k hk with h | h
    · exact h1 k h
    · exact h2 t htmem k h
  · intro t2 ht2 k hk
    rcases mem_after s i o t2 ht2 with h | h | h
    · exact h2 t2 h k hk
    · subst h
      rw [trans_rawCurrentURL env cfg s t o htr] at hk
      exact h2 t htmem k hk
    · obtain ⟨-, hl⟩ := trans_child_link env cfg s t o htr t2 h
      exact h3 t htmem _ hl k hk
  · intro t2 ht2 l hl k hk
    rcases mem_after s i o t2 ht2 with h | h | h
    · exact h3 t2 h l hl k hk
    · subst h
      rcases trans_linksToGo env cfg s t o htr l hl with h | ⟨⟨key, hpc, habsent⟩, hlinks⟩
      · exact h3 t htmem l h k hk
      · have hsk := hti.key key (by simp [hpc, PC.key])
        exact hP.2 t.rawCurrentURL key (hcr key hpc habsent) hsk (h2 t htmem key hsk) k
          ((mem_linkKeys _ _ _ _).2 ⟨l, hlinks, hk⟩)
    · obtain ⟨hpc, -⟩ := trans_child_link env cfg s t o htr t2 h
      simp [hpc, PC.linksToGo] at hl

/-- Without a page limit, every key in the registry of a reachable state lies in every
closed set. -/
theorem reachable_within (env : Env) (cfg : Config) (rawBaseURL : String) (P : String → Prop)
    (hmax : cfg.maxPages = 0) (hP : Closed env cfg.baseURLHost rawBaseURL P) (s : State)
    (hs : Reachable env cfg rawBaseURL s) : WithinInv env cfg.baseURLHost P s :=
  reachable_induction_strong env cfg rawBaseURL (WithinInv env cfg.baseURLHost P)
    (withinInv_init env cfg.baseURLHost rawBaseURL P hP)
    (fun s i t o hreach ih hget htr =>
      withinInv_step env cfg rawBaseURL P hP s i t o
        (fun key hpc habsent => fetched_of_claim env cfg rawBaseURL hmax s hreach i t key hget
          hpc habsent)
        (reachable_taskInv env cfg rawBaseURL s hreach t (mem_of_getElem? _ _ _ hget)) ih hget htr)
    s hs

/-- Without a page limit, a covered key stays covered. -/
theorem keyCovered_step (env : Env) (cfg : Config) (hmax : cfg.maxPages ≤ 0) (s : State) (i : Nat)
    (t : Task) (o : Outcome) (hti : TaskInv env cfg.baseURLHost t)
    (hget : s.tasks[i]? = some t) (htr : Trans env cfg s t o) (k : String)
    (hk : KeyCovered env cfg.baseURLHost s k) : KeyCovered env cfg.baseURLHost (s.after i o) k := by
  have hself := task_mem_after s i t o hget
  rcases hk with hk | ⟨t2, ht2, hb, hsk⟩ | ⟨t2, ht2, l, hl, hsk⟩
  · exact Or.inl (trans_pages_mono env cfg s t o htr k hk)
  · rcases mem_after_of_mem s i t o t2 hget ht2 with h | h
    · exact Or.inr (Or.inl ⟨t2, h, hb, hsk⟩)
    · subst h
      obtain ⟨u, hu, hhost, hnorm⟩ := scopeKey_some _ _ _ hsk
      cases htr with
      | acquire hpc hcap =>
        exact Or.inr (Or.inl ⟨_, hself, by simp [PC.beforeClaim], hsk⟩)
      | limitHit hpc hlim => omega
      | parseFail hpc hlim hparse => simp [hparse] at hu
      | hostDiffers currentURL hpc hlim hparse hh =>
        rw [hparse] at hu
        cases hu
        exact absurd hhost.symm hh
      | normalizeFail currentURL hpc hlim hparse hh hn => simp [hn] at hnorm
      | toClaim currentURL key hpc hlim hparse hh hn =>
        exact Or.inr (Or.inl ⟨_, hself, by simp [PC.beforeClaim], hsk⟩)
      | claimDup key hpc hpresent =>
        have := hti.key key (by simp [hpc, PC.key])
        rw [hsk] at this
        cases this
        exact Or.inl hpresent
      | claimFirst key hpc habsent =>
        have := hti.key key (by simp [hpc, PC.key])
        rw [hsk] at this
        cases this
        exact Or.inl (by
          show (s.pages.assign k {}).lookup k ≠ none
          simp [GoMap.lookup_assign_self])
      | _ => simp_all [PC.beforeClaim]
  · rcases mem_after_of_mem s i t o t2 hget ht2 with h | h
    · exact Or.inr (Or.inr ⟨t2, h, l, hl, hsk⟩)
    · subst h
      cases htr with
      | fetchFail key hpc hfetch => simp [hpc, PC.linksToGo, linksOf, hfetch] at hl
      | fetchOk key html hpc hfetch =>
        refine Or.inr (Or.inr ⟨_, hself, l, ?_, hsk⟩)
        simpa [hpc, PC.linksToGo, linksOf, hfetch] using hl
      | finalize key pageData hpc =>
        refine Or.inr (Or.inr ⟨_, hself, l, ?_, hsk⟩)
        simpa [hpc, PC.linksToGo] using hl
      | spawnAdd key link links hpc =>
        refine Or.inr (Or.inr ⟨_, hself, l, ?_, hsk⟩)
        simpa [hpc, PC.linksToGo] using hl
      | spawnGo key link links hpc =>
        simp only [hpc, PC.linksToGo, List.mem_cons] at hl
        rcases hl with hl | hl
        · subst hl
          exact Or.inr (Or.inl ⟨{ rawCurrentURL := l }, child_mem_after s i _ _ (by simp),
            by simp [PC.beforeClaim], hsk⟩)
        · exact Or.inr (Or.inr ⟨_, hself, l, by simpa [PC.linksToGo] using hl, hsk⟩)
      | _ => simp_all [PC.linksToGo]

theorem coverInv_init (env : Env) (baseURLHost rawBaseURL : String) :
    CoverInv env baseURLHost rawBaseURL (initState rawBaseURL) := by
  constructor
  · intro k hk
    exact Or.inr (Or.inl ⟨{ rawCurrentURL := rawBaseURL }, by simp [initState],
      by simp [PC.beforeClaim], hk⟩)
  · intro k hk
    simp [initState, GoMap.empty, GoMap.lookup, GoMap.lookupL] at hk

theorem coverInv_step (env : Env) (cfg : Config) (rawBaseURL : String) (hmax : cfg.maxPages ≤ 0)
    (s : State) (i : Nat) (t : Task) (o : Outcome)
    (hcr : ∀ key, t.pc = .claim key → s.pages.lookup key = none →
      Fetched env cfg.baseURLHost rawBaseURL t.rawCurrentURL)
    (hti : TaskInv env cfg.baseURLHost t)
    (hreg : RegInv s) (hinv : CoverInv env cfg.baseURLHost rawBaseURL s)
    (hget : s.tasks[i]? = some t) (htr : Trans env cfg s t o) :
    CoverInv env cfg.baseURLHost rawBaseURL (s.after i o) := by
  obtain ⟨h1, h2⟩ := hinv
  constructor
  · intro k hk
    exact keyCovered_step env cfg hmax s i t o hti hget htr k (h1 k hk)
  · intro k hk
    have hold : s.pages.lookup k ≠ none →
        ∃ u, Fetched env cfg.baseURLHost rawBaseURL u ∧ scopeKey cfg.baseURLHost u = some k ∧
          ∀ k2 ∈ linkKeys env cfg.baseURLHost u, KeyCovered env cfg.baseURLHost (s.after i o) k2 := by
      intro hk0
      obtain ⟨u, hcu, hu, hcov⟩ := h2 k hk0
      exact ⟨u, hcu, hu,
        fun k2 hk2 => keyCovered_step env cfg hmax s i t o hti hget htr k2 (hcov k2 hk2)⟩
    cases htr with
    | claimFirst key hpc habsent =>
      by_cases hkk : k = key
      · subst hkk
        refine ⟨t.rawCurrentURL, hcr k hpc habsent, hti.key k (by simp [hpc, PC.key]), ?_⟩
        intro k2 hk2
        obtain ⟨l, hl, hsk⟩ := (mem_linkKeys _ _ _ _).1 hk2
        exact Or.inr (Or.inr ⟨_, task_mem_after s i t _ hget, l,
          by simpa [PC.linksToGo] using hl, hsk⟩)
      · have hk2 : (s.pages.assign key {}).lookup k ≠ none := hk
        rw [GoMap.lookup_assign_other _ _ _ _ hkk] at hk2
        exact hold hk2
    | finalize key pageData hpc =>
      by_cases hkk : k = key
      · subst hkk
        exact hold (hreg.present t (mem_of_getElem? _ _ _ hget) k (by simp [hpc, PC.claimed]))
      · have hk2 : (s.pages.assign key pageData).lookup k ≠ none := hk
        rw [GoMap.lookup_assign_other _ _ _ _ hkk] at hk2
        exact hold hk2
    | _ => exact hold hk

/-- Without a page limit the cover invariant holds in every reachable state. -/
theorem reachable_cover (env : Env) (cfg : Config) (rawBaseURL : String) (hmax : cfg.maxPages = 0)
    (s : State) (hs : Reachable env cfg rawBaseURL s) :
    CoverInv env cfg.baseURLHost rawBaseURL s :=
  reachable_induction_strong env cfg rawBaseURL (CoverInv env cfg.baseURLHost rawBaseURL)
    (coverInv_init env cfg.baseURLHost rawBaseURL)
    (fun s i t o hreach ih hget htr =>
      coverInv_step env cfg rawBaseURL (le_of_eq hmax) s i t o
        (fun key hpc habsent => fetched_of_claim env cfg rawBaseURL hmax s hreach i t key hget
          hpc habsent)
        (reachable_taskInv env cfg rawBaseURL s hreach t (mem_of_getElem? _ _ _ hget))
        (reachable_regInv env cfg rawBaseURL s hreach) ih hget htr)
    s hs

/-- In a complete state a covered key is in the registry. -/
theorem keyCovered_complete (env : Env) (baseURLHost : String) (s : State)
    (hc : s.complete = true) (k : String) (hk : KeyCovered env baseURLHost s k) :
    s.pages.lookup k ≠ none := by
  simp only [State.complete, List.all_eq_true] at hc
  rcases hk with hk | ⟨t, ht, hb, -⟩ | ⟨t, ht, l, hl, -⟩
  · exact hk
  · have := hc t ht
    cases hpc : t.pc <;> simp_all [PC.isFinished, PC.beforeClaim]
  · have := hc t ht
    cases hpc : t.pc <;> simp_all [PC.isFinished, PC.linksToGo]

/-- The registry keys of a complete run without page limit form a closed set, when the
pages of the raw URLs that the crawl fetches answer by canonical key. -/
theorem complete_closed (env : Env) (cfg : Config) (rawBaseURL : String) (hmax : cfg.maxPages = 0)
    (hdet : KeyDetermined env cfg.baseURLHost rawBaseURL) (s : State)
    (hs : Reachable env cfg rawBaseURL s) (hc : s.complete = true) :
    Closed env cfg.baseURLHost rawBaseURL (fun k => s.pages.lookup k ≠ none) := by
  obtain ⟨h1, h2⟩ := reachable_cover env cfg rawBaseURL hmax s hs
  constructor
  · intro k hk
    exact keyCovered_complete env _ s hc k (h1 k hk)
  · intro u k hcu hu hk k2 hk2
    obtain ⟨u2, hcu2, hu2, hcov⟩ := h2 k hk
    exact keyCovered_complete env _ s hc k2 (hcov k2 ((hdet u u2 k hcu hcu2 hu hu2 k2).1 hk2))

/-- The registry keys of a run are among those of a complete run. -/
theorem keys_subset_complete (env : Env) (baseURLHost rawBaseURL : String) (c1 c2 : Nat)
    (hdet : KeyDetermined env baseURLHost rawBaseURL) (s1 s2 : State)
    (h1 : Reachable env ⟨baseURLHost, c1, 0⟩ rawBaseURL s1)
    (h2 : Reachable env ⟨baseURLHost, c2, 0⟩ rawBaseURL s2) (hc2 : s2.complete = true)
    (k : String) (hk : k ∈ s1.pages.keys) : k ∈ s2.pages.keys := by
  have hclosed := complete_closed env ⟨baseURLHost, c2, 0⟩ rawBaseURL rfl hdet s2 h2 hc2
  have hw := reachable_within env ⟨baseURLHost, c1, 0⟩ rawBaseURL _ rfl hclosed s1 h1
  exact (GoMap.mem_keys_iff _ _).2 (hw.1 k ((GoMap.mem_keys_iff _ _).1 hk))


/-- The raw URLs that the crawl fetches lie in every set that holds the seed and, with an
in-scope raw URL, the links of its page. -/
theorem fetched_within (env : Env) (baseURLHost rawBaseURL : String) (P : String → Prop)
    (hseed : P rawBaseURL)
    (hlinks : ∀ u, P u → scopeKey baseURLHost u ≠ none → ∀ l ∈ linksOf env u, P l)
    (u : String) (hu : Fetched env baseURLHost rawBaseURL u) : P u := by
  obtain ⟨capacity, schedule, s, hrun, t, ht, rfl, -⟩ := hu
  have hinv : ∀ t ∈ s.tasks, P t.rawCurrentURL ∧
      ∀ l ∈ t.pc.linksToGo env t.rawCurrentURL, P l := by
    refine reachable_induction_strong env ⟨baseURLHost, capacity, 0⟩ rawBaseURL
      (fun s => ∀ t ∈ s.tasks, P t.rawCurrentURL ∧
        ∀ l ∈ t.pc.linksToGo env t.rawCurrentURL, P l) ?_ ?_ s ⟨schedule, hrun⟩
    · intro t ht
      simp only [initState, List.mem_singleton] at ht
      subst ht
      exact ⟨hseed, by simp [PC.linksToGo]⟩
    · intro s i t o hreach ih hget htr t2 ht2
      have htmem := mem_of_getElem? _ _ _ hget
      have hti := reachable_taskInv env ⟨baseURLHost, capacity, 0⟩ rawBaseURL s hreach t htmem
      rcases mem_after s i o t2 ht2 with h | h | h
      · exact ih t2 h
      · subst h
        rw [trans_rawCurrentURL env _ s t o htr]
        refine ⟨(ih t htmem).1, ?_⟩
        intro l hl
        rw [← trans_rawCurrentURL env _ s t o htr] at hl
        rcases trans_linksToGo env _ s t o htr l hl with h | ⟨⟨key, hpc, -⟩, hlinks2⟩
        · exact (ih t htmem).2 l h
        · have hsk := hti.key key (by simp [hpc, PC.key])
          exact hlinks t.rawCurrentURL (ih t htmem).1 (by simp [hsk]) l hlinks2
      · obtain ⟨hpc, hl⟩ := trans_child_link env _ s t o htr t2 h
        refine ⟨(ih t htmem).2 _ hl, ?_⟩
        simp [hpc, PC.linksToGo]
  exact (hinv t ht).1

/-- C3, as stated, fails: on the site `aliasEnv`, with capacity 1, no page limit and the
same seed, two complete runs end with different key sets (`h/b` in one, `h/c` in the
other), because the tasks for `http://h/a?x=1` and `http://h/a?x=2` compete for the key
`h/a` and the winner's page decides which link is followed. -/
theorem C3_concurrency_invariance_counterexample :
    (run aliasEnv ⟨"h", 1, 0⟩ (initState "http://h/") aliasScheduleOne).map
        (fun s => (s.complete, s.pages.keys)) = some (true, ["h", "h/a", "h/b"]) ∧
    (run aliasEnv ⟨"h", 1, 0⟩ (initState "http://h/") aliasScheduleTwo).map
        (fun s => (s.complete, s.pages.keys)) = some (true, ["h", "h/a", "h/c"]) := by
  decide

/-- C3 (concurrency invariance, amended): for a fixed fetcher and extractor, base host
and seed, such that any two raw URLs that the crawl fetches (in whatever run) and that
have the same canonical key lead to the same set of in-scope link keys, and no page
limit, any two complete runs, whatever their capacities and schedules, end with the
same set of registry keys. -/
theorem C3_concurrency_invariance (env : Env) (baseURLHost rawBaseURL : String)
    (hdet : KeyDetermined env baseURLHost rawBaseURL) (c1 c2 : Nat)
    (schedule1 schedule2 : List Nat) (s1 s2 : State)
    (h1 : run env ⟨baseURLHost, c1, 0⟩ (initState rawBaseURL) schedule1 = some s1)
    (h2 : run env ⟨baseURLHost, c2, 0⟩ (initState rawBaseURL) schedule2 = some s2)
    (hc1 : s1.complete = true) (hc2 : s2.complete = true) :
    ∀ k, k ∈ s1.pages.keys ↔ k ∈ s2.pages.keys := by
  intro k
  constructor
  · exact keys_subset_complete env baseURLHost rawBaseURL c1 c2 hdet s1 s2
      ⟨schedule1, h1⟩ ⟨schedule2, h2⟩ hc2 k
  · exact keys_subset_complete env baseURLHost rawBaseURL c2 c1 hdet s2 s1
      ⟨schedule2, h2⟩ ⟨schedule1, h1⟩ hc1 k

/-- A crawl of the test site from `http://h` fetches none but the six raw URLs of
`testSiteURLs`. -/
theorem testSite_fetched (u : String) (hu : Fetched testSiteEnv "h" "http://h" u) :
    u ∈ testSiteURLs := by
  refine fetched_within testSiteEnv "h" "http://h" (fun u => u ∈ testSiteURLs) (by decide) ?_ u hu
  intro u hu _
  revert u
  decide

/-- On the test site, the raw URLs that the crawl fetches answer by canonical key:
`http://h` and `http://h/` share the key `h` and get the same page. -/
theorem testSite_keyDetermined : KeyDetermined testSiteEnv "h" "http://h" := by
  intro u1 u2 k hc1 hc2 h1 h2 k2
  have hall : ∀ u1 ∈ testSiteURLs, ∀ u2 ∈ testSiteURLs,
      scopeKey "h" u1 = scopeKey "h" u2 →
      linkKeys testSiteEnv "h" u1 = linkKeys testSiteEnv "h" u2 := by
    decide
  rw [hall u1 (testSite_fetched u1 hc1) u2 (testSite_fetched u2 hc2) (h1.trans h2.symm)]

/-- Witness for C3: the test site crawled with capacity 1 one task after the other, and
with capacity 5 with the tasks taking turns.  Its fetcher answers by raw URL: `ftp://h/`
has the key `h` and gets no page, and the crawl never fetches it. -/
theorem C3_concurrency_invariance_witness :
    (scopeKey "h" "ftp://h/" = some "h" ∧ testSiteEnv.getHTML "ftp://h/" = none ∧
      scopeKey "h" "http://h/" = scopeKey "h" "http://h" ∧
      linkKeys testSiteEnv "h" "http://h"
        = ["h/page1", "h/page2", "h/page3", "h/page4"]) ∧
    KeyDetermined testSiteEnv "h" "http://h" ∧
    run testSiteEnv ⟨"h", 1, 0⟩ (initState "http://h") testSiteSequential
      = some (stateAfter testSiteEnv ⟨"h", 1, 0⟩ "http://h" testSiteSequential) ∧
    run testSiteEnv ⟨"h", 5, 0⟩ (initState "http://h") testSiteInterleaved
      = some (stateAfter testSiteEnv ⟨"h", 5, 0⟩ "http://h" testSiteInterleaved) ∧
    (stateAfter testSiteEnv ⟨"h", 1, 0⟩ "http://h" testSiteSequential).complete = true ∧
    (stateAfter testSiteEnv ⟨"h", 5, 0⟩ "http://h" testSiteInterleaved).complete = true ∧
    (stateAfter testSiteEnv ⟨"h", 1, 0⟩ "http://h" testSiteSequential).pages.keys
      = ["h", "h/page1", "h/page2", "h/page3", "h/page4"] ∧
    (∀ k, k ∈ (stateAfter testSiteEnv ⟨"h", 1, 0⟩ "http://h" testSiteSequential).pages.keys ↔
      k ∈ (stateAfter testSiteEnv ⟨"h", 5, 0⟩ "http://h" testSiteInterleaved).pages.keys) :=
  ⟨by decide, testSite_keyDetermined, by decide, by decide, by decide, by decide, by decide,
    C3_concurrency_invariance testSiteEnv "h" "http://h" testSite_keyDetermined 1 5
      testSiteSequential testSiteInterleaved _ _ (by decide) (by decide) (by decide) (by decide)⟩

/-! ## `normalizeURL` -/

theorem Strings.cut_of_not_mem (c : Char) (l : List Char) (h : c ∉ l) :
    Strings.cut c l = (l, [], false) := by
  induction l with
  | nil => rfl
  | cons x xs ih =>
    have hx : ¬ x = c := fun e => h (by simp [e])
    have hxs : c ∉ xs := fun e => h (by simp [e])
    simp [Strings.cut, hx, ih hxs]

theorem Strings.mem_of_mem_cut (c x : Char) (l : List Char) (h : x ∈ (Strings.cut c l).1) :
    x ∈ l := by
  induction l with
  | nil => simp [Strings.cut] at h
  | cons y ys ih =>
    by_cases hy : y = c
    · simp [Strings.cut, hy] at h
    · simp only [Strings.cut, hy, if_false, List.mem_cons] at h
      rcases h with h | h
      · simp [h]
      · simp [ih h]

theorem Strings.hasSuffix_singleton_of_not_mem (c : Char) (l : List Char) (h : c ∉ l) :
    Strings.hasSuffix l [c] = false := by
  cases hs : Strings.hasSuffix l [c] with
  | false => rfl
  | true =>
    simp only [Strings.hasSuffix, List.isSuffixOf_iff_suffix] at hs
    exact absurd (hs.subset (by simp)) h

theorem Strings.trimSuffix_append (l : List Char) (c : Char) :
    Strings.trimSuffix (l ++ [c]) [c] = l := by
  have : Strings.hasSuffix (l ++ [c]) [c] = true := by
    simp [Strings.hasSuffix]
  simp [Strings.trimSuffix, this]

theorem Strings.trimSuffix_of_not (l suf : List Char) (h : Strings.hasSuffix l suf = false) :
    Strings.trimSuffix l suf = l := by
  simp [Strings.trimSuffix, h]

theorem Url.unescapeValid_path (l : List Char) (h : '%' ∉ l) :
    Url.unescapeValid .encodePath l = true := by
  induction l with
  | nil => rfl
  | cons c cs ih =>
    have hc : ¬ c = '%' := fun e => h (by simp [e])
    have hcs : '%' ∉ cs := fun e => h (by simp [e])
    unfold Url.unescapeValid
    simp [hc, ih hcs]

theorem Url.unescapeBuild_plain (l : List Char) (h : '%' ∉ l) : Url.unescapeBuild l = l := by
  induction l with
  | nil => rfl
  | cons c cs ih =>
    have hc : ¬ c = '%' := fun e => h (by simp [e])
    have hcs : '%' ∉ cs := fun e => h (by simp [e])
    unfold Url.unescapeBuild
    simp [hc, ih hcs]

theorem normalizeURL_of_parse (input : String) (u : Url.URL) (h : Url.Parse input = some u) :
    normalizeURL input = some (u.Host ++ trimSuffix u.Path "/") := by
  simp [normalizeURL, h]

/-- C10, as stated, fails: `http://h/b/` and `http://h/b//` parse to URLs that differ
only in one of them having one more trailing `/` on its path, and their keys differ. -/
theorem C10_normalize_equivalence_counterexample :
    Url.Parse "http://h/b/" = some { Scheme := "http", Host := "h", Path := "/b/" } ∧
    Url.Parse "http://h/b//" = some { Scheme := "http", Host := "h", Path := "/b//" } ∧
    normalizeURL "http://h/b/" = some "h/b" ∧
    normalizeURL "http://h/b//" = some "h/b/" := by
  decide

/-- C10 (amended): two inputs that parse to URLs which differ at most in scheme, query,
fragment, or in one of them having one more trailing `/` on a path that does not itself
end in `/`, have the same key. -/
theorem C10_normalize_equivalence (a b : String) (u v : Url.URL)
    (ha : Url.Parse a = some u) (hb : Url.Parse b = some v) (h : DifferOnlyOneSlash u v) :
    normalizeURL a = normalizeURL b := by
  rw [normalizeURL_of_parse a u ha, normalizeURL_of_parse b v hb]
  obtain ⟨-, -, hhost, hpath⟩ := h
  have hslash : ("/" : String).data = ['/'] := rfl
  rw [hhost]
  rcases hpath with hp | ⟨hp, hns⟩ | ⟨hp, hns⟩
  · rw [hp]
  · have e1 : trimSuffix u.Path "/" = v.Path := by
      rw [hp]
      simp only [trimSuffix, hslash, String.data_append]
      rw [Strings.trimSuffix_append]
    have e2 : trimSuffix v.Path "/" = v.Path := by
      simp only [trimSuffix, hslash]
      rw [Strings.trimSuffix_of_not _ _ hns]
    rw [e1, e2]
  · have e1 : trimSuffix v.Path "/" = u.Path := by
      rw [hp]
      simp only [trimSuffix, hslash, String.data_append]
      rw [Strings.trimSuffix_append]
    have e2 : trimSuffix u.Path "/" = u.Path := by
      simp only [trimSuffix, hslash]
      rw [Strings.trimSuffix_of_not _ _ hns]
    rw [e1, e2]

/-- Witness for C10: URLs that differ in scheme, query, fragment and one trailing `/`. -/
theorem C10_normalize_equivalence_witness :
    Url.Parse "https://blog.boot.dev/path/?q=1#top"
      = some { Scheme := "https", Host := "blog.boot.dev", Path := "/path/", RawQuery := "q=1",
               Fragment := "top" } ∧
    Url.Parse "http://blog.boot.dev/path"
      = some { Scheme := "http", Host := "blog.boot.dev", Path := "/path" } ∧
    normalizeURL "https://blog.boot.dev/path/?q=1#top" = some "blog.boot.dev/path" ∧
    normalizeURL "https://blog.boot.dev/path/?q=1#top" = normalizeURL "http://blog.boot.dev/path" :=
  ⟨by decide, by decide, by decide,
    C10_normalize_equivalence "https://blog.boot.dev/path/?q=1#top" "http://blog.boot.dev/path"
      { Scheme := "https", Host := "blog.boot.dev", Path := "/path/", RawQuery := "q=1",
        Fragment := "top" }
      { Scheme := "http", Host := "blog.boot.dev", Path := "/path" }
      (by decide) (by decide)
      ⟨rfl, rfl, rfl, Or.inr (Or.inl ⟨by decide, by decide⟩)⟩⟩

/-! ## The key of a parsed URL -/

/-- C11 (the key is host and path): for an input that parses with host `h` and path `p`,
`normalizeURL` returns `h` followed by `q` when `p` is `q` followed by `/`, and `h`
followed by `p` when `p` does not end in `/`; and the four examples of the tests. -/
theorem C11_normalize_host_path (input : String) (u : Url.URL)
    (hparse : Url.Parse input = some u) :
    (∀ q : String, u.Path = q ++ "/" → normalizeURL input = some (u.Host ++ q)) ∧
    (Strings.hasSuffix u.Path.data ['/'] = false →
      normalizeURL input = some (u.Host ++ u.Path)) ∧
    normalizeURL "https://www.google.com/" = some "www.google.com" ∧
    normalizeURL "https://maps.google.com/path" = some "maps.google.com/path" ∧
    normalizeURL "https://www.youtube.com/watch?v=dQw4w9WgXcQ" = some "www.youtube.com/watch" ∧
    normalizeURL "https://en.wikipedia.org/wiki/URL#Syntax" = some "en.wikipedia.org/wiki/URL" := by
  refine ⟨?_, ?_, by decide, by decide, by decide, by decide⟩
  · intro q hq
    rw [normalizeURL_of_parse input u hparse, hq]
    have hslash : ("/" : String).data = ['/'] := rfl
    simp only [trimSuffix, hslash, String.data_append]
    rw [Strings.trimSuffix_append]
  · intro hns
    rw [normalizeURL_of_parse input u hparse]
    simp only [trimSuffix]
    rw [Strings.trimSuffix_of_not _ _ hns]

/-- Witness for C11: a URL with a subdomain, a port, a query and a fragment whose path
ends in `/`, and one whose path does not. -/
theorem C11_normalize_host_path_witness :
    Url.Parse "https://blog.boot.dev:8443/posts/?page=2#top"
      = some { Scheme := "https", Host := "blog.boot.dev:8443", Path := "/posts/",
               RawQuery := "page=2", Fragment := "top" } ∧
    normalizeURL "https://blog.boot.dev:8443/posts/?page=2#top" = some "blog.boot.dev:8443/posts" ∧
    normalizeURL "https://blog.boot.dev/path" = some ("blog.boot.dev" ++ "/path") :=
  ⟨by decide,
   (C11_normalize_host_path "https://blog.boot.dev:8443/posts/?page=2#top"
      { Scheme := "https", Host := "blog.boot.dev:8443", Path := "/posts/",
        RawQuery := "page=2", Fragment := "top" } (by decide)).1 "/posts" (by decide),
   (C11_normalize_host_path "https://blog.boot.dev/path"
      { Scheme := "https", Host := "blog.boot.dev", Path := "/path" } (by decide)).2.1
      (by decide)⟩

/-! ## The report -/

theorem writeDataRows_eq (visited : List (String × PageData)) :
    ∀ written, writeDataRows written visited
      = written ++ visited.map (fun e => reportRow e.1 e.2) := by
  induction visited with
  | nil => intro written; simp [writeDataRows]
  | cons e rest ih =>
    intro written
    obtain ⟨k, v⟩ := e
    simp [writeDataRows, ih]

theorem intercalate_go_eq (sep : String) (elems : List String) :
    ∀ acc, String.intercalate.go acc sep elems
      = acc ++ String.join (elems.map fun a => sep ++ a) := by
  induction elems with
  | nil => intro acc; simp [String.intercalate.go, String.join]
  | cons a rest ih =>
    intro acc
    simp only [String.intercalate.go, ih, List.map_cons, String.join, List.foldl_cons]
    have hfold : ∀ (l : List String) (x : String),
        List.foldl (fun r s => r ++ s) x l = x ++ List.foldl (fun r s => r ++ s) "" l := by
      intro l
      induction l with
      | nil => intro x; simp
      | cons y ys ihy =>
        intro x
        simp only [List.foldl_cons]
        rw [ihy (x ++ y), ihy ("" ++ y)]
        simp [String.append_assoc]
    rw [hfold _ ("" ++ (sep ++ a))]
    simp [String.append_assoc]

theorem Strings.join_cons (a : String) (rest : List String) (sep : String) :
    Strings.join (a :: rest) sep = a ++ String.join (rest.map fun b => sep ++ b) := by
  induction rest generalizing a with
  | nil => simp [Strings.join, String.join]
  | cons b rest2 ih =>
    simp only [Strings.join, ih b, List.map_cons, String.join, List.foldl_cons]
    have hfold : ∀ (l : List String) (x : String),
        List.foldl (fun r s => r ++ s) x l = x ++ List.foldl (fun r s => r ++ s) "" l := by
      intro l
      induction l with
      | nil => intro x; simp
      | cons y ys ihy =>
        intro x
        simp only [List.foldl_cons]
        rw [ihy (x ++ y), ihy ("" ++ y)]
        simp [String.append_assoc]
    rw [hfold _ ("" ++ (sep ++ b))]
    simp [String.append_assoc]

/-- Go `strings.Join` is the library's `String.intercalate`. -/
theorem Strings.join_eq_intercalate (elems : List String) (sep : String) :
    Strings.join elems sep = sep.intercalate elems := by
  cases elems with
  | nil => rfl
  | cons a rest =>
    rw [Strings.join_cons]
    simp [String.intercalate, intercalate_go_eq]

/-- C16 (report rows): when the file can be created, the records that `writeCSVReport`
writes for a registry with `n` entries are the header record followed by one record per
entry visited, `n` in all and, up to order, one per registry entry; each is the key, the
heading, the excerpt, the links joined by `;` and the image URLs joined by `;`, and an
empty sequence gives the empty field. -/
theorem C16_report_rows (osCreate : String → Bool) (pages : GoMap)
    (visited : List (String × PageData)) (filename : String)
    (hvisited : visited.Perm pages.entries) (hcreate : osCreate filename = true) :
    writeCSVReport osCreate visited filename
      = some (["page_url", "h1", "first_paragraph", "outgoing_link_urls", "image_urls"] ::
          visited.map fun e => [e.1, e.2.H1, e.2.FirstParagraph,
            ";".intercalate e.2.OutgoingLinks, ";".intercalate e.2.ImageURLs]) ∧
    (visited.map fun e => [e.1, e.2.H1, e.2.FirstParagraph,
        ";".intercalate e.2.OutgoingLinks, ";".intercalate e.2.ImageURLs]).length = pages.len ∧
    (visited.map fun e => [e.1, e.2.H1, e.2.FirstParagraph,
        ";".intercalate e.2.OutgoingLinks, ";".intercalate e.2.ImageURLs]).Perm
      (pages.entries.map fun e => [e.1, e.2.H1, e.2.FirstParagraph,
        ";".intercalate e.2.OutgoingLinks, ";".intercalate e.2.ImageURLs]) ∧
    ";".intercalate [] = "" := by
  refine ⟨?_, ?_, hvisited.map _, rfl⟩
  · simp only [writeCSVReport, hcreate, Bool.not_true, Bool.false_eq_true, if_false,
      writeDataRows_eq, reportHeader, reportRow, Strings.join_eq_intercalate]
    rfl
  · simp [GoMap.len, hvisited.length_eq]

/-- Witness for C16: the registries of `TestWriteCSVReportBasic` and
`TestWriteCSVReportEmptySlices`. -/
theorem C16_report_rows_witness :
    writeCSVReport (fun _ => true) [("example.com", basicReportPage)] "test_report.csv"
      = some [["page_url", "h1", "first_paragraph", "outgoing_link_urls", "image_urls"],
          ["example.com", "Example Title", "This is a paragraph.",
           "https://example.com/page1;https://example.com/page2",
           "https://example.com/img1.jpg"]] ∧
    writeCSVReport (fun _ => true) [("example.com", emptySlicesReportPage)] "test_report.csv"
      = some [["page_url", "h1", "first_paragraph", "outgoing_link_urls", "image_urls"],
          ["example.com", "Title", "Paragraph.", "", ""]] ∧
    writeCSVReport (fun _ => true) [("example.com", emptySlicesReportPage)] "test_report.csv"
      = some (["page_url", "h1", "first_paragraph", "outgoing_link_urls", "image_urls"] ::
          [("example.com", emptySlicesReportPage)].map fun e =>
            [e.1, e.2.H1, e.2.FirstParagraph,
              ";".intercalate e.2.OutgoingLinks, ";".intercalate e.2.ImageURLs]) :=
  ⟨by decide, by decide,
   (C16_report_rows (fun _ => true) ⟨[("example.com", emptySlicesReportPage)]⟩
      [("example.com", emptySlicesReportPage)] "test_report.csv" (List.Perm.refl _) rfl).1⟩

/-! ## The fetcher -/

/-- C17, as stated, fails: a response with status 200 and Content-Type `text/htmlx`,
which is not the `text/html` content type, is not a failure: `getHTML` returns its
body. -/
theorem C17_fetch_classification_counterexample :
    isTextHTML "text/htmlx" = false ∧
    getHTML (fun _ => some ⟨200, "text/htmlx", some "<html></html>"⟩) "http://h/"
      = some "<html></html>" := by
  decide

/-- C17 (fetch classification, amended): for a response with status code `s` and
Content-Type `c`, `getHTML` returns a failure if `s ≥ 400`, returns a failure if `c` does
not begin with `text/html`, and otherwise returns what reading the body gives: the body
as the page text, or a failure when the read fails. -/
theorem C17_fetch_classification (clientDo : String → Option Response) (rawURL : String)
    (resp : Response) (hresp : clientDo rawURL = some resp) :
    (resp.StatusCode ≥ 400 → getHTML clientDo rawURL = none) ∧
    ((¬ ∃ rest : String, resp.ContentType = "text/html" ++ rest) →
      getHTML clientDo rawURL = none) ∧
    (resp.StatusCode < 400 → (∃ rest : String, resp.ContentType = "text/html" ++ rest) →
      getHTML clientDo rawURL = resp.Body) := by
  have hpre : Strings.hasPrefix resp.ContentType.data "text/html".data = true ↔
      ∃ rest : String, resp.ContentType = "text/html" ++ rest := by
    simp only [Strings.hasPrefix, List.isPrefixOf_iff_prefix]
    constructor
    · rintro ⟨t, ht⟩
      exact ⟨⟨t⟩, String.ext (by simp [← ht])⟩
    · rintro ⟨rest, hrest⟩
      exact ⟨rest.data, by simp [hrest]⟩
  refine ⟨?_, ?_, ?_⟩
  · intro hs
    simp [getHTML, hresp, hs]
  · intro hc
    have : Strings.hasPrefix resp.ContentType.data "text/html".data = false := by
      cases h : Strings.hasPrefix resp.ContentType.data "text/html".data with
      | false => rfl
      | true => exact absurd (hpre.1 h) hc
    simp only [getHTML, hresp, this]
    split <;> simp
  · intro hs hc
    have hs2 : ¬ resp.StatusCode ≥ 400 := by omega
    simp [getHTML, hresp, hs2, hpre.2 hc]

/-- Witness for C17: the responses of the tests in `http_client_test.go` (status 200 with
`text/html`, status 404, and `application/json`), and `text/html` with a charset. -/
theorem C17_fetch_classification_witness :
    getHTML (fun _ => some ⟨404, "text/html", some ""⟩) "http://h/" = none ∧
    getHTML (fun _ => some ⟨200, "application/json", some "hello"⟩)
      "http://h/" = none ∧
    getHTML (fun _ => some ⟨200, "text/html; charset=utf-8", some "<html></html>"⟩) "http://h/"
      = some "<html></html>" :=
  ⟨(C17_fetch_classification (fun _ => some ⟨404, "text/html", some ""⟩) "http://h/"
      ⟨404, "text/html", some ""⟩ rfl).1 (by decide),
   (C17_fetch_classification
      (fun _ => some ⟨200, "application/json", some "hello"⟩) "http://h/"
      ⟨200, "application/json", some "hello"⟩ rfl).2.1
      (by
        rintro ⟨rest, hrest⟩
        have := congrArg (fun s => s.data.take 9) hrest
        simp at this),
   (C17_fetch_classification
      (fun _ => some ⟨200, "text/html; charset=utf-8", some "<html></html>"⟩) "http://h/"
      ⟨200, "text/html; charset=utf-8", some "<html></html>"⟩ rfl).2.2 (by decide)
      ⟨"; charset=utf-8", by decide⟩⟩

/-! ## Heading and excerpt -/

mutual
/-- The function `findNode` finds the first element with the tag in document order. -/
theorem findNode_eq_firstElement (tag : String) :
    ∀ n : Node, findNode n tag = (preorder n).find? (Node.isElement tag)
  | .mk t d cs => by
    have ih := findNodeLoop_eq tag cs
    by_cases h : t = .ElementNode ∧ d = tag
    · simp [findNode, preorder, Node.isElement, Node.nodeType, Node.Data, h]
    · have h2 : Node.isElement tag (.mk t d cs) = false := by
        simpa [Node.isElement, Node.nodeType, Node.Data] using h
      simp [findNode, preorder, h, h2, ih]
theorem findNodeLoop_eq (tag : String) :
    ∀ cs : List Node, findNodeLoop cs tag = (preorderList cs).find? (Node.isElement tag)
  | [] => by simp [findNodeLoop, preorderList]
  | c :: cs => by
    have ih1 := findNode_eq_firstElement tag c
    have ih2 := findNodeLoop_eq tag cs
    simp only [findNodeLoop, preorderList, List.find?_append, ih1, ih2]
    cases (preorder c).find? (Node.isElement tag) <;> rfl
end

theorem find?_filter_of_find? {α : Type} (q r : α → Bool) (l : List α) (a : α)
    (h : l.find? q = some a) (hr : r a = true) : (l.filter q).find? r = some a := by
  induction l with
  | nil => simp at h
  | cons x xs ih =>
    by_cases hx : q x = true
    · simp only [List.find?_cons, hx] at h
      cases h
      simp [List.filter_cons, hx, hr]
    · simp only [List.find?_cons, hx] at h
      simp only [List.filter_cons, hx]
      exact ih h

theorem find?_filter_of_none {α : Type} (q r : α → Bool) (l : List α)
    (h : l.find? q = none) : (l.filter q).find? r = none := by
  have : l.filter q = [] := by
    rw [List.filter_eq_nil_iff]
    intro a ha hq
    exact absurd hq (by simpa using (List.find?_eq_none.1 h) a ha)
  simp [this]

theorem firstNonEmptyParagraph_of_first (n p : Node) (h : firstElement "p" n = some p)
    (hne : trimSpace (extractText p) ≠ "") :
    firstNonEmptyParagraph n = some (trimSpace (extractText p)) := by
  simp only [firstNonEmptyParagraph]
  rw [find?_filter_of_find? _ _ _ p h (by simpa using hne)]
  rfl

theorem firstNonEmptyParagraph_of_none (n : Node) (h : firstElement "p" n = none) :
    firstNonEmptyParagraph n = none := by
  simp only [firstNonEmptyParagraph]
  rw [find?_filter_of_none _ _ _ h]
  rfl

mutual
/-- The nodes under a node of a tree are nodes of the tree. -/
theorem preorder_subtree (m : Node) :
    ∀ n : Node, m ∈ preorder n → ∀ x ∈ preorder m, x ∈ preorder n
  | .mk t d cs => by
    intro hm x hx
    have ih := preorderList_subtree m cs
    simp only [preorder, List.mem_cons] at hm
    rcases hm with hm | hm
    · subst hm
      exact hx
    · simp only [preorder, List.mem_cons]
      exact Or.inr (ih hm x hx)
theorem preorderList_subtree (m : Node) :
    ∀ cs : List Node, m ∈ preorderList cs → ∀ x ∈ preorder m, x ∈ preorderList cs
  | [] => by
    intro hm
    simp [preorderList] at hm
  | c :: cs => by
    intro hm x hx
    have ih1 := preorder_subtree m c
    have ih2 := preorderList_subtree m cs
    simp only [preorderList, List.mem_append] at hm ⊢
    rcases hm with hm | hm
    · exact Or.inl (ih1 hm x hx)
    · exact Or.inr (ih2 hm x hx)
end

theorem findH1Loop_of_found (cs : List Node) (h1Text : String) (h : h1Text ≠ "") :
    findH1Loop cs h1Text = h1Text := by
  cases cs with
  | nil => simp [findH1Loop]
  | cons c rest => simp [findH1Loop, h]

mutual
/-- What `findH1` leaves in `h1Text`, started with the empty string: nothing when there
is no `h1` element, and the text of the first `h1` element when that text is not empty. -/
theorem findH1_first (n : Node) :
    (findNode n "h1" = none → findH1 n "" = "") ∧
    (∀ h, findNode n "h1" = some h → extractText h ≠ "" → findH1 n "" = extractText h) :=
  match n with
  | .mk t d cs => by
    have ih := findH1Loop_first cs
    by_cases hel : t = .ElementNode ∧ d = "h1"
    · simp [findNode, findH1, hel]
    · simp only [findNode, findH1, hel, if_false]
      exact ih
theorem findH1Loop_first (cs : List Node) :
    (findNodeLoop cs "h1" = none → findH1Loop cs "" = "") ∧
    (∀ h, findNodeLoop cs "h1" = some h → extractText h ≠ "" →
      findH1Loop cs "" = extractText h) :=
  match cs with
  | [] => by simp [findNodeLoop, findH1Loop]
  | c :: rest => by
    have ih1 := findH1_first c
    have ih2 := findH1Loop_first rest
    simp only [findNodeLoop, findH1Loop, ne_eq, not_true_eq_false, if_false]
    cases hc : findNode c "h1" with
    | none =>
      simp only [ih1.1 hc]
      exact ih2
    | some h0 =>
      constructor
      · intro hnone
        cases hnone
      · intro h hh hne
        simp only [Option.some.injEq] at hh
        subst hh
        rw [ih1.2 h0 hc hne]
        exact findH1Loop_of_found rest _ hne
end

/-- Apart from an empty first `h1` element, `getH1FromHTML` does what its comment says: it
returns the empty string when the tree has no `h1` element, and the text of the first
`h1` element in document order when that text is not empty. -/
theorem getH1FromHTML_first (htmlParse : String → Option Node) (htmlBody : String) (doc : Node)
    (hdoc : htmlParse htmlBody = some doc) :
    (firstElement "h1" doc = none → getH1FromHTML htmlParse htmlBody = "") ∧
    (∀ h, firstElement "h1" doc = some h → extractText h ≠ "" →
      getH1FromHTML htmlParse htmlBody = extractText h) := by
  simp only [getH1FromHTML, hdoc, firstElement, ← findNode_eq_firstElement]
  exact findH1_first doc

/-- C13 at its failing input: for the tree of
`<html><body><h1></h1><h1>Second Title</h1></body></html>` the first `h1` element in
document order has no text nodes under it, so the heading the claim names is the empty
string, and `getH1FromHTML` returns `Second Title`, the text of the second `h1`
element. -/
theorem C13_getH1_skips_empty_h1 :
    (firstElement "h1" emptyH1Doc).map textNodesUnder = some "" ∧
    firstHeadingSpec emptyH1Doc = "" ∧
    getH1FromHTML (fun _ => some emptyH1Doc) "<html><body><h1></h1><h1>Second Title</h1></body></html>"
      = "Second Title" := by
  decide

/-! ### White space and the paragraph at which the search stops -/

/-- What `trimSpace` returns: the text between a leading and a trailing run of white
space, itself without white space at either end. -/
theorem trimSpace_spec (s : String) :
    ∃ pre suf : List Char, s.data = pre ++ (trimSpace s).data ++ suf ∧
      (∀ c ∈ pre, isSpace c = true) ∧ (∀ c ∈ suf, isSpace c = true) ∧
      (∀ c, (trimSpace s).data.head? = some c → isSpace c = false) ∧
      (∀ c, (trimSpace s).data.getLast? = some c → isSpace c = false) := by
  have h1 := List.takeWhile_append_dropWhile isSpace s.data
  have h2 := List.takeWhile_append_dropWhile isSpace (s.data.dropWhile isSpace).reverse
  have h3 : s.data.dropWhile isSpace
      = ((s.data.dropWhile isSpace).reverse.dropWhile isSpace).reverse
        ++ ((s.data.dropWhile isSpace).reverse.takeWhile isSpace).reverse := by
    rw [← List.reverse_append, h2, List.reverse_reverse]
  have hlast : ∀ c, (((s.data.dropWhile isSpace).reverse.dropWhile isSpace).reverse).getLast?
      = some c → isSpace c = false := by
    intro c hc
    rw [List.getLast?_reverse] at hc
    have := List.head?_dropWhile_not isSpace (s.data.dropWhile isSpace).reverse
    rw [hc] at this
    simpa using this
  refine ⟨s.data.takeWhile isSpace,
    ((s.data.dropWhile isSpace).reverse.takeWhile isSpace).reverse, ?_, ?_, ?_, ?_, hlast⟩
  · show s.data = _ ++ ((s.data.dropWhile isSpace).reverse.dropWhile isSpace).reverse ++ _
    rw [List.append_assoc, ← h3, h1]
  · intro c hc
    exact List.mem_takeWhile_imp hc
  · intro c hc
    exact List.mem_takeWhile_imp (List.mem_reverse.1 hc)
  · intro c hc
    show isSpace c = false
    have hc2 : (((s.data.dropWhile isSpace).reverse.dropWhile isSpace).reverse).head? = some c := hc
    have hd := List.head?_dropWhile_not isSpace s.data
    rw [h3] at hd
    cases hr : ((s.data.dropWhile isSpace).reverse.dropWhile isSpace).reverse with
    | nil => simp [hr] at hc2
    | cons x xs =>
      rw [hr] at hc2 hd
      simp only [List.head?_cons, Option.some.injEq] at hc2
      subst hc2
      simpa using hd

/-- The trimmed text is empty exactly when the text is blank. -/
theorem trimSpace_eq_empty_iff (s : String) : trimSpace s = "" ↔ isBlank s = true := by
  constructor
  · intro h
    obtain ⟨pre, suf, hs, hpre, hsuf, -, -⟩ := trimSpace_spec s
    rw [h] at hs
    simp only [isBlank, List.all_eq_true, hs]
    intro c hc
    simp only [List.mem_append] at hc
    rcases hc with (hc | hc) | hc
    · exact hpre c hc
    · simp at hc
    · exact hsuf c hc
  · intro h
    simp only [isBlank, List.all_eq_true] at h
    have : s.data.dropWhile isSpace = [] := by
      rw [List.dropWhile_eq_nil_iff]
      exact h
    simp [trimSpace, this]

theorem chosenParagraph_mem (doc p : Node) (h : chosenParagraph doc = some p) :
    p ∈ paragraphs doc := by
  have hdocp : ∀ q, firstElement "p" doc = some q → q ∈ paragraphs doc := by
    intro q hq
    simp only [firstElement] at hq
    simp only [paragraphs, List.mem_filter]
    exact ⟨List.mem_of_find?_eq_some hq, List.find?_some hq⟩
  unfold chosenParagraph at h
  cases hm : firstElement "main" doc with
  | none =>
    simp only [hm] at h
    exact hdocp p h
  | some m =>
    simp only [hm] at h
    cases hp : firstElement "p" m with
    | none =>
      simp only [hp] at h
      exact hdocp p h
    | some q =>
      simp only [hp, Option.some.injEq] at h
      subst h
      simp only [firstElement] at hm hp
      simp only [paragraphs, List.mem_filter]
      exact ⟨preorder_subtree m doc (List.mem_of_find?_eq_some hm) q
        (List.mem_of_find?_eq_some hp), List.find?_some hp⟩

/-- The function `getFirstParagraphFromHTML` returns the trimmed text of the paragraph at which
its search stops. -/
theorem getFirstParagraphFromHTML_chosen (htmlParse : String → Option Node) (htmlBody : String)
    (doc : Node) (hdoc : htmlParse htmlBody = some doc) :
    getFirstParagraphFromHTML htmlParse htmlBody
      = match chosenParagraph doc with
        | some p => trimSpace (extractText p)
        | none => "" := by
  simp only [getFirstParagraphFromHTML, hdoc, findNode_eq_firstElement, chosenParagraph,
    firstElement]
  cases (preorder doc).find? (Node.isElement "main") with
  | none => rfl
  | some m =>
    simp only
    cases (preorder m).find? (Node.isElement "p") with
    | none => rfl
    | some p => rfl

theorem firstNonEmptyParagraph_eq_none_iff (n : Node) :
    firstNonEmptyParagraph n = none ↔ ∀ q ∈ paragraphs n, isBlank (extractText q) = true := by
  simp only [firstNonEmptyParagraph, Option.map_eq_none', List.find?_eq_none, paragraphs,
    bne_iff_ne, ne_eq, not_not, trimSpace_eq_empty_iff]

theorem firstNonEmptyParagraph_ne_empty (n : Node) (t : String)
    (h : firstNonEmptyParagraph n = some t) : t ≠ "" := by
  simp only [firstNonEmptyParagraph, Option.map_eq_some'] at h
  obtain ⟨p, hp, rfl⟩ := h
  simpa using List.find?_some hp

theorem paragraphs_subtree (doc m : Node) (hm : m ∈ preorder doc) :
    ∀ q ∈ paragraphs m, q ∈ paragraphs doc := by
  intro q hq
  simp only [paragraphs, List.mem_filter] at hq ⊢
  exact ⟨preorder_subtree m doc hm q hq.1, hq.2⟩

/-- The excerpt in the words of the specification is empty exactly when every `p`
element of the document is blank. -/
theorem firstParagraphSpec_eq_empty_iff (doc : Node) :
    firstParagraphSpec doc = "" ↔ ∀ q ∈ paragraphs doc, isBlank (extractText q) = true := by
  rw [← firstNonEmptyParagraph_eq_none_iff]
  unfold firstParagraphSpec
  cases hd : firstNonEmptyParagraph doc with
  | some t =>
    have ht := firstNonEmptyParagraph_ne_empty doc t hd
    cases hm : firstElement "main" doc with
    | none => simp [ht]
    | some m =>
      cases hmp : firstNonEmptyParagraph m with
      | none => simp [hmp, ht]
      | some t2 => simp [hmp, firstNonEmptyParagraph_ne_empty m t2 hmp]
  | none =>
    cases hm : firstElement "main" doc with
    | none => simp
    | some m =>
      have hmem : m ∈ preorder doc := by
        simp only [firstElement] at hm
        exact List.mem_of_find?_eq_some hm
      have hnone : firstNonEmptyParagraph m = none := by
        rw [firstNonEmptyParagraph_eq_none_iff]
        intro q hq
        exact (firstNonEmptyParagraph_eq_none_iff doc).1 hd q (paragraphs_subtree doc m hmem q hq)
      simp [hnone]

/-- When the paragraph at which the search stops is not blank, it is the first non-blank
paragraph in the words of the specification. -/
theorem firstParagraphSpec_of_chosen (doc p : Node) (h : chosenParagraph doc = some p)
    (hne : trimSpace (extractText p) ≠ "") :
    firstParagraphSpec doc = trimSpace (extractText p) := by
  unfold chosenParagraph at h
  unfold firstParagraphSpec
  cases hm : firstElement "main" doc with
  | none =>
    simp only [hm] at h ⊢
    rw [firstNonEmptyParagraph_of_first doc p h hne]
    rfl
  | some m =>
    simp only [hm] at h ⊢
    cases hp : firstElement "p" m with
    | none =>
      simp only [hp] at h
      rw [firstNonEmptyParagraph_of_none m hp]
      simp only
      rw [firstNonEmptyParagraph_of_first doc p h hne]
      rfl
    | some q =>
      simp only [hp, Option.some.injEq] at h
      subst h
      rw [firstNonEmptyParagraph_of_first m q hp hne]

/-- C14, as stated, fails: for the tree of
`<html><body><p></p><p>Second paragraph.</p></body></html>` the first paragraph whose
text is not empty after trimming is `Second paragraph.`, and `getFirstParagraphFromHTML`
returns the empty string: the empty first `p` element is the match. -/
theorem C14_excerpt_skips_empty_counterexample :
    firstParagraphSpec emptyParagraphDoc = "Second paragraph." ∧
    getFirstParagraphFromHTML (fun _ => some emptyParagraphDoc)
      "<html><body><p></p><p>Second paragraph.</p></body></html>" = "" := by
  decide

/-- C14 (amended): let the first paragraph be the first `p` element under the first
`main` element when that has one, otherwise the first `p` element of the document.
(1) When the text of the first paragraph is not blank, `getFirstParagraphFromHTML`
returns the excerpt of the specification, the trimmed text of the first paragraph whose
text is not empty after trimming (one under `main` preferred); it is the trimmed text of
the first paragraph and it is not empty.
(2) When the text of the first paragraph is blank, the function returns the empty
string: a blank first paragraph is a match and the search does not go on.  (3) The
excerpt of the specification is empty exactly when every `p` element is blank, so in
case (2) the two differ exactly when some later `p` element has text.  (4) When every
`p` element is blank, or there is none, both are the empty string. -/
theorem C14_excerpt_first_paragraph_match (htmlParse : String → Option Node)
    (htmlBody : String) (doc : Node) (hdoc : htmlParse htmlBody = some doc) :
    (∀ p, chosenParagraph doc = some p → isBlank (extractText p) = false →
      getFirstParagraphFromHTML htmlParse htmlBody = firstParagraphSpec doc ∧
      getFirstParagraphFromHTML htmlParse htmlBody = trimSpace (extractText p) ∧
      getFirstParagraphFromHTML htmlParse htmlBody ≠ "") ∧
    (∀ p, chosenParagraph doc = some p → isBlank (extractText p) = true →
      getFirstParagraphFromHTML htmlParse htmlBody = "") ∧
    (firstParagraphSpec doc = "" ↔ ∀ q ∈ paragraphs doc, isBlank (extractText q) = true) ∧
    ((∀ q ∈ paragraphs doc, isBlank (extractText q) = true) →
      getFirstParagraphFromHTML htmlParse htmlBody = "" ∧ firstParagraphSpec doc = "") := by
  have hres := getFirstParagraphFromHTML_chosen htmlParse htmlBody doc hdoc
  refine ⟨?_, ?_, firstParagraphSpec_eq_empty_iff doc, ?_⟩
  · intro p hp hnb
    have hne : trimSpace (extractText p) ≠ "" := by
      intro h
      rw [(trimSpace_eq_empty_iff _).1 h] at hnb
      cases hnb
    rw [hres, hp, firstParagraphSpec_of_chosen doc p hp hne]
    exact ⟨rfl, rfl, hne⟩
  · intro p hp hb
    rw [hres, hp]
    exact (trimSpace_eq_empty_iff _).2 hb
  · intro hall
    refine ⟨?_, (firstParagraphSpec_eq_empty_iff doc).2 hall⟩
    rw [hres]
    cases hp : chosenParagraph doc with
    | none => rfl
    | some p => exact (trimSpace_eq_empty_iff _).2 (hall p (chosenParagraph_mem doc p hp))

/-- Witness for C14: the tree of `TestGetFirstParagraphFromHTMLMainPriority` (first
paragraph with text), a tree whose first paragraph holds white space only and is
followed by one with text (the function returns the empty string, the specification
names the second paragraph), a tree whose first paragraph under `main` is blank, and a
tree without a `p` element. -/
theorem C14_excerpt_first_paragraph_match_witness :
    (getFirstParagraphFromHTML (fun _ => some mainPriorityDoc) "" = "Main paragraph." ∧
      getFirstParagraphFromHTML (fun _ => some mainPriorityDoc) ""
        = firstParagraphSpec mainPriorityDoc ∧
      getFirstParagraphFromHTML (fun _ => some mainPriorityDoc) ""
        = trimSpace (extractText (element "p" [text "Main paragraph."])) ∧
      getFirstParagraphFromHTML (fun _ => some mainPriorityDoc) "" ≠ "") ∧
    (extractText (element "p" [text " \n\t"]) = " \n\t" ∧
      firstParagraphSpec blankParagraphDoc = "Second paragraph." ∧
      getFirstParagraphFromHTML (fun _ => some blankParagraphDoc) "" = "") ∧
    (firstParagraphSpec blankInMainDoc = "Inside." ∧
      getFirstParagraphFromHTML (fun _ => some blankInMainDoc) "" = "") ∧
    (paragraphs nestedH1Doc = [] ∧
      getFirstParagraphFromHTML (fun _ => some nestedH1Doc) "" = "" ∧
      firstParagraphSpec nestedH1Doc = "") :=
  ⟨⟨by decide,
    (C14_excerpt_first_paragraph_match (fun _ => some mainPriorityDoc) "" mainPriorityDoc rfl).1
      (element "p" [text "Main paragraph."]) (by rfl) (by decide)⟩,
   ⟨by decide, by decide,
    (C14_excerpt_first_paragraph_match (fun _ => some blankParagraphDoc) "" blankParagraphDoc
      rfl).2.1 (element "p" [text " \n\t"]) (by rfl) (by decide)⟩,
   ⟨by decide,
    (C14_excerpt_first_paragraph_match (fun _ => some blankInMainDoc) "" blankInMainDoc
      rfl).2.1 (element "p" [text "  "]) (by rfl) (by decide)⟩,
   ⟨by rfl,
    (C14_excerpt_first_paragraph_match (fun _ => some nestedH1Doc) "" nestedH1Doc rfl).2.2.2
      (by decide)⟩⟩

/-- C15 (the first `p` element as it is): for a parsed tree, `getFirstParagraphFromHTML`
returns the trimmed text of the first `p` element under the first `main` element when
there is one; otherwise (no `main` element, or none with a `p` element under it) the
trimmed text of the first `p` element of the document; otherwise the empty string.  The
trimmed text of a text is what stands between its leading and its trailing white space,
with no white space at either end.  An empty first `p` element gives the empty string
even when a later one has text, and so does a first `p` element with white space
only. -/
theorem C15_excerpt_first_paragraph (htmlParse : String → Option Node) (htmlBody : String)
    (doc : Node) (hdoc : htmlParse htmlBody = some doc) :
    (∀ m p, firstElement "main" doc = some m → firstElement "p" m = some p →
      getFirstParagraphFromHTML htmlParse htmlBody = trimSpace (extractText p)) ∧
    ((firstElement "main" doc = none ∨
        ∃ m, firstElement "main" doc = some m ∧ firstElement "p" m = none) →
      (∀ p, firstElement "p" doc = some p →
        getFirstParagraphFromHTML htmlParse htmlBody = trimSpace (extractText p)) ∧
      (firstElement "p" doc = none → getFirstParagraphFromHTML htmlParse htmlBody = "")) ∧
    (∀ s : String, ∃ pre suf : List Char, s.data = pre ++ (trimSpace s).data ++ suf ∧
      (∀ c ∈ pre, isSpace c = true) ∧ (∀ c ∈ suf, isSpace c = true) ∧
      (∀ c, (trimSpace s).data.head? = some c → isSpace c = false) ∧
      (∀ c, (trimSpace s).data.getLast? = some c → isSpace c = false)) ∧
    getFirstParagraphFromHTML (fun _ => some emptyParagraphDoc)
      "<html><body><p></p><p>Second paragraph.</p></body></html>" = "" ∧
    getFirstParagraphFromHTML (fun _ => some blankParagraphDoc) "" = "" ∧
    getFirstParagraphFromHTML (fun _ => some paddedParagraphDoc) "" = "Hello, world!" := by
  refine ⟨?_, ?_, trimSpace_spec, by decide, by decide, by decide⟩
  · intro m p hm hp
    simp only [firstElement] at hm hp
    simp [getFirstParagraphFromHTML, hdoc, findNode_eq_firstElement, hm, hp]
  · intro hcase
    constructor
    · intro p hp
      simp only [firstElement] at hp
      rcases hcase with hm | ⟨m, hm, hpm⟩
      · simp only [firstElement] at hm
        simp [getFirstParagraphFromHTML, hdoc, findNode_eq_firstElement, hm, hp]
      · simp only [firstElement] at hm hpm
        simp [getFirstParagraphFromHTML, hdoc, findNode_eq_firstElement, hm, hp, hpm]
    · intro hp
      simp only [firstElement] at hp
      rcases hcase with hm | ⟨m, hm, hpm⟩
      · simp only [firstElement] at hm
        simp [getFirstParagraphFromHTML, hdoc, findNode_eq_firstElement, hm, hp]
      · simp only [firstElement] at hm hpm
        simp [getFirstParagraphFromHTML, hdoc, findNode_eq_firstElement, hm, hp, hpm]

/-- Witness for C15: the tree of `TestGetFirstParagraphFromHTMLMainPriority` (a `p`
element before and one inside `main`), the tree of `TestGetFirstParagraphFromHTMLNoMain`,
and a tree whose first `p` element has white space around its text and whose `main`
element has no `p` element. -/
theorem C15_excerpt_first_paragraph_witness :
    (firstElement "main" mainPriorityDoc).map extractText = some "\n\t\t\tMain paragraph.\n\t\t" ∧
    getFirstParagraphFromHTML (fun _ => some mainPriorityDoc) ""
      = trimSpace (extractText (element "p" [text "Main paragraph."])) ∧
    getFirstParagraphFromHTML (fun _ => some mainPriorityDoc) "" = "Main paragraph." ∧
    getFirstParagraphFromHTML (fun _ => some noMainDoc) ""
      = trimSpace (extractText (element "p" [text "First paragraph."])) ∧
    (extractText (element "p" [text "\n  Hello, ", element "b" [text "world"], text "! \t"])
        = "\n  Hello, world! \t" ∧
      trimSpace "\n  Hello, world! \t" = "Hello, world!" ∧
      getFirstParagraphFromHTML (fun _ => some paddedParagraphDoc) ""
        = trimSpace (extractText
            (element "p" [text "\n  Hello, ", element "b" [text "world"], text "! \t"]))) :=
  ⟨by decide,
   (C15_excerpt_first_paragraph (fun _ => some mainPriorityDoc) "" mainPriorityDoc rfl).1
      (element "main" [text "\n\t\t\t", element "p" [text "Main paragraph."], text "\n\t\t"])
      (element "p" [text "Main paragraph."]) (by rfl) (by rfl),
   by decide,
   ((C15_excerpt_first_paragraph (fun _ => some noMainDoc) "" noMainDoc rfl).2.1
      (Or.inl (by rfl))).1 (element "p" [text "First paragraph."]) (by rfl),
   by decide, by decide,
   ((C15_excerpt_first_paragraph (fun _ => some paddedParagraphDoc) "" paddedParagraphDoc
      rfl).2.1
      (Or.inr ⟨element "main" [element "div" [text "no paragraph"]], by rfl, by rfl⟩)).1
      (element "p" [text "\n  Hello, ", element "b" [text "world"], text "! \t"]) (by rfl)⟩
/-! ## What the key is made of -/

theorem Strings.not_mem_cut_fst (sep : Char) (l : List Char) : sep ∉ (Strings.cut sep l).1 := by
  induction l with
  | nil => simp [Strings.cut]
  | cons x xs ih =>
    by_cases hx : x = sep
    · simp [Strings.cut, hx]
    · simp only [Strings.cut, hx, if_false, List.mem_cons, not_or]
      exact ⟨fun h => hx h.symm, ih⟩

theorem Strings.not_mem_take_of_count (c : Char) (l : List Char)
    (hs : Strings.hasSuffix l [c] = true) (hc : Strings.count l c = 1) :
    c ∉ l.take (l.length - 1) := by
  simp only [Strings.hasSuffix, List.isSuffixOf_iff_suffix] at hs
  obtain ⟨t, rfl⟩ := hs
  simp only [Strings.count, List.count_append, List.count_singleton_self] at hc
  have h0 : t.count c = 0 := by omega
  simpa [List.count_eq_zero] using h0

theorem Strings.cut_fst_prefix (sep : Char) (l : List Char) : (Strings.cut sep l).1 <+: l := by
  induction l with
  | nil => simp [Strings.cut]
  | cons x xs ih =>
    by_cases hx : x = sep
    · simp [Strings.cut, hx]
    · simp only [Strings.cut, hx, if_false]
      exact (List.prefix_cons_inj x).2 ih

/-- What `getSchemeLoop` returns: no scheme and all of the input, or a rest that is a
proper end of the text it scans. -/
theorem Url.getSchemeLoop_cases (rawURL : List Char) (rest : List Char) :
    ∀ i s0 r0, Url.getSchemeLoop rawURL i rest = some (s0, r0) →
      (s0 = [] ∧ r0 = rawURL) ∨ (r0 <:+ rest ∧ r0.length < rest.length) := by
  induction rest with
  | nil =>
    intro i s0 r0 h
    simp only [Url.getSchemeLoop, Option.some.injEq, Prod.mk.injEq] at h
    exact Or.inl ⟨h.1.symm, h.2.symm⟩
  | cons c cs ih =>
    intro i s0 r0 h
    simp only [Url.getSchemeLoop] at h
    have hsub : ((s0 = [] ∧ r0 = rawURL) ∨ (r0 <:+ cs ∧ r0.length < cs.length)) →
        ((s0 = [] ∧ r0 = rawURL) ∨ (r0 <:+ c :: cs ∧ r0.length < (c :: cs).length)) := by
      intro hy
      rcases hy with hy | ⟨hy1, hy2⟩
      · exact Or.inl hy
      · exact Or.inr ⟨hy1.trans (List.suffix_cons c cs), by simp; omega⟩
    split at h
    · exact hsub (ih _ _ _ h)
    · split at h
      · split at h
        · simp only [Option.some.injEq, Prod.mk.injEq] at h
          exact Or.inl ⟨h.1.symm, h.2.symm⟩
        · exact hsub (ih _ _ _ h)
      · split at h
        · split at h
          · cases h
          · simp only [Option.some.injEq, Prod.mk.injEq] at h
            exact Or.inr ⟨h.2 ▸ List.suffix_cons c cs, by simp [← h.2]⟩
        · simp only [Option.some.injEq, Prod.mk.injEq] at h
          exact Or.inl ⟨h.1.symm, h.2.symm⟩

theorem Url.getScheme_cases (rawURL s0 r0 : List Char)
    (h : Url.getScheme rawURL = some (s0, r0)) :
    (s0 = [] ∧ r0 = rawURL) ∨ (r0 <:+ rawURL ∧ r0.length < rawURL.length) :=
  Url.getSchemeLoop_cases rawURL rawURL 0 s0 r0 h

theorem Url.unhex_le (c : Char) : Url.unhex c ≤ 15 := by
  unfold Url.unhex
  split
  · rename_i h
    simp only [Bool.and_eq_true, decide_eq_true_eq] at h
    have h2 : c.toNat ≤ '9'.toNat := h.2
    have : '9'.toNat = 57 := rfl
    have : '0'.toNat = 48 := rfl
    omega
  · split
    · rename_i h
      simp only [Bool.and_eq_true, decide_eq_true_eq] at h
      have h2 : c.toNat ≤ 'f'.toNat := h.2
      have : 'f'.toNat = 102 := rfl
      have : 'a'.toNat = 97 := rfl
      omega
    · split
      · rename_i h
        simp only [Bool.and_eq_true, decide_eq_true_eq] at h
        have h2 : c.toNat ≤ 'F'.toNat := h.2
        have : 'F'.toNat = 70 := rfl
        have : 'A'.toNat = 65 := rfl
        omega
      · omega

/-- A decoded byte of 128 or more is none of the ASCII bytes. -/
theorem Url.ofNat_ne_of_ge (v : Nat) (c : Char) (hc : c.toNat < 128) (hv : 128 ≤ v)
    (hv2 : v < 256) : Char.ofNat v ≠ c := by
  intro h
  have h2 : (Char.ofNat v).toNat = v := by
    have hvalid : v.isValidChar := Or.inl (by omega)
    simp only [Char.ofNat, hvalid, dif_pos]
    rfl
  rw [h] at h2
  omega

theorem Url.unescape_host_bytes (mode : Url.Encoding)
    (hmode : mode = .encodeHost ∨ mode = .encodeZone) :
    ∀ (n : Nat) (l : List Char), l.length ≤ n → Url.unescapeValid mode l = true →
      ∀ x ∈ Url.unescapeBuild l, x ≠ '/' ∧ x ≠ '?' ∧ x ≠ '#' := by
  intro n
  induction n with
  | zero =>
    intro l hl _ x hx
    have : l = [] := List.length_eq_zero.1 (by omega)
    subst this
    simp [Url.unescapeBuild] at hx
  | succ n ih =>
    intro l hl hvalid x hx
    cases l with
    | nil => simp [Url.unescapeBuild] at hx
    | cons c rest =>
      by_cases hc : c = '%'
      · subst hc
        cases rest with
        | nil => simp [Url.unescapeValid] at hvalid
        | cons h1 rest1 =>
          cases rest1 with
          | nil => simp [Url.unescapeValid] at hvalid
          | cons h2 rest2 =>
            unfold Url.unescapeValid at hvalid
            unfold Url.unescapeBuild at hx
            simp only [if_true] at hvalid hx
            split at hvalid
            · cases hvalid
            · split at hvalid
              · cases hvalid
              · split at hvalid
                · cases hvalid
                · rename_i hhex hhost hzone
                  simp only [List.mem_cons] at hx
                  rcases hx with hx | hx
                  · subst hx
                    have hle1 := Url.unhex_le h1
                    have hle2 := Url.unhex_le h2
                    by_cases h25 : h1 = '2' ∧ h2 = '5'
                    · obtain ⟨rfl, rfl⟩ := h25
                      decide
                    · have h25b : (h1 == '2' && h2 == '5') = false := by
                        simpa using h25
                      rcases hmode with hm | hm
                      · subst hm
                        simp only [beq_self_eq_true, Bool.true_and, h25b, Bool.not_false,
                          Bool.and_true, decide_eq_true_eq, not_lt] at hhost
                        have hv : 128 ≤ Url.unhex h1 * 16 + Url.unhex h2 := by omega
                        have hv2 : Url.unhex h1 * 16 + Url.unhex h2 < 256 := by omega
                        exact ⟨Url.ofNat_ne_of_ge _ _ (by decide) hv hv2,
                          Url.ofNat_ne_of_ge _ _ (by decide) hv hv2,
                          Url.ofNat_ne_of_ge _ _ (by decide) hv hv2⟩
                      · subst hm
                        simp only [beq_self_eq_true, Bool.true_and, h25b, Bool.not_false,
                          Bool.and_eq_true, bne_iff_ne, ne_eq, not_and, Bool.not_eq_true] at hzone
                        by_cases h20 : Url.unhex h1 * 16 + Url.unhex h2 = 32
                        · rw [h20]
                          decide
                        · have hse := hzone h20
                          refine ⟨?_, ?_, ?_⟩ <;> intro heq <;> rw [heq] at hse <;>
                            exact absurd hse (by decide)
                  · exact ih rest2 (by simp at hl; omega) hvalid x hx
      · unfold Url.unescapeValid at hvalid
        unfold Url.unescapeBuild at hx
        simp only [hc, if_false] at hvalid hx
        split at hvalid
        · cases hvalid
        · rename_i hchk
          simp only [List.mem_cons] at hx
          rcases hx with hx | hx
          · subst hx
            have hm2 : (mode == .encodeHost || mode == .encodeZone) = true := by
              rcases hmode with hm | hm <;> subst hm <;> rfl
            simp only [hm2, Bool.true_and, Bool.and_eq_true, decide_eq_true_eq, not_and,
              Bool.not_eq_true] at hchk
            refine ⟨?_, ?_, ?_⟩ <;> intro heq <;> subst heq <;>
              exact absurd (hchk (by decide)) (by decide)
          · exact ih rest (by simp at hl; omega) hvalid x hx

theorem Url.unescape_host_ok (mode : Url.Encoding)
    (hmode : mode = .encodeHost ∨ mode = .encodeZone) (l r : List Char)
    (h : Url.unescape l mode = some r) : ∀ x ∈ r, x ≠ '/' ∧ x ≠ '?' ∧ x ≠ '#' := by
  unfold Url.unescape at h
  split at h
  · rename_i hv
    cases h
    exact Url.unescape_host_bytes mode hmode l.length l (le_refl _) hv
  · cases h

theorem Url.parseHost_ok (host r : List Char) (h : Url.parseHost host = some r) :
    ∀ x ∈ r, x ≠ '/' ∧ x ≠ '?' ∧ x ≠ '#' := by
  unfold Url.parseHost at h
  by_cases hpre : Strings.hasPrefix host ['['] = true
  · simp only [hpre, if_true] at h
    cases hli : Strings.lastIndex ']' host with
    | none => simp [hli] at h
    | some i =>
      simp only [hli] at h
      by_cases hport : Url.validOptionalPort (host.drop (i + 1)) = true
      · simp only [hport, Bool.not_true, Bool.false_eq_true, if_false] at h
        cases hz : Strings.index ['%', '2', '5'] (host.take i) with
        | none =>
          simp only [hz] at h
          exact Url.unescape_host_ok _ (Or.inl rfl) _ _ h
        | some zone =>
          simp only [hz] at h
          cases h1 : Url.unescape (host.take zone) .encodeHost with
          | none => simp [h1] at h
          | some host1 =>
            simp only [h1] at h
            cases h2 : Url.unescape ((host.take i).drop zone) .encodeZone with
            | none => simp [h2] at h
            | some host2 =>
              simp only [h2] at h
              cases h3 : Url.unescape (host.drop i) .encodeHost with
              | none => simp [h3] at h
              | some host3 =>
                simp only [h3, Option.some.injEq] at h
                subst h
                intro x hx
                simp only [List.mem_append] at hx
                rcases hx with (hx | hx) | hx
                · exact Url.unescape_host_ok _ (Or.inl rfl) _ _ h1 x hx
                · exact Url.unescape_host_ok _ (Or.inr rfl) _ _ h2 x hx
                · exact Url.unescape_host_ok _ (Or.inl rfl) _ _ h3 x hx
      · simp [hport] at h
  · simp only [hpre, Bool.false_eq_true, if_false] at h
    cases hli : Strings.lastIndex ':' host with
    | none =>
      simp only [hli] at h
      exact Url.unescape_host_ok _ (Or.inl rfl) _ _ h
    | some i =>
      simp only [hli] at h
      by_cases hport : Url.validOptionalPort (host.drop i) = true
      · simp only [hport, Bool.not_true, Bool.false_eq_true, if_false] at h
        exact Url.unescape_host_ok _ (Or.inl rfl) _ _ h
      · simp [hport] at h

theorem Url.parseAuthority_ok (authority r : List Char) (user : Option Url.Userinfo)
    (h : Url.parseAuthority authority = some (user, r)) :
    ∀ x ∈ r, x ≠ '/' ∧ x ≠ '?' ∧ x ≠ '#' := by
  unfold Url.parseAuthority at h
  cases hat : Strings.lastIndex '@' authority with
  | none =>
    simp only [hat] at h
    cases hh : Url.parseHost authority with
    | none => simp [hh] at h
    | some host =>
      simp only [hh, Option.some.injEq, Prod.mk.injEq] at h
      rw [← h.2]
      exact Url.parseHost_ok _ _ hh
  | some i =>
    simp only [hat] at h
    cases hh : Url.parseHost (authority.drop (i + 1)) with
    | none => simp [hh] at h
    | some host =>
      have hok := Url.parseHost_ok _ _ hh
      simp only [hh] at h
      split at h
      · cases h
      · split at h
        · split at h
          · cases h
          · simp only [Option.some.injEq, Prod.mk.injEq] at h
            rw [← h.2]
            exact hok
        · split at h
          · cases h
          · split at h
            · cases h
            · simp only [Option.some.injEq, Prod.mk.injEq] at h
              rw [← h.2]
              exact hok

theorem Url.parse_eq_parseRest (rawURL : List Char) :
    Url.parse rawURL =
      if Url.stringContainsCTLByte rawURL then none
      else if rawURL = ['*'] then some { Path := "*" }
      else
        match Url.getScheme rawURL with
        | none => none
        | some (scheme0, rest0) =>
          Url.parseRest (Strings.toLower scheme0)
            (if Strings.hasSuffix rest0 ['?'] && Strings.count rest0 '?' == 1
              then rest0.take (rest0.length - 1) else (Strings.cut '?' rest0).1)
            (if Strings.hasSuffix rest0 ['?'] && Strings.count rest0 '?' == 1
              then [] else (Strings.cut '?' rest0).2.1)
            (Strings.hasSuffix rest0 ['?'] && Strings.count rest0 '?' == 1) := by
  rfl

/-- The host and the path that `parseRest` gives: the host holds none of `/`, `?`, `#`,
and the path is the unescaped form of an end of the rest. -/
theorem Url.parseRest_components (scheme rest1 rawQuery : List Char) (forceQuery : Bool)
    (u : Url.URL) (h : Url.parseRest scheme rest1 rawQuery forceQuery = some u) :
    (∀ x ∈ u.Host.data, x ≠ '/' ∧ x ≠ '?' ∧ x ≠ '#') ∧
    ∃ r : List Char, Url.unescape r .encodePath = some u.Path.data ∧ r <:+ rest1 := by
  unfold Url.parseRest at h
  by_cases hA : (!Strings.hasPrefix rest1 ['/'] && !scheme.isEmpty) = true
  · simp only [hA, if_true, Option.some.injEq] at h
    subst h
    exact ⟨by simp, [], rfl, List.nil_suffix⟩
  · simp only [hA, Bool.false_eq_true, if_false] at h
    by_cases hB : (!Strings.hasPrefix rest1 ['/']
        && Strings.contains (Strings.cut '/' rest1).1 ':') = true
    · simp [hB] at h
    · simp only [hB, Bool.false_eq_true, if_false] at h
      by_cases hC : ((!scheme.isEmpty || !Strings.hasPrefix rest1 ['/', '/', '/'])
          && Strings.hasPrefix rest1 ['/', '/']) = true
      · simp only [hC, if_true] at h
        cases ha : Url.parseAuthority (Strings.cut '/' (rest1.drop 2)).1 with
        | none => simp [ha] at h
        | some p =>
          obtain ⟨user, host⟩ := p
          simp only [ha] at h
          split at h
          · cases h
          · rename_i path hp
            simp only [Option.some.injEq] at h
            subst h
            exact ⟨Url.parseAuthority_ok _ _ _ ha, _, hp,
              (List.drop_suffix _ _).trans (List.drop_suffix _ _)⟩
      · simp only [hC, Bool.false_eq_true, if_false] at h
        cases hp : Url.unescape rest1 .encodePath with
        | none => simp [hp] at h
        | some path =>
          simp only [hp, Option.some.injEq] at h
          subst h
          exact ⟨by simp, rest1, hp, List.suffix_refl _⟩

/-- The host and the path that `url.Parse` gives: the host holds none of `/`, `?`, `#`,
and the path is `*` or the unescaped form of a part of the input without `?` and `#`. -/
theorem Url.Parse_components (input : String) (u : Url.URL) (h : Url.Parse input = some u) :
    (∀ x ∈ u.Host.data, x ≠ '/' ∧ x ≠ '?' ∧ x ≠ '#') ∧
    (u.Path = "*" ∨ ∃ r : List Char, Url.unescape r .encodePath = some u.Path.data ∧
      r <:+: input.data ∧ '?' ∉ r ∧ '#' ∉ r) := by
  have hparse : ∀ url, Url.parse (Strings.cut '#' input.data).1 = some url →
      (∀ x ∈ url.Host.data, x ≠ '/' ∧ x ≠ '?' ∧ x ≠ '#') ∧
      (url.Path = "*" ∨ ∃ r : List Char, Url.unescape r .encodePath = some url.Path.data ∧
        r <:+: input.data ∧ '?' ∉ r ∧ '#' ∉ r) := by
    intro url hurl
    have hpre : (Strings.cut '#' input.data).1 <+: input.data := Strings.cut_fst_prefix _ _
    have hhash : '#' ∉ (Strings.cut '#' input.data).1 := Strings.not_mem_cut_fst _ _
    rw [Url.parse_eq_parseRest] at hurl
    split at hurl
    · cases hurl
    · split at hurl
      · simp only [Option.some.injEq] at hurl
        subst hurl
        exact ⟨by simp, Or.inl rfl⟩
      · split at hurl
        · cases hurl
        · rename_i scheme0 rest0 hg
          have hr0 : rest0 <:+ (Strings.cut '#' input.data).1 := by
            rcases Url.getScheme_cases _ _ _ hg with ⟨-, h0⟩ | ⟨h0, -⟩
            · rw [h0]
            · exact h0
          obtain ⟨hhost, r, hr, hsub⟩ := Url.parseRest_components _ _ _ _ _ hurl
          have hinf : ∀ rest1 : List Char, r <:+ rest1 → rest1 <+: rest0 → r <:+: input.data := by
            intro rest1 h1 h2
            exact ((h1.isInfix.trans h2.isInfix).trans hr0.isInfix).trans hpre.isInfix
          refine ⟨hhost, Or.inr ⟨r, hr, ?_, ?_, ?_⟩⟩
          · split at hsub
            · exact hinf _ hsub (List.take_prefix _ _)
            · exact hinf _ hsub (Strings.cut_fst_prefix _ _)
          · intro hq
            have h1 := hsub.subset hq
            split at h1
            · rename_i hf
              simp only [Bool.and_eq_true, beq_iff_eq] at hf
              exact Strings.not_mem_take_of_count _ _ hf.1 hf.2 h1
            · exact Strings.not_mem_cut_fst _ _ h1
          · intro hq
            have h1 := hsub.subset hq
            apply hhash
            apply hr0.subset
            split at h1
            · exact List.mem_of_mem_take h1
            · exact Strings.mem_of_mem_cut _ _ _ h1
  unfold Url.Parse at h
  simp only [] at h
  split at h
  · cases h
  · rename_i url hurl
    have hc := hparse url hurl
    split at h
    · simp only [Option.some.injEq] at h
      subst h
      exact hc
    · split at h
      · cases h
      · simp only [Option.some.injEq] at h
        subst h
        exact hc

theorem trimSuffix_initial_segment (s suffix : List Char) : Strings.trimSuffix s suffix <+: s := by
  unfold Strings.trimSuffix
  split
  · exact List.take_prefix _ _
  · exact List.prefix_refl _

theorem normalizeURL_some (input key : String) (h : normalizeURL input = some key) :
    ∃ u, Url.Parse input = some u ∧ key = u.Host ++ trimSuffix u.Path "/" := by
  unfold normalizeURL at h
  split at h
  · cases h
  · rename_i u hu
    simp only [Option.some.injEq] at h
    exact ⟨u, hu, h.symm⟩

/-! ### Where the bytes of a decoded path come from -/

/-- A hex digit and its value. -/
theorem Url.ishex_toNat (c : Char) (hc : Url.ishex c = true) :
    (c.toNat = 48 + Url.unhex c ∧ Url.unhex c ≤ 9) ∨
    (c.toNat = 87 + Url.unhex c ∧ 10 ≤ Url.unhex c ∧ Url.unhex c ≤ 15) ∨
    (c.toNat = 55 + Url.unhex c ∧ 10 ≤ Url.unhex c ∧ Url.unhex c ≤ 15) := by
  have e0 : '0'.toNat = 48 := rfl
  have e9 : '9'.toNat = 57 := rfl
  have ea : 'a'.toNat = 97 := rfl
  have ef : 'f'.toNat = 102 := rfl
  have eA : 'A'.toNat = 65 := rfl
  have eF : 'F'.toNat = 70 := rfl
  unfold Url.unhex
  by_cases h1 : ('0' ≤ c && c ≤ '9') = true
  · simp only [h1, if_true]
    simp only [Bool.and_eq_true, decide_eq_true_eq] at h1
    have a1 : '0'.toNat ≤ c.toNat := h1.1
    have a2 : c.toNat ≤ '9'.toNat := h1.2
    left
    omega
  · simp only [h1, Bool.false_eq_true, if_false]
    by_cases h2 : ('a' ≤ c && c ≤ 'f') = true
    · simp only [h2, if_true]
      simp only [Bool.and_eq_true, decide_eq_true_eq] at h2
      have a1 : 'a'.toNat ≤ c.toNat := h2.1
      have a2 : c.toNat ≤ 'f'.toNat := h2.2
      right; left
      omega
    · simp only [h2, Bool.false_eq_true, if_false]
      by_cases h3 : ('A' ≤ c && c ≤ 'F') = true
      · simp only [h3, if_true]
        simp only [Bool.and_eq_true, decide_eq_true_eq] at h3
        have a1 : 'A'.toNat ≤ c.toNat := h3.1
        have a2 : c.toNat ≤ 'F'.toNat := h3.2
        right; right
        omega
      · simp [Url.ishex, h1, h2, h3] at hc

theorem Url.toNat_ofNat_byte (v : Nat) (hv : v < 256) : (Char.ofNat v).toNat = v := by
  have hvalid : v.isValidChar := Or.inl (by omega)
  simp only [Char.ofNat, hvalid, dif_pos]
  rfl

theorem Url.char_eq_of_toNat (c d : Char) (h : c.toNat = d.toNat) : c = d := by
  rw [← Char.ofNat_toNat c, ← Char.ofNat_toNat d, h]

/-- The escapes that decode to `?` are `%3F` and `%3f`; the one that decodes to `#` is
`%23`. -/
theorem Url.escape_of_decoded (h1 h2 : Char) (hh1 : Url.ishex h1 = true)
    (hh2 : Url.ishex h2 = true) :
    (Char.ofNat (Url.unhex h1 * 16 + Url.unhex h2) = '?' → h1 = '3' ∧ (h2 = 'F' ∨ h2 = 'f')) ∧
    (Char.ofNat (Url.unhex h1 * 16 + Url.unhex h2) = '#' → h1 = '2' ∧ h2 = '3') := by
  have b1 := Url.unhex_le h1
  have b2 := Url.unhex_le h2
  have hto := Url.toNat_ofNat_byte (Url.unhex h1 * 16 + Url.unhex h2) (by omega)
  have c1 := Url.ishex_toNat h1 hh1
  have c2 := Url.ishex_toNat h2 hh2
  constructor
  · intro h
    rw [h] at hto
    have hq : '?'.toNat = 63 := rfl
    have e1 : Url.unhex h1 = 3 := by omega
    have e2 : Url.unhex h2 = 15 := by omega
    refine ⟨Url.char_eq_of_toNat _ _ ?_, ?_⟩
    · have : '3'.toNat = 51 := rfl
      omega
    · have hF : 'F'.toNat = 70 := rfl
      have hf : 'f'.toNat = 102 := rfl
      rcases c2 with c2 | c2 | c2
      · omega
      · exact Or.inr (Url.char_eq_of_toNat _ _ (by omega))
      · exact Or.inl (Url.char_eq_of_toNat _ _ (by omega))
  · intro h
    rw [h] at hto
    have hq : '#'.toNat = 35 := rfl
    have e1 : Url.unhex h1 = 2 := by omega
    have e2 : Url.unhex h2 = 3 := by omega
    refine ⟨Url.char_eq_of_toNat _ _ ?_, Url.char_eq_of_toNat _ _ ?_⟩
    · have : '2'.toNat = 50 := rfl
      omega
    · have : '3'.toNat = 51 := rfl
      omega

/-- A byte of an unescaped text stood in the text, or is the value of an escape that
stood in the text. -/
theorem Url.mem_unescapeBuild (mode : Url.Encoding) :
    ∀ (n : Nat) (l : List Char), l.length ≤ n → Url.unescapeValid mode l = true →
      ∀ x ∈ Url.unescapeBuild l, x ∈ l ∨
        ∃ h1 h2, ['%', h1, h2] <:+: l ∧ Url.ishex h1 = true ∧ Url.ishex h2 = true ∧
          x = Char.ofNat (Url.unhex h1 * 16 + Url.unhex h2) := by
  intro n
  induction n with
  | zero =>
    intro l hl _ x hx
    have : l = [] := List.length_eq_zero.1 (by omega)
    subst this
    simp [Url.unescapeBuild] at hx
  | succ n ih =>
    intro l hl hvalid x hx
    cases l with
    | nil => simp [Url.unescapeBuild] at hx
    | cons c rest =>
      by_cases hc : c = '%'
      · subst hc
        cases rest with
        | nil => simp [Url.unescapeValid] at hvalid
        | cons h1 rest1 =>
          cases rest1 with
          | nil => simp [Url.unescapeValid] at hvalid
          | cons h2 rest2 =>
            unfold Url.unescapeValid at hvalid
            unfold Url.unescapeBuild at hx
            simp only [if_true] at hvalid hx
            split at hvalid
            · cases hvalid
            · split at hvalid
              · cases hvalid
              · split at hvalid
                · cases hvalid
                · rename_i hhex hhost hzone
                  simp only [Bool.not_eq_true, Bool.not_eq_false', Bool.and_eq_true] at hhex
                  simp only [List.mem_cons] at hx
                  rcases hx with hx | hx
                  · exact Or.inr ⟨h1, h2, ⟨[], rest2, by simp⟩, hhex.1, hhex.2, hx⟩
                  · rcases ih rest2 (by simp at hl; omega) hvalid x hx with h | ⟨a, b, hab, ha, hb, hxab⟩
                    · exact Or.inl (by simp [h])
                    · refine Or.inr ⟨a, b, ?_, ha, hb, hxab⟩
                      obtain ⟨s, t, hst⟩ := hab
                      exact ⟨'%' :: h1 :: h2 :: s, t, by simp [← hst]⟩
      · unfold Url.unescapeValid at hvalid
        unfold Url.unescapeBuild at hx
        simp only [hc, if_false] at hvalid hx
        split at hvalid
        · cases hvalid
        · simp only [List.mem_cons] at hx
          rcases hx with hx | hx
          · exact Or.inl (by simp [hx])
          · rcases ih rest (by simp at hl; omega) hvalid x hx with h | ⟨a, b, hab, ha, hb, hxab⟩
            · exact Or.inl (by simp [h])
            · refine Or.inr ⟨a, b, ?_, ha, hb, hxab⟩
              obtain ⟨s, t, hst⟩ := hab
              exact ⟨c :: s, t, by simp [← hst]⟩

/-- A `?` in a decoded path comes from an escape `%3F` or `%3f`, a `#` from `%23`, when
the text that is decoded holds neither byte. -/
theorem Url.unescape_query_fragment_bytes (r p : List Char)
    (h : Url.unescape r .encodePath = some p) (hq : '?' ∉ r) (hh : '#' ∉ r) :
    ('?' ∈ p → ['%', '3', 'F'] <:+: r ∨ ['%', '3', 'f'] <:+: r) ∧
    ('#' ∈ p → ['%', '2', '3'] <:+: r) := by
  unfold Url.unescape at h
  split at h
  · rename_i hv
    simp only [Option.some.injEq] at h
    subst h
    constructor
    · intro hx
      rcases Url.mem_unescapeBuild _ r.length r (le_refl _) hv _ hx with h | ⟨a, b, hab, ha, hb, hxab⟩
      · exact absurd h hq
      · obtain ⟨e1, e2⟩ := (Url.escape_of_decoded a b ha hb).1 hxab.symm
        subst e1
        rcases e2 with e2 | e2 <;> subst e2
        · exact Or.inl hab
        · exact Or.inr hab
    · intro hx
      rcases Url.mem_unescapeBuild _ r.length r (le_refl _) hv _ hx with h | ⟨a, b, hab, ha, hb, hxab⟩
      · exact absurd h hh
      · obtain ⟨e1, e2⟩ := (Url.escape_of_decoded a b ha hb).2 hxab.symm
        subst e1
        subst e2
        exact hab
  · cases h

/-- Where `://` can stand in a host followed by a path, when the host holds no `/`:
inside the path, or across the seam, after a host that ends in `:`. -/
theorem scheme_separator_iff (H T : List Char) (hH : '/' ∉ H) :
    [':', '/', '/'] <:+: H ++ T ↔
      [':', '/', '/'] <:+: T ∨
        (Strings.hasSuffix H [':'] = true ∧ Strings.hasPrefix T ['/', '/'] = true) := by
  constructor
  · rintro ⟨s, t, hst⟩
    have hst2 : s ++ ([':', '/', '/'] ++ t) = H ++ T := by simpa using hst
    rcases List.append_eq_append_iff.1 hst2 with ⟨a, h1, h2⟩ | ⟨c, h1, h2⟩
    · -- `H = s ++ a` and `://` followed by `t` is `a` followed by `T`
      cases a with
      | nil =>
        left
        exact ⟨[], t, by simpa using h2⟩
      | cons x a2 =>
        simp only [List.cons_append, List.cons.injEq] at h2
        obtain ⟨hx, h3⟩ := h2
        cases a2 with
        | nil =>
          right
          subst hx
          refine ⟨?_, ?_⟩
          · simp [Strings.hasSuffix, h1]
          · simp only [List.nil_append] at h3
            simp [Strings.hasPrefix, ← h3]
        | cons y a3 =>
          simp only [List.cons_append, List.cons.injEq] at h3
          exact absurd (by simp [h1, ← h3.1]) hH
    · left
      exact ⟨c, t, by simp [h2]⟩
  · rintro (⟨s, t, hst⟩ | ⟨h1, h2⟩)
    · exact ⟨H ++ s, t, by simp [← hst]⟩
    · simp only [Strings.hasSuffix, List.isSuffixOf_iff_suffix] at h1
      simp only [Strings.hasPrefix, List.isPrefixOf_iff_prefix] at h2
      obtain ⟨a, rfl⟩ := h1
      obtain ⟨b, rfl⟩ := h2
      exact ⟨a, b, by simp⟩

theorem mem_trimSuffix_slash (x : Char) (hx : x ≠ '/') (P : List Char) :
    x ∈ Strings.trimSuffix P ['/'] ↔ x ∈ P := by
  unfold Strings.trimSuffix
  split
  · rename_i hs
    simp only [Strings.hasSuffix, List.isSuffixOf_iff_suffix] at hs
    obtain ⟨a, rfl⟩ := hs
    simp [hx]
  · rfl
/-- C12, as stated, fails: the key holds the percent-decoded path, so an escaped `?` or
`#` followed by text, and a `://` in the path, come out in the key. -/
theorem C12_key_without_scheme_query_fragment_counterexample :
    normalizeURL "http://h/a%3Fb" = some "h/a?b" ∧
    normalizeURL "http://h/a%23b" = some "h/a#b" ∧
    normalizeURL "http://h/x://y" = some "h/x://y" ∧
    "://".data <:+: "h/x://y".data := by
  refine ⟨by decide, by decide, by decide, ⟨"h/x".data, "y".data, by decide⟩⟩

/-- C12 (amended): when `normalizeURL` succeeds on an input, the key is the parsed host
followed by the percent-decoded path without one trailing `/`, so the scheme, the query
and the fragment of the URL are no part of it.  The key holds a `?` exactly when the
decoded path does, and then the input holds the escape `%3F` or `%3f`; it holds a `#`
exactly when the decoded path does, and then the input holds the escape `%23`; and it
contains `://` exactly when the decoded path without its trailing `/` does, or begins
with `//` after a host that ends in `:`. -/
theorem C12_key_without_scheme_query_fragment (input key : String)
    (hkey : normalizeURL input = some key) :
    ∃ u, Url.Parse input = some u ∧ key = u.Host ++ trimSuffix u.Path "/" ∧
      ('?' ∈ key.data ↔ '?' ∈ u.Path.data) ∧
      ('#' ∈ key.data ↔ '#' ∈ u.Path.data) ∧
      ('?' ∈ key.data → "%3F".data <:+: input.data ∨ "%3f".data <:+: input.data) ∧
      ('#' ∈ key.data → "%23".data <:+: input.data) ∧
      ("://".data <:+: key.data ↔
        "://".data <:+: (trimSuffix u.Path "/").data ∨
          (Strings.hasSuffix u.Host.data [':'] = true ∧
            Strings.hasPrefix (trimSuffix u.Path "/").data ['/', '/'] = true)) := by
  obtain ⟨u, hu, rfl⟩ := normalizeURL_some input key hkey
  obtain ⟨hhost, hpath⟩ := Url.Parse_components input u hu
  have hdata : (u.Host ++ trimSuffix u.Path "/").data
      = u.Host.data ++ Strings.trimSuffix u.Path.data ['/'] := by
    simp [trimSuffix]
  have hq : '?' ∈ (u.Host ++ trimSuffix u.Path "/").data ↔ '?' ∈ u.Path.data := by
    rw [hdata, List.mem_append, mem_trimSuffix_slash '?' (by decide)]
    constructor
    · rintro (h | h)
      · exact absurd rfl (hhost _ h).2.1
      · exact h
    · exact Or.inr
  have hh : '#' ∈ (u.Host ++ trimSuffix u.Path "/").data ↔ '#' ∈ u.Path.data := by
    rw [hdata, List.mem_append, mem_trimSuffix_slash '#' (by decide)]
    constructor
    · rintro (h | h)
      · exact absurd rfl (hhost _ h).2.2
      · exact h
    · exact Or.inr
  have hesc : ('?' ∈ u.Path.data → "%3F".data <:+: input.data ∨ "%3f".data <:+: input.data) ∧
      ('#' ∈ u.Path.data → "%23".data <:+: input.data) := by
    rcases hpath with hstar | ⟨r, hr, hinf, hrq, hrh⟩
    · rw [hstar]
      exact ⟨fun h => absurd h (by decide), fun h => absurd h (by decide)⟩
    · obtain ⟨e1, e2⟩ := Url.unescape_query_fragment_bytes r _ hr hrq hrh
      constructor
      · intro h
        rcases e1 h with e | e
        · exact Or.inl (e.trans hinf)
        · exact Or.inr (e.trans hinf)
      · intro h
        exact (e2 h).trans hinf
  refine ⟨u, hu, rfl, hq, hh, fun h => hesc.1 (hq.1 h), fun h => hesc.2 (hh.1 h), ?_⟩
  rw [hdata]
  exact scheme_separator_iff _ _ (fun e => (hhost _ e).1 rfl)

/-- Witness for C12: an input with an escape in its query and one with an escape in its
path and in its fragment (the keys hold no `?` and no `#`), an input whose path holds
`//` (the key holds no `://`), and an input with an empty port before a path that
begins with `//`. -/
theorem C12_key_without_scheme_query_fragment_witness :
    (normalizeURL "http://h/a?next=%2Fb" = some "h/a" ∧
      normalizeURL "http://h/a%20b#x%20y" = some "h/a b" ∧
      normalizeURL "http://h/a//b" = some "h/a//b" ∧
      normalizeURL "http://h://x" = some "h://x") ∧
    (∃ u, Url.Parse "http://h/a%20b#x%20y" = some u ∧ "h/a b" = u.Host ++ trimSuffix u.Path "/" ∧
      ('?' ∈ "h/a b".data ↔ '?' ∈ u.Path.data) ∧
      ('#' ∈ "h/a b".data ↔ '#' ∈ u.Path.data) ∧
      ('?' ∈ "h/a b".data →
        "%3F".data <:+: "http://h/a%20b#x%20y".data ∨
          "%3f".data <:+: "http://h/a%20b#x%20y".data) ∧
      ('#' ∈ "h/a b".data → "%23".data <:+: "http://h/a%20b#x%20y".data) ∧
      ("://".data <:+: "h/a b".data ↔
        "://".data <:+: (trimSuffix u.Path "/").data ∨
          (Strings.hasSuffix u.Host.data [':'] = true ∧
            Strings.hasPrefix (trimSuffix u.Path "/").data ['/', '/'] = true))) :=
  ⟨by decide,
    C12_key_without_scheme_query_fragment "http://h/a%20b#x%20y" "h/a b" (by decide)⟩
/-! ## Normalising a key again -/

theorem Url.unescapeBuild_length :
    ∀ (n : Nat) (l : List Char), l.length ≤ n → (Url.unescapeBuild l).length ≤ l.length := by
  intro n
  induction n with
  | zero =>
    intro l hl
    have : l = [] := List.length_eq_zero.1 (by omega)
    subst this
    simp [Url.unescapeBuild]
  | succ n ih =>
    intro l hl
    cases l with
    | nil => simp [Url.unescapeBuild]
    | cons c rest =>
      by_cases hc : c = '%'
      · subst hc
        cases rest with
        | nil => simp [Url.unescapeBuild]
        | cons h1 rest1 =>
          cases rest1 with
          | nil => simp [Url.unescapeBuild]
          | cons h2 rest2 =>
            have := ih rest2 (by simp at hl; omega)
            simp only [Url.unescapeBuild, if_true, List.length_cons]
            omega
      · have := ih rest (by simp at hl; omega)
        unfold Url.unescapeBuild
        simp only [hc, if_false, List.length_cons]
        omega

/-- Unescaping shortens a text that holds an escape. -/
theorem Url.unescapeBuild_fixed (mode : Url.Encoding) :
    ∀ (n : Nat) (l : List Char), l.length ≤ n → Url.unescapeValid mode l = true →
      l.length ≤ (Url.unescapeBuild l).length → '%' ∉ l := by
  intro n
  induction n with
  | zero =>
    intro l hl _ _
    have : l = [] := List.length_eq_zero.1 (by omega)
    subst this
    simp
  | succ n ih =>
    intro l hl hvalid hlen
    cases l with
    | nil => simp
    | cons c rest =>
      by_cases hc : c = '%'
      · subst hc
        cases rest with
        | nil => simp [Url.unescapeValid] at hvalid
        | cons h1 rest1 =>
          cases rest1 with
          | nil => simp [Url.unescapeValid] at hvalid
          | cons h2 rest2 =>
            have := Url.unescapeBuild_length rest2.length rest2 (le_refl _)
            simp only [Url.unescapeBuild, if_true, List.length_cons] at hlen
            omega
      · unfold Url.unescapeValid at hvalid
        simp only [hc, if_false] at hvalid
        unfold Url.unescapeBuild at hlen
        simp only [hc, if_false, List.length_cons] at hlen
        split at hvalid
        · cases hvalid
        · have := ih rest (by simp at hl; omega) hvalid (by omega)
          simp only [List.mem_cons, not_or]
          exact ⟨fun e => hc e.symm, this⟩

theorem Url.unescape_length (l r : List Char) (mode : Url.Encoding)
    (h : Url.unescape l mode = some r) : r.length ≤ l.length := by
  unfold Url.unescape at h
  split at h
  · cases h
    exact Url.unescapeBuild_length l.length l (le_refl _)
  · cases h

/-- A path that unescaping does not shorten holds no escape and is left as it is. -/
theorem Url.unescape_fixed (l r : List Char) (mode : Url.Encoding)
    (h : Url.unescape l mode = some r) (hlen : l.length ≤ r.length) : '%' ∉ l ∧ r = l := by
  unfold Url.unescape at h
  split at h
  · rename_i hv
    cases h
    have hp := Url.unescapeBuild_fixed mode l.length l (le_refl _) hv hlen
    exact ⟨hp, Url.unescapeBuild_plain l hp⟩
  · cases h

theorem Strings.index_le (sub : List Char) :
    ∀ (l : List Char) (z : Nat), Strings.index sub l = some z → z ≤ l.length := by
  intro l
  induction l with
  | nil =>
    intro z h
    simp only [Strings.index] at h
    split at h
    · cases h
      simp
    · cases h
  | cons x xs ih =>
    intro z h
    simp only [Strings.index] at h
    split at h
    · cases h
      simp
    · cases hi : Strings.index sub xs with
      | none => simp [hi] at h
      | some z2 =>
        simp only [hi, Option.map_some', Option.some.injEq] at h
        have := ih z2 hi
        simp only [List.length_cons]
        omega

theorem Url.parseHost_length (host r : List Char) (h : Url.parseHost host = some r) :
    r.length ≤ host.length := by
  unfold Url.parseHost at h
  by_cases hpre : Strings.hasPrefix host ['['] = true
  · simp only [hpre, if_true] at h
    cases hli : Strings.lastIndex ']' host with
    | none => simp [hli] at h
    | some i =>
      simp only [hli] at h
      by_cases hport : Url.validOptionalPort (host.drop (i + 1)) = true
      · simp only [hport, Bool.not_true, Bool.false_eq_true, if_false] at h
        cases hz : Strings.index ['%', '2', '5'] (host.take i) with
        | none =>
          simp only [hz] at h
          exact Url.unescape_length _ _ _ h
        | some zone =>
          simp only [hz] at h
          have hzl := Strings.index_le _ _ _ hz
          cases h1 : Url.unescape (host.take zone) .encodeHost with
          | none => simp [h1] at h
          | some host1 =>
            simp only [h1] at h
            cases h2 : Url.unescape ((host.take i).drop zone) .encodeZone with
            | none => simp [h2] at h
            | some host2 =>
              simp only [h2] at h
              cases h3 : Url.unescape (host.drop i) .encodeHost with
              | none => simp [h3] at h
              | some host3 =>
                simp only [h3, Option.some.injEq] at h
                subst h
                have l1 := Url.unescape_length _ _ _ h1
                have l2 := Url.unescape_length _ _ _ h2
                have l3 := Url.unescape_length _ _ _ h3
                simp only [List.length_append, List.length_take, List.length_drop] at l1 l2 l3 hzl ⊢
                omega
      · simp [hport] at h
  · simp only [hpre, Bool.false_eq_true, if_false] at h
    cases hli : Strings.lastIndex ':' host with
    | none =>
      simp only [hli] at h
      exact Url.unescape_length _ _ _ h
    | some i =>
      simp only [hli] at h
      by_cases hport : Url.validOptionalPort (host.drop i) = true
      · simp only [hport, Bool.not_true, Bool.false_eq_true, if_false] at h
        exact Url.unescape_length _ _ _ h
      · simp [hport] at h

theorem Url.parseAuthority_length (authority r : List Char) (user : Option Url.Userinfo)
    (h : Url.parseAuthority authority = some (user, r)) : r.length ≤ authority.length := by
  unfold Url.parseAuthority at h
  cases hat : Strings.lastIndex '@' authority with
  | none =>
    simp only [hat] at h
    cases hh : Url.parseHost authority with
    | none => simp [hh] at h
    | some host =>
      simp only [hh, Option.some.injEq, Prod.mk.injEq] at h
      rw [← h.2]
      exact Url.parseHost_length _ _ hh
  | some i =>
    simp only [hat] at h
    cases hh : Url.parseHost (authority.drop (i + 1)) with
    | none => simp [hh] at h
    | some host =>
      have hok : host.length ≤ authority.length := by
        have := Url.parseHost_length _ _ hh
        simp only [List.length_drop] at this
        omega
      simp only [hh] at h
      split at h
      · cases h
      · split at h
        · split at h
          · cases h
          · simp only [Option.some.injEq, Prod.mk.injEq] at h
            rw [← h.2]
            exact hok
        · split at h
          · cases h
          · split at h
            · cases h
            · simp only [Option.some.injEq, Prod.mk.injEq] at h
              rw [← h.2]
              exact hok

theorem Strings.length_of_hasPrefix (s pre : List Char) (h : Strings.hasPrefix s pre = true) :
    pre.length ≤ s.length := by
  simp only [Strings.hasPrefix, List.isPrefixOf_iff_prefix] at h
  exact h.length_le

/-- The host and the path that `parseRest` gives are together no longer than the rest, and
shorter by two when the rest begins with an authority. -/
theorem Url.parseRest_length (scheme rest1 rawQuery : List Char) (forceQuery : Bool)
    (u : Url.URL) (h : Url.parseRest scheme rest1 rawQuery forceQuery = some u) :
    u.Host.data.length + u.Path.data.length ≤ rest1.length ∧
    (((!scheme.isEmpty || !Strings.hasPrefix rest1 ['/', '/', '/'])
        && Strings.hasPrefix rest1 ['/', '/']) = true →
      u.Host.data.length + u.Path.data.length + 2 ≤ rest1.length) := by
  unfold Url.parseRest at h
  by_cases hA : (!Strings.hasPrefix rest1 ['/'] && !scheme.isEmpty) = true
  · simp only [hA, if_true, Option.some.injEq] at h
    subst h
    refine ⟨by simp, ?_⟩
    intro hC
    simp only [Bool.and_eq_true] at hC
    have := Strings.length_of_hasPrefix _ _ hC.2
    simp at this ⊢
    omega
  · simp only [hA, Bool.false_eq_true, if_false] at h
    by_cases hB : (!Strings.hasPrefix rest1 ['/']
        && Strings.contains (Strings.cut '/' rest1).1 ':') = true
    · simp [hB] at h
    · simp only [hB, Bool.false_eq_true, if_false] at h
      by_cases hC : ((!scheme.isEmpty || !Strings.hasPrefix rest1 ['/', '/', '/'])
          && Strings.hasPrefix rest1 ['/', '/']) = true
      · simp only [hC, if_true] at h
        cases ha : Url.parseAuthority (Strings.cut '/' (rest1.drop 2)).1 with
        | none => simp [ha] at h
        | some p =>
          obtain ⟨user, host⟩ := p
          simp only [ha] at h
          split at h
          · cases h
          · rename_i path hp
            simp only [Option.some.injEq] at h
            subst h
            have l1 := Url.parseAuthority_length _ _ _ ha
            have l2 := Url.unescape_length _ _ _ hp
            have l3 := (Strings.cut_fst_prefix '/' (rest1.drop 2)).length_le
            have l4 : 2 ≤ rest1.length := by
              simp only [Bool.and_eq_true] at hC
              simpa using Strings.length_of_hasPrefix _ _ hC.2
            simp only [List.length_drop] at l1 l2 l3
            have hsum : host.length + path.length + 2 ≤ rest1.length := by omega
            exact ⟨by simp; omega, fun _ => by simpa using hsum⟩
      · simp only [hC, Bool.false_eq_true, if_false] at h
        cases hp : Url.unescape rest1 .encodePath with
        | none => simp [hp] at h
        | some path =>
          simp only [hp, Option.some.injEq] at h
          subst h
          have l2 := Url.unescape_length _ _ _ hp
          exact ⟨by simpa using l2, fun hC2 => absurd hC2 hC⟩

/-- When `parseRest`, without a scheme, gives a host and a path that are together as long
as the rest, the rest is a bare path without an escape: the host is empty, the path is
the rest, no `:` stands before the first `/`, and the rest does not begin with an
authority. -/
theorem Url.parseRest_fixed (rest1 rawQuery : List Char) (forceQuery : Bool) (u : Url.URL)
    (h : Url.parseRest [] rest1 rawQuery forceQuery = some u)
    (hlen : rest1.length ≤ u.Host.data.length + u.Path.data.length) :
    u.Host = "" ∧ u.Path.data = rest1 ∧ '%' ∉ rest1 ∧ ':' ∉ firstSegment rest1 ∧
    (Strings.hasPrefix rest1 ['/', '/'] && !Strings.hasPrefix rest1 ['/', '/', '/']) = false := by
  have hl := Url.parseRest_length [] rest1 rawQuery forceQuery u h
  have hnC : ((!([] : List Char).isEmpty || !Strings.hasPrefix rest1 ['/', '/', '/'])
      && Strings.hasPrefix rest1 ['/', '/']) = false := by
    cases hC : ((!([] : List Char).isEmpty || !Strings.hasPrefix rest1 ['/', '/', '/'])
        && Strings.hasPrefix rest1 ['/', '/']) with
    | false => rfl
    | true =>
      have := hl.2 hC
      omega
  unfold Url.parseRest at h
  simp only [List.isEmpty_nil, Bool.not_true, Bool.and_false, Bool.false_eq_true, if_false,
    Bool.false_or] at h hnC
  by_cases hB : (!Strings.hasPrefix rest1 ['/']
      && Strings.contains (Strings.cut '/' rest1).1 ':') = true
  · simp [hB] at h
  · simp only [hB, Bool.false_eq_true, if_false, hnC] at h
    cases hp : Url.unescape rest1 .encodePath with
    | none => simp [hp] at h
    | some path =>
      simp only [hp, Option.some.injEq] at h
      subst h
      simp only [String.length_data, List.length_nil, Nat.zero_add] at hlen
      have hlen2 : rest1.length ≤ path.length := by simpa using hlen
      obtain ⟨hpct, hpath⟩ := Url.unescape_fixed _ _ _ hp hlen2
      refine ⟨rfl, hpath, hpct, ?_, ?_⟩
      · intro hcolon
        simp only [Bool.and_eq_true, Bool.not_eq_true', not_and, Bool.not_eq_true] at hB
        by_cases hs : Strings.hasPrefix rest1 ['/'] = true
        · simp only [Strings.hasPrefix, List.isPrefixOf_iff_prefix] at hs
          obtain ⟨t, rfl⟩ := hs
          simp [firstSegment, Strings.cut] at hcolon
        · have := hB (by simpa using hs)
          simp only [Strings.contains, List.elem_eq_mem, decide_eq_false_iff_not] at this
          exact this hcolon
      · cases h2 : Strings.hasPrefix rest1 ['/', '/'] <;>
          cases h3 : Strings.hasPrefix rest1 ['/', '/', '/'] <;> simp_all

theorem Strings.cut_fst_eq_of_length (sep : Char) (l : List Char)
    (h : l.length ≤ (Strings.cut sep l).1.length) : (Strings.cut sep l).1 = l ∧ sep ∉ l := by
  have hp := Strings.cut_fst_prefix sep l
  have he : (Strings.cut sep l).1 = l := hp.eq_of_length (le_antisymm hp.length_le h)
  refine ⟨he, ?_⟩
  have := Strings.not_mem_cut_fst sep l
  rwa [he] at this

/-- When `parse` gives a host and a path that are together as long as its input, the
input is a bare path: no control byte, no scheme, no query, no escape, no authority. -/
theorem Url.parse_fixed (r : List Char) (u : Url.URL) (h : Url.parse r = some u)
    (hlen : r.length ≤ u.Host.data.length + u.Path.data.length) :
    Url.stringContainsCTLByte r = false ∧ u.Host = "" ∧ u.Path.data = r ∧ '?' ∉ r ∧ '%' ∉ r ∧
    ':' ∉ firstSegment r ∧
    (Strings.hasPrefix r ['/', '/'] && !Strings.hasPrefix r ['/', '/', '/']) = false := by
  rw [Url.parse_eq_parseRest] at h
  by_cases hctl : Url.stringContainsCTLByte r = true
  · simp [hctl] at h
  · simp only [hctl, Bool.false_eq_true, if_false] at h
    have hctl2 : Url.stringContainsCTLByte r = false := by simpa using hctl
    by_cases hstar : r = ['*']
    · simp only [hstar, if_true, Option.some.injEq] at h
      subst h
      subst hstar
      exact ⟨by decide, rfl, rfl, by decide, by decide, by decide, by decide⟩
    · simp only [hstar, if_false] at h
      cases hg : Url.getScheme r with
      | none => simp [hg] at h
      | some p =>
        obtain ⟨s0, rest0⟩ := p
        simp only [hg] at h
        have hl := (Url.parseRest_length _ _ _ _ _ h).1
        have hrest1 : (if (Strings.hasSuffix rest0 ['?'] && Strings.count rest0 '?' == 1) = true
            then rest0.take (rest0.length - 1) else (Strings.cut '?' rest0).1).length
              ≤ rest0.length := by
          split
          · simp
          · exact (Strings.cut_fst_prefix _ _).length_le
        rcases Url.getScheme_cases _ _ _ hg with ⟨hs0, hr0⟩ | ⟨-, hlt⟩
        · subst hs0
          subst hr0
          by_cases hf : (Strings.hasSuffix rest0 ['?'] && Strings.count rest0 '?' == 1) = true
          · simp only [hf, if_true] at hl
            simp only [Bool.and_eq_true] at hf
            have h1 := Strings.length_of_hasPrefix rest0.reverse ['?']
              (by
                have := hf.1
                simp only [Strings.hasSuffix, List.isSuffixOf_iff_suffix] at this
                simp only [Strings.hasPrefix, List.isPrefixOf_iff_prefix]
                simpa using List.reverse_prefix.2 this)
            simp only [List.length_take, List.length_reverse, List.length_singleton] at hl h1
            omega
          · simp only [hf, Bool.false_eq_true, if_false] at hl h
            obtain ⟨hcut, hq⟩ := Strings.cut_fst_eq_of_length '?' rest0 (by omega)
            rw [hcut] at h
            have hfix := Url.parseRest_fixed rest0 _ _ u (by simpa [Strings.toLower] using h) hlen
            exact ⟨hctl2, hfix.1, hfix.2.1, hq, hfix.2.2.1, hfix.2.2.2.1, hfix.2.2.2.2⟩
        · omega

/-- A text that `normalizeURL` gives back as it is, is a stable key. -/
theorem stableKey_of_fixed (k : String) (h : normalizeURL k = some k) : stableKey k = true := by
  obtain ⟨u, hu, hk⟩ := normalizeURL_some k k h
  have hdata : k.data = u.Host.data ++ Strings.trimSuffix u.Path.data ['/'] := by
    have := congrArg String.data hk
    simpa [trimSuffix] using this
  have htrim := (trimSuffix_initial_segment u.Path.data ['/']).length_le
  have hklen : k.data.length ≤ u.Host.data.length + u.Path.data.length := by
    rw [hdata, List.length_append]
    omega
  have hcut := (Strings.cut_fst_prefix '#' k.data).length_le
  have hparse : ∃ url, Url.parse (Strings.cut '#' k.data).1 = some url ∧
      url.Host = u.Host ∧ url.Path = u.Path := by
    unfold Url.Parse at hu
    simp only [] at hu
    split at hu
    · cases hu
    · rename_i url hurl
      split at hu
      · simp only [Option.some.injEq] at hu
        subst hu
        exact ⟨url, hurl, rfl, rfl⟩
      · split at hu
        · cases hu
        · simp only [Option.some.injEq] at hu
          subst hu
          exact ⟨url, hurl, rfl, rfl⟩
  obtain ⟨url, hurl, hhost, hpath⟩ := hparse
  obtain ⟨hctl, hH, hP, hq, hpct, hcolon, hpre⟩ :=
    Url.parse_fixed _ url hurl (by rw [hhost, hpath]; omega)
  rw [hhost] at hH
  rw [hpath] at hP
  have hHlen : u.Host.data.length = 0 := by rw [hH]; rfl
  have hPlen : u.Path.data.length = (Strings.cut '#' k.data).1.length := by rw [hP]
  obtain ⟨hc1, hhash⟩ := Strings.cut_fst_eq_of_length '#' k.data (by omega)
  rw [hc1] at hctl hP hq hpct hcolon hpre
  have hsuf : Strings.hasSuffix k.data ['/'] = false := by
    cases hs : Strings.hasSuffix k.data ['/'] with
    | false => rfl
    | true =>
      have h1 : (Strings.trimSuffix u.Path.data ['/']).length = k.data.length := by
        rw [hdata, List.length_append, hHlen, Nat.zero_add]
      have h2 : 1 ≤ k.data.length := by
        simp only [Strings.hasSuffix, List.isSuffixOf_iff_suffix] at hs
        simpa using hs.length_le
      rw [hP] at h1
      simp only [Strings.trimSuffix, hs, if_true, List.length_take, List.length_singleton] at h1
      omega
  simp only [stableKey, hctl, hsuf, hpre, Bool.not_false, Bool.and_true, Bool.true_and,
    Bool.and_eq_true, Bool.not_eq_true', List.elem_eq_mem, decide_eq_false_iff_not]
  exact ⟨⟨⟨hq, hhash⟩, hpct⟩, hcolon⟩

/-- Without a `:` before the first `/`, `getScheme` finds no scheme. -/
theorem Url.getSchemeLoop_no_scheme (rawURL : List Char) (rest : List Char)
    (h : ':' ∉ firstSegment rest) :
    ∀ i, Url.getSchemeLoop rawURL i rest = some ([], rawURL) := by
  induction rest with
  | nil => intro i; rfl
  | cons c cs ih =>
    intro i
    by_cases hslash : c = '/'
    · subst hslash
      simp [Url.getSchemeLoop, Url.isAlpha, Url.isDigit]
    · simp only [firstSegment, Strings.cut, hslash, if_false, List.mem_cons, not_or] at h
      have hc : ¬ c = ':' := fun e => h.1 e.symm
      simp only [Url.getSchemeLoop]
      split
      · exact ih h.2 _
      · split
        · split
          · rfl
          · exact ih h.2 _
        · simp [hc]

/-- A stable key parses as a bare path: no host, and the key as the path. -/
theorem Parse_stableKey (k : String) (h : stableKey k = true) :
    ∃ u, Url.Parse k = some u ∧ u.Host = "" ∧ u.Path = k := by
  simp only [stableKey, Bool.and_eq_true, Bool.not_eq_true', List.elem_eq_mem,
    decide_eq_false_iff_not] at h
  obtain ⟨⟨⟨⟨⟨⟨hctl, hq⟩, hhash⟩, hpct⟩, hcolon⟩, hpre⟩, hsuf⟩ := h
  by_cases hstar : k.data = ['*']
  · have : k = "*" := by
      cases k
      simp_all
    subst this
    exact ⟨{ Path := "*" }, by decide, rfl, rfl⟩
  · have hq2 : Strings.hasSuffix k.data ['?'] = false :=
      Strings.hasSuffix_singleton_of_not_mem _ _ hq
    have hcolon2 : Strings.contains (Strings.cut '/' k.data).1 ':' = false := by
      simpa [Strings.contains, firstSegment] using hcolon
    have hrest : Url.parseRest [] k.data [] false
        = some { Scheme := String.mk [], Path := k, ForceQuery := false,
                 RawQuery := String.mk [], OmitHost := false } := by
      unfold Url.parseRest
      simp only [List.isEmpty_nil, Bool.not_true, Bool.and_false, Bool.false_eq_true, if_false,
        hcolon2, Bool.false_or, Bool.false_and]
      have hpre2 : (!Strings.hasPrefix k.data ['/', '/', '/']
          && Strings.hasPrefix k.data ['/', '/']) = false := by
        cases h2 : Strings.hasPrefix k.data ['/', '/'] <;>
          cases h3 : Strings.hasPrefix k.data ['/', '/', '/'] <;> simp_all
      simp only [hpre2, Bool.false_eq_true, if_false, Url.unescape,
        Url.unescapeValid_path _ hpct, if_true, Url.unescapeBuild_plain _ hpct]
    have hparse : Url.parse k.data
        = some { Scheme := String.mk [], Path := k, ForceQuery := false,
                 RawQuery := String.mk [], OmitHost := false } := by
      rw [Url.parse_eq_parseRest]
      simp only [hctl, Bool.false_eq_true, if_false, hstar, Url.getScheme,
        Url.getSchemeLoop_no_scheme _ _ hcolon, hq2, Bool.false_and,
        Strings.cut_of_not_mem _ _ hq, Strings.toLower, List.map_nil]
      exact hrest
    refine ⟨{ Scheme := String.mk [], Path := k, ForceQuery := false,
              RawQuery := String.mk [], OmitHost := false }, ?_, rfl, rfl⟩
    simp only [Url.Parse, Strings.cut_of_not_mem _ _ hhash, hparse, if_true]

/-- A stable key is given back by `normalizeURL` as it is. -/
theorem fixed_of_stableKey (k : String) (h : stableKey k = true) : normalizeURL k = some k := by
  obtain ⟨u, hu, hhost, hpath⟩ := Parse_stableKey k h
  have hsuf : Strings.hasSuffix k.data ['/'] = false := by
    simp only [stableKey, Bool.and_eq_true, Bool.not_eq_true'] at h
    exact h.2
  rw [normalizeURL_of_parse k u hu, hhost, hpath]
  simp only [trimSuffix, String.empty_append]
  rw [Strings.trimSuffix_of_not _ _ hsuf]

/-- C9, as stated, fails: `normalizeURL` succeeds on `http://example.com//` with the key
`example.com/`, and normalising that key gives `example.com`, not the key itself. -/
theorem C9_normalize_idempotent_counterexample :
    normalizeURL "http://example.com//" = some "example.com/" ∧
    normalizeURL "example.com/" = some "example.com" ∧
    normalizeURL "example.com/" ≠ some "example.com/" := by
  decide

/-- Each condition of `stableKey` at work: inputs on which normalising the key does not
give the key back (a port, which reads as a scheme; an escaped `?`, `#` and `%`; a path
that begins with `//` after an empty host; an escaped control byte, with which the key
does not parse), and keys with a `:` after the first `/` or with a leading `///`, which
are given back as they are. -/
theorem normalizeURL_rereads_key :
    (normalizeURL "http://example.com:8080/path" = some "example.com:8080/path" ∧
      normalizeURL "example.com:8080/path" = some "") ∧
    (normalizeURL "http://h/a%3Fb" = some "h/a?b" ∧ normalizeURL "h/a?b" = some "h/a") ∧
    (normalizeURL "http://h/a%23b" = some "h/a#b" ∧ normalizeURL "h/a#b" = some "h/a") ∧
    (normalizeURL "http://h/%2541" = some "h/%41" ∧ normalizeURL "h/%41" = some "h/A") ∧
    (normalizeURL "http:////a" = some "//a" ∧ normalizeURL "//a" = some "a") ∧
    ((normalizeURL "http://h/a%01").isSome = true ∧
      ((normalizeURL "http://h/a%01").bind normalizeURL) = none) ∧
    (normalizeURL "https://en.wikipedia.org/wiki/Help:Contents"
        = some "en.wikipedia.org/wiki/Help:Contents" ∧
      normalizeURL "en.wikipedia.org/wiki/Help:Contents"
        = some "en.wikipedia.org/wiki/Help:Contents") ∧
    (normalizeURL "http://///p" = some "///p" ∧ normalizeURL "///p" = some "///p") := by
  decide

/-- C9 (idempotence, amended): when `normalizeURL` succeeds on `x` with the key `k`, then
`normalizeURL k` succeeds and returns `k` exactly when `k` has no control byte, none of
`?`, `#`, `%`, no `:` before its first `/`, no leading `//` other than a leading `///`,
and no trailing `/`. -/
theorem C9_normalize_idempotent (x k : String) (hx : normalizeURL x = some k) :
    normalizeURL k = some k ↔ stableKey k = true :=
  ⟨stableKey_of_fixed k, fixed_of_stableKey k⟩

/-- Witness for C9: the two examples of the specification, a key with a `:` in its path,
and the key of the counterexample, which ends in `/`. -/
theorem C9_normalize_idempotent_witness :
    (normalizeURL "https://www.google.com/" = some "www.google.com" ∧
      stableKey "www.google.com" = true ∧
      normalizeURL "www.google.com" = some "www.google.com") ∧
    (normalizeURL "https://en.wikipedia.org/wiki/URL#Syntax" = some "en.wikipedia.org/wiki/URL" ∧
      stableKey "en.wikipedia.org/wiki/URL" = true ∧
      normalizeURL "en.wikipedia.org/wiki/URL" = some "en.wikipedia.org/wiki/URL") ∧
    (normalizeURL "https://en.wikipedia.org/wiki/Help:Contents"
        = some "en.wikipedia.org/wiki/Help:Contents" ∧
      stableKey "en.wikipedia.org/wiki/Help:Contents" = true ∧
      normalizeURL "en.wikipedia.org/wiki/Help:Contents"
        = some "en.wikipedia.org/wiki/Help:Contents") ∧
    (normalizeURL "http://example.com//" = some "example.com/" ∧
      stableKey "example.com/" = false ∧
      normalizeURL "example.com/" ≠ some "example.com/") :=
  ⟨⟨by decide, by decide,
     (C9_normalize_idempotent "https://www.google.com/" "www.google.com" (by decide)).2
       (by decide)⟩,
   ⟨by decide, by decide,
     (C9_normalize_idempotent "https://en.wikipedia.org/wiki/URL#Syntax"
       "en.wikipedia.org/wiki/URL" (by decide)).2 (by decide)⟩,
   ⟨by decide, by decide,
     (C9_normalize_idempotent "https://en.wikipedia.org/wiki/Help:Contents"
       "en.wikipedia.org/wiki/Help:Contents" (by decide)).2 (by decide)⟩,
   ⟨by decide, by decide,
     fun h => absurd ((C9_normalize_idempotent "http://example.com//" "example.com/"
       (by decide)).1 h) (by decide)⟩⟩

end WebCrawler
